import Mathlib

/-!
Polynomial secret recovery (`polynomial-secret-recovery.js`).

A shallow embedding of the three functions of the program, `baseToDecimal`,
`lagrangeInterpolation` and `solvePolynomialSecret`, together with the part of
the JavaScript `Number` type they compute with.

JavaScript numbers are IEEE 754 binary64 values.  A finite binary64 value is a
rational number, so the embedding keeps the values as rationals and rounds the
exact result of every arithmetic operation to the nearest binary64 value (ties
to even), with gradual underflow, signed zeros, overflow to the infinities and
NaN.  `Math.pow` is taken to return the correctly rounded power; every concrete
evaluation below that is used to refute a statement only calls it where the
power is exactly representable or says so.
-/

namespace Hashira

/-! ## JavaScript numbers -/

/-- A JavaScript `Number`: NaN, the two infinities, negative zero, or a finite
value (positive zero is `fin 0`). -/
inductive JSNum where
  | nan : JSNum
  | inf (neg : Bool) : JSNum
  | negZero : JSNum
  | fin (q : ℚ) : JSNum
  deriving DecidableEq

namespace JSNum

/-- Worker of `natLog2`: halve until below two; the first argument bounds the
number of steps. -/
def log2Aux : Nat → Nat → Nat
  | 0, _ => 0
  | fuel + 1, n => if n < 2 then 0 else log2Aux fuel (n / 2) + 1

/-- Position of the leading bit of `n` (`0` for `n = 0`). -/
def natLog2 (n : Nat) : Nat := log2Aux n n

/-- The rational `2 ^ t` for an integer exponent. -/
def pow2 (t : Int) : ℚ :=
  if 0 ≤ t then ((2 ^ t.toNat : Nat) : ℚ) else 1 / ((2 ^ (-t).toNat : Nat) : ℚ)

/-- For `a > 0`: the integer `e` with `2 ^ e ≤ a < 2 ^ (e + 1)`. -/
def floorLog2 (a : ℚ) : Int :=
  let e0 : Int := (natLog2 a.num.natAbs : Int) - (natLog2 a.den : Int)
  if pow2 e0 ≤ a then e0 else e0 - 1

/-- Round a non-negative rational to the nearest integer, ties to even. -/
def roundHalfEven (z : ℚ) : Int :=
  let f : Int := ⌊z⌋
  let r : ℚ := z - f
  if r < 1 / 2 then f
  else if 1 / 2 < r then f + 1
  else if f % 2 = 0 then f else f + 1

/-- A zero of the given sign. -/
def zero (neg : Bool) : JSNum := if neg then negZero else fin 0

/-- Round an exact rational result to binary64: 53 significant bits, least
exponent `-1074`, ties to even, overflow to infinity from `2 ^ 1024` on.  A
result that rounds to zero keeps the sign of the exact value. -/
def roundToDouble (q : ℚ) : JSNum :=
  if q = 0 then fin 0
  else
    let a : ℚ := |q|
    let t : Int := max (floorLog2 a - 52) (-1074)
    let m : Int := roundHalfEven (a / pow2 t)
    let r : ℚ := (m : ℚ) * pow2 t
    if pow2 1024 ≤ r then inf (decide (q < 0))
    else if m = 0 then zero (decide (q < 0))
    else fin (if q < 0 then -r else r)

/-- Sign bit of a number (NaN counts as positive; it is never used there). -/
def signBit : JSNum → Bool
  | nan => false
  | inf s => s
  | negZero => true
  | fin q => decide (q < 0)

/-- Whether the number is one of the two zeros. -/
def isZero : JSNum → Bool
  | negZero => true
  | fin q => decide (q = 0)
  | _ => false

/-- Whether the number is finite (neither NaN nor an infinity). -/
def isFinite : JSNum → Bool
  | negZero => true
  | fin _ => true
  | _ => false

/-- The rational value of a finite number. -/
def toRat : JSNum → Option ℚ
  | negZero => some 0
  | fin q => some q
  | _ => none

/-- Unary minus. -/
def neg : JSNum → JSNum
  | nan => nan
  | inf s => inf (!s)
  | negZero => fin 0
  | fin q => if q = 0 then negZero else fin (-q)

/-- Binary64 addition. -/
def add : JSNum → JSNum → JSNum
  | nan, _ => nan
  | _, nan => nan
  | inf s, inf t => if s = t then inf s else nan
  | inf s, _ => inf s
  | _, inf t => inf t
  | negZero, negZero => negZero
  | negZero, fin q => fin q
  | fin p, negZero => fin p
  | fin p, fin q => roundToDouble (p + q)

/-- Binary64 subtraction. -/
def sub (a b : JSNum) : JSNum := add a (neg b)

/-- Binary64 multiplication. -/
def mul (a b : JSNum) : JSNum :=
  match a, b with
  | nan, _ => nan
  | _, nan => nan
  | inf s, y => if y.isZero then nan else inf (xor s y.signBit)
  | x, inf t => if x.isZero then nan else inf (xor x.signBit t)
  | fin p, fin q =>
    if p = 0 ∨ q = 0 then zero (xor (decide (p < 0)) (decide (q < 0)))
    else roundToDouble (p * q)
  | x, y => zero (xor x.signBit y.signBit)

/-- Binary64 division. -/
def div (a b : JSNum) : JSNum :=
  match a, b with
  | nan, _ => nan
  | _, nan => nan
  | inf _, inf _ => nan
  | inf s, y => inf (xor s y.signBit)
  | x, inf t => zero (xor x.signBit t)
  | x, y =>
    if y.isZero then
      if x.isZero then nan else inf (xor x.signBit y.signBit)
    else if x.isZero then zero (xor x.signBit y.signBit)
    else
      match x, y with
      | fin p, fin q => roundToDouble (p / q)
      | _, _ => nan

instance : Add JSNum := ⟨add⟩
instance : Sub JSNum := ⟨sub⟩
instance : Mul JSNum := ⟨mul⟩
instance : Div JSNum := ⟨div⟩

/-- `Math.pow(base, power)` for a non-negative integer exponent, taken as the
correctly rounded power. -/
def mathPow (base : JSNum) (power : Nat) : JSNum :=
  if power = 0 then fin 1
  else
    match base with
    | nan => nan
    | inf s => inf (s && decide (power % 2 = 1))
    | negZero => if power % 2 = 1 then negZero else fin 0
    | fin q => if q = 0 then fin 0 else roundToDouble (q ^ power)

/-- `Math.round(x)`: the integer `⌊x + 1/2⌋`, with `-0` for `-1/2 ≤ x < 0`
and for `-0`; NaN and the infinities are returned unchanged. -/
def mathRound : JSNum → JSNum
  | nan => nan
  | inf s => inf s
  | negZero => negZero
  | fin q =>
    let r : Int := ⌊q + 1 / 2⌋
    if r = 0 ∧ q < 0 then negZero else fin r

end JSNum

open JSNum

/-! ## `baseToDecimal` -/

/-- The value the loop of `baseToDecimal` gives to one character: `parseInt`
of a decimal digit, otherwise the code of the lower-cased character minus the
code of `a`, plus ten. -/
def digitValue (digit : Char) : Int :=
  if '0' ≤ digit ∧ digit ≤ '9' then (digit.toNat : Int) - 48
  else (digit.toLower.toNat : Int) - 97 + 10

/-- The `for` loop of `baseToDecimal`: the characters still to be read, last
character first, the counter `power` and the accumulator `decimal`. -/
def baseToDecimalLoop (base : JSNum) : List Char → Nat → JSNum → JSNum
  | [], _, decimal => decimal
  | digit :: rest, power, decimal =>
    baseToDecimalLoop base rest (power + 1)
      (decimal + fin (digitValue digit) * mathPow base power)

/-- The function `baseToDecimal(value, base)`. -/
def baseToDecimal (value : String) (base : JSNum) : JSNum :=
  baseToDecimalLoop base value.toList.reverse 0 (fin 0)

/-! ## `lagrangeInterpolation` -/

/-- A point `{ x, y }`. -/
structure Point where
  x : JSNum
  y : JSNum
  deriving DecidableEq

/-- The inner `for` loop of `lagrangeInterpolation` for the outer index `i`:
the points still to be visited, the index `j` of the first of them, and the
running `term`. -/
def basisLoop (xi : JSNum) (i : Nat) : List Point → Nat → JSNum → JSNum
  | [], _, term => term
  | pj :: rest, j, term =>
    basisLoop xi i rest (j + 1)
      (if i ≠ j then term * ((fin 0 - pj.x) / (xi - pj.x)) else term)

/-- The outer `for` loop of `lagrangeInterpolation`: the points still to be
visited, the index `i` of the first of them, and the running `constantTerm`. -/
def termLoop (points : List Point) : List Point → Nat → JSNum → JSNum
  | [], _, constantTerm => constantTerm
  | p :: rest, i, constantTerm =>
    termLoop points rest (i + 1) (constantTerm + basisLoop p.x i points 0 p.y)

/-- The value of `constantTerm` when the loops of `lagrangeInterpolation`
are done, before `Math.round`. -/
def lagrangeSum (points : List Point) : JSNum :=
  termLoop points points 0 (fin 0)

/-- The function `lagrangeInterpolation(points)`. -/
def lagrangeInterpolation (points : List Point) : JSNum :=
  mathRound (lagrangeSum points)

/-! ## `solvePolynomialSecret` -/

/-- The characters `parseInt` skips at the start of its argument (white space
and line terminators). -/
def isJSWhiteSpace (c : Char) : Bool :=
  let n := c.toNat
  (9 ≤ n ∧ n ≤ 13) ∨ n = 32 ∨ n = 160 ∨ n = 5760 ∨ (8192 ≤ n ∧ n ≤ 8202) ∨
    n = 8232 ∨ n = 8233 ∨ n = 8239 ∨ n = 8287 ∨ n = 12288 ∨ n = 65279

/-- The value of a character as a digit of the given radix, if it is one. -/
def radixDigit (radix : Nat) (c : Char) : Option Nat :=
  let v : Option Nat :=
    if '0' ≤ c ∧ c ≤ '9' then some (c.toNat - 48)
    else if 'a' ≤ c ∧ c ≤ 'z' then some (c.toNat - 97 + 10)
    else if 'A' ≤ c ∧ c ≤ 'Z' then some (c.toNat - 65 + 10)
    else none
  match v with
  | some d => if d < radix then some d else none
  | none => none

/-- The longest prefix of digits of the radix, as digit values. -/
def takeDigits (radix : Nat) : List Char → List Nat
  | [] => []
  | c :: rest =>
    match radixDigit radix c with
    | some d => d :: takeDigits radix rest
    | none => []

/-- `parseInt(string)` with no radix argument: leading white space, an
optional sign, an optional `0x` prefix, then the longest run of digits; NaN
when there is no digit.  The integer is rounded to binary64. -/
def parseInt (s : String) : JSNum :=
  let s1 := s.toList.dropWhile isJSWhiteSpace
  let negative : Bool := s1.head? = some '-'
  let s2 := if s1.head? = some '-' ∨ s1.head? = some '+' then s1.tail else s1
  let hex : Bool := s2.take 2 = ['0', 'x'] ∨ s2.take 2 = ['0', 'X']
  let radix : Nat := if hex then 16 else 10
  let s3 := if hex then s2.drop 2 else s2
  let z := takeDigits radix s3
  if z = [] then nan
  else
    let mathInt : Nat := z.foldl (fun acc d => acc * radix + d) 0
    if mathInt = 0 then zero negative
    else roundToDouble (if negative then -(mathInt : ℚ) else (mathInt : ℚ))

/-- A point entry of the document: its `base` and `value` properties, `none`
for a property that is absent. -/
structure Entry where
  base : Option String
  value : Option String
  deriving DecidableEq

/-- The `keys` object: its `n` and `k` properties, `none` when absent. -/
structure Keys where
  n : Option Int
  k : Option Int
  deriving DecidableEq

/-- The parsed input document: the `keys` property (`none` when absent) and
the other properties in the order in which `for (key in data)` visits them. -/
structure Document where
  keys : Option Keys
  entries : List (String × Entry)

/-- The exception the program can throw: reading a property of `undefined`. -/
inductive JSError where
  | typeError : JSError
  deriving DecidableEq

/-- The body of the loop over the document: one entry to one point.  An absent
`base` is `parseInt(undefined)`; an absent `value` makes `value.toString()`
throw. -/
def decodeEntry (e : String × Entry) : Except JSError Point :=
  let x := parseInt e.1
  let base := parseInt (e.2.base.getD "undefined")
  match e.2.value with
  | none => Except.error JSError.typeError
  | some encodedValue => Except.ok { x := x, y := baseToDecimal encodedValue base }

/-- The loop over the document: the points in visiting order, or the first
exception. -/
def decodePoints : List (String × Entry) → Except JSError (List Point)
  | [] => Except.ok []
  | e :: rest =>
    match decodeEntry e with
    | Except.error err => Except.error err
    | Except.ok p =>
      match decodePoints rest with
      | Except.error err => Except.error err
      | Except.ok ps => Except.ok (p :: ps)

/-- Whether the comparator `(a, b) => a.x - b.x` of the sort returns a
positive number, that is, whether `a` has to come after `b`. -/
def comesAfter (a b : Point) : Bool :=
  match a.x - b.x with
  | inf false => true
  | fin q => decide (0 < q)
  | _ => false

/-- The order the comparator induces: `a` may stay before `b`. -/
def pointLE (a b : Point) : Prop := comesAfter a b = false

instance : DecidableRel pointLE := fun a b =>
  inferInstanceAs (Decidable (comesAfter a b = false))

/-- The call `points.sort((a, b) => a.x - b.x)`: a stable sort by the
comparator.  (For a comparator that is not consistent, which needs a NaN
among the differences, the language leaves the order to the engine.) -/
def sortPoints (points : List Point) : List Point :=
  points.insertionSort pointLE

/-- An argument of `slice` turned into a position in a list of length `len`:
a negative argument counts from the end. -/
def sliceIndex (len : Nat) (i : Int) : Nat :=
  if i < 0 then (len + i).toNat else min i.toNat len

/-- The call `array.slice(start, stop)` for integer arguments. -/
def slice {α : Type} (l : List α) (start stop : Int) : List α :=
  let s := sliceIndex l.length start
  let e := sliceIndex l.length stop
  (l.drop s).take (e - s)

/-- What a run of `solvePolynomialSecret` produces: the sorted points, the
points selected for the secret, the value it returns (`secret`), and the
secrets it only writes to the console under "Verification with different
point sets" (`verifyLog`), in the order written. -/
structure Outcome where
  points : List Point
  selectedPoints : List Point
  secret : JSNum
  verifyLog : List JSNum
  deriving DecidableEq

instance exceptDecidableEq {ε α : Type} [DecidableEq ε] [DecidableEq α] :
    DecidableEq (Except ε α) := fun a b =>
  match a, b with
  | Except.ok x, Except.ok y =>
    if h : x = y then isTrue (by rw [h]) else isFalse (fun h2 => h (Except.ok.inj h2))
  | Except.error x, Except.error y =>
    if h : x = y then isTrue (by rw [h]) else isFalse (fun h2 => h (Except.error.inj h2))
  | Except.ok _, Except.error _ => isFalse (fun h2 => Except.noConfusion h2)
  | Except.error _, Except.ok _ => isFalse (fun h2 => Except.noConfusion h2)

/-- The verification block: nothing unless `points.length > k`; then the last
`k` points, and for `points.length >= k + 2` also the window starting at
`Math.floor((points.length - k) / 2)`. -/
def verifySecrets (points : List Point) (k : Int) : List JSNum :=
  if (points.length : Int) > k then
    let verifySecret := lagrangeInterpolation (slice points (-k) points.length)
    if (points.length : Int) ≥ k + 2 then
      let midStart : Int := ((points.length : Int) - k) / 2
      [verifySecret, lagrangeInterpolation (slice points midStart (midStart + k))]
    else [verifySecret]
  else []

/-- The body of `solvePolynomialSecret(data)` on a parsed document, with what
it writes to the console kept next to what it returns.  Reading `data.keys.n`
throws when `keys` is absent; an absent `k` is `undefined`, for which
`slice(0, k)` keeps every point and `points.length > k` is false. -/
def solvePolynomialSecretTrace (data : Document) : Except JSError Outcome :=
  match data.keys with
  | none => Except.error JSError.typeError
  | some keys =>
    match decodePoints data.entries with
    | Except.error err => Except.error err
    | Except.ok decoded =>
      let points := sortPoints decoded
      let selectedPoints :=
        match keys.k with
        | none => points
        | some k => slice points 0 k
      let secret := lagrangeInterpolation selectedPoints
      let verifyLog :=
        match keys.k with
        | none => []
        | some k => verifySecrets points k
      Except.ok
        { points := points, selectedPoints := selectedPoints,
          secret := secret, verifyLog := verifyLog }

/-- The function `solvePolynomialSecret(data)`: its return value is the
number `secret`, or the exception thrown. -/
def solvePolynomialSecret (data : Document) : Except JSError JSNum :=
  match solvePolynomialSecretTrace data with
  | Except.error err => Except.error err
  | Except.ok outcome => Except.ok outcome.secret

/-- The document `testCase1`. -/
def testCase1 : Document :=
  { keys := some { n := some 4, k := some 3 },
    entries :=
      [("1", { base := some "10", value := some "4" }),
       ("2", { base := some "2", value := some "111" }),
       ("3", { base := some "10", value := some "12" }),
       ("6", { base := some "4", value := some "213" })] }

/-- The document `testCase2`. -/
def testCase2 : Document :=
  { keys := some { n := some 10, k := some 7 },
    entries :=
      [("1", { base := some "6", value := some "13444211440455345511" }),
       ("2", { base := some "15", value := some "aed7015a346d635" }),
       ("3", { base := some "15", value := some "6aeeb69631c227c" }),
       ("4", { base := some "16", value := some "e1b5e05623d881f" }),
       ("5", { base := some "8", value := some "316034514573652620673" }),
       ("6", { base := some "3", value := some "2122212201122002221120200210011020220200" }),
       ("7", { base := some "3", value := some "20120221122211000100210021102001201112121" }),
       ("8", { base := some "6", value := some "20220554335330240002224253" }),
       ("9", { base := some "12", value := some "45153788322a1255483" }),
       ("10", { base := some "7", value := some "1101613130313526312514143" })] }

/-! ## Reference values used in the statements -/

/-- The positional value of a list of characters read least significant first:
the character at position `i` counts `digitValue * b ^ (power + i)`. -/
def digitsValue (b : ℕ) : List Char → ℕ → ℤ
  | [], _ => 0
  | c :: rest, power => digitValue c * (b : ℤ) ^ power + digitsValue b rest (power + 1)

/-- The positional-notation value of the string `s` in base `b`: the sum over
the positions `i`, counted from the right and starting at `0`, of
`digitValue (s_i) * b ^ i`. -/
def positionalValue (b : ℕ) (s : String) : ℤ :=
  digitsValue b s.toList.reverse 0

/-- A character that is a digit of base `b`: a decimal digit or a letter whose
value is below `b`. -/
def validDigit (b : ℕ) (c : Char) : Prop :=
  (c.isDigit = true ∨ c.isAlpha = true) ∧ digitValue c < (b : ℤ)

instance validDigitDecidable (b : ℕ) (c : Char) : Decidable (validDigit b c) :=
  inferInstanceAs (Decidable (_ ∧ _))

/-- The character of a digit value below 36: `0`-`9`, then `a`-`z`. -/
def digitChar (d : ℕ) : Char :=
  if d < 10 then Char.ofNat (48 + d) else Char.ofNat (87 + d)

/-- The standard digit string of `v` in base `B`, most significant digit
first; zero is written `0`. -/
def encodeBase (B v : ℕ) : String :=
  if v = 0 then "0" else String.mk ((Nat.digits B v).reverse.map digitChar)

/-- The left-to-right evaluation of a digit string over the integers:
`acc := acc * base + digitValue`, starting from `0`. -/
def hornerValue (b : ℕ) (s : String) : ℤ :=
  s.toList.foldl (fun acc c => acc * (b : ℤ) + digitValue c) 0

/-- The same left-to-right evaluation carried out in JavaScript numbers. -/
def hornerNumber (base : JSNum) (s : String) : JSNum :=
  s.toList.foldl (fun acc c => acc * base + fin (digitValue c)) (fin 0)

/-- The string with every letter `A`-`Z` replaced by its lower-case letter. -/
def lowercase (s : String) : String := String.mk (s.toList.map Char.toLower)

/-- The string with every letter `a`-`z` replaced by its upper-case letter. -/
def uppercase (s : String) : String := String.mk (s.toList.map Char.toUpper)

/-- The inner loop of `lagrangeInterpolation` over the rationals, with no
rounding: the product of `(0 - x_j) / (x_i - x_j)` over the positions `j ≠ i`,
multiplied into `term`. -/
def exactBasisLoop (xi : ℚ) (i : ℕ) : List (ℚ × ℚ) → ℕ → ℚ → ℚ
  | [], _, term => term
  | pj :: rest, j, term =>
    exactBasisLoop xi i rest (j + 1)
      (if i ≠ j then term * ((0 - pj.1) / (xi - pj.1)) else term)

/-- The outer loop of `lagrangeInterpolation` over the rationals. -/
def exactTermLoop (points : List (ℚ × ℚ)) : List (ℚ × ℚ) → ℕ → ℚ → ℚ
  | [], _, constantTerm => constantTerm
  | p :: rest, i, constantTerm =>
    exactTermLoop points rest (i + 1) (constantTerm + exactBasisLoop p.1 i points 0 p.2)

/-- The exact rational sum `S = Σ_i y_i * Π_{j ≠ i} (0 - x_j) / (x_i - x_j)` of a
list of points `(x, y)`. -/
def exactLagrangeSum (points : List (ℚ × ℚ)) : ℚ :=
  exactTermLoop points points 0 0

/-- The points `{ x, y }` whose coordinates are the given rationals. -/
def toPoints (points : List (ℚ × ℚ)) : List Point :=
  points.map (fun p => { x := fin p.1, y := fin p.2 })

/-- The rounding error of the floating-point Lagrange sum of the points stays
below one half: the loops of `lagrangeInterpolation` end on a finite number
`T` with `|T - S| < 1/2` for the exact sum `S` of the same points. -/
def roundingErrorSmall (points : List (ℚ × ℚ)) : Prop :=
  match (lagrangeSum (toPoints points)).toRat with
  | some T => |T - exactLagrangeSum points| < 1 / 2
  | none => False

instance roundingErrorSmallDecidable (points : List (ℚ × ℚ)) :
    Decidable (roundingErrorSmall points) := by
  unfold roundingErrorSmall
  cases (lagrangeSum (toPoints points)).toRat with
  | none => exact isFalse not_false
  | some T => exact inferInstanceAs (Decidable (|T - exactLagrangeSum points| < 1 / 2))

/-- The value at `x` of the polynomial with the given integer coefficients,
constant term first. -/
def evalPoly : List ℤ → ℤ → ℤ
  | [], _ => 0
  | c :: cs, x => c + x * evalPoly cs x

/-- The points `(x, p x)` of the polynomial with the given coefficients at the
given integers. -/
def samplePoints (coeffs : List ℤ) (xs : List ℤ) : List (ℚ × ℚ) :=
  xs.map (fun (x : ℤ) => ((x : ℚ), ((evalPoly coeffs x : ℤ) : ℚ)))

/-- The rational x coordinate of a point (`0` when it is not finite). -/
def xValue (p : Point) : ℚ := p.x.toRat.getD 0

/-- The point the loop over the document builds from an entry that has a
`value`. -/
def entryPoint (e : String × Entry) : Point :=
  { x := parseInt e.1,
    y := baseToDecimal (e.2.value.getD "") (parseInt (e.2.base.getD "undefined")) }

/-- The unit roundoff of binary64, `2 ^ (-53)`. -/
def unitRoundoff : ℚ := 1 / 2 ^ 53

/-- The bound on the error of a running sum after `i` additions, each of which
adds at most `K` to the error and rounds once. -/
def sumErrorBound (K : ℚ) : ℕ → ℚ
  | 0 => 0
  | i + 1 => (1 + unitRoundoff) * sumErrorBound K i + K

/-- An a-priori bound on the rounding error of the floating-point Lagrange sum
of `n` points with integer coordinates `|x| ≤ X`, `|y| ≤ Y`: every term is
within the relative error `(1 + 2^-53) ^ (2 n) - 1` of its exact value, which
is at most `Y * X ^ n`, and every addition rounds once more.  It is about
`3 n^2 * 2^-53 * Y * X ^ n`. -/
def lagrangeErrorBound (n X Y : ℕ) : ℚ :=
  sumErrorBound
    (((1 + unitRoundoff) ^ (2 * n) - 1) * ((Y : ℚ) * (X : ℚ) ^ n)
      + unitRoundoff * ((n : ℚ) + (1 + unitRoundoff) ^ (2 * n)) * ((Y : ℚ) * (X : ℚ) ^ n)
      + 1 / 2 ^ 1075) n

/-- The size conditions under which the rounding error of the Lagrange sum of
`n` integer points with `|x| ≤ X`, `|y| ≤ Y` is below one half: no overflow, no
underflow, and `lagrangeErrorBound n X Y < 1/2`. -/
def lagrangeBoundOK (n X Y : ℕ) : Prop :=
  1 ≤ X ∧ 2 * X ≤ 2 ^ 53 ∧ (2 * X) ^ n ≤ 2 ^ 1021 ∧
    (n + 2) * (Y * X ^ n) + 1 ≤ 2 ^ 1023 ∧
    (1 + unitRoundoff) ^ (2 * n) ≤ 5 / 4 ∧ lagrangeErrorBound n X Y < 1 / 2

instance lagrangeBoundOKDecidable (n X Y : ℕ) : Decidable (lagrangeBoundOK n X Y) :=
  inferInstanceAs (Decidable (_ ∧ _))

/-! ## Properties -/

namespace JSNum

/-! ### Rounding: representable values are fixed -/

theorem pow2_eq (t : ℤ) : pow2 t = (2 : ℚ) ^ t := by
  unfold pow2
  split_ifs with h
  · obtain ⟨n, rfl⟩ := Int.eq_ofNat_of_zero_le h
    simp
  · obtain ⟨n, hn⟩ := Int.exists_eq_neg_ofNat (le_of_lt (not_le.mp h))
    subst hn
    simp

theorem pow2_pos (t : ℤ) : 0 < pow2 t := by
  rw [pow2_eq]; positivity

theorem pow2_le_pow2 {s t : ℤ} (h : s ≤ t) : pow2 s ≤ pow2 t := by
  rw [pow2_eq, pow2_eq]
  exact zpow_le_zpow_right₀ (by norm_num) h

theorem pow2_lt_pow2 {s t : ℤ} (h : s < t) : pow2 s < pow2 t := by
  rw [pow2_eq, pow2_eq]
  exact zpow_lt_zpow_right₀ (by norm_num) h

theorem pow2_lt_pow2_iff {s t : ℤ} : pow2 s < pow2 t ↔ s < t := by
  constructor
  · intro h
    by_contra hc
    exact absurd (pow2_le_pow2 (not_lt.mp hc)) (not_le.mpr h)
  · exact pow2_lt_pow2

theorem pow2_add (s t : ℤ) : pow2 (s + t) = pow2 s * pow2 t := by
  rw [pow2_eq, pow2_eq, pow2_eq, zpow_add₀ (by norm_num)]

theorem pow2_natCast (n : ℕ) : pow2 (n : ℤ) = ((2 ^ n : ℕ) : ℚ) := by
  rw [pow2_eq]; simp

theorem log2Aux_spec : ∀ (fuel n : ℕ), 0 < n → n ≤ fuel →
    2 ^ log2Aux fuel n ≤ n ∧ n < 2 ^ (log2Aux fuel n + 1) := by
  intro fuel
  induction fuel with
  | zero => intro n h0 h1; omega
  | succ f ih =>
    intro n h0 h1
    unfold log2Aux
    split_ifs with h2
    · constructor <;> simp <;> omega
    · have h3 := ih (n / 2) (by omega) (by omega)
      obtain ⟨h4, h5⟩ := h3
      constructor
      · rw [pow_succ]; omega
      · rw [pow_succ]; omega

theorem natLog2_spec (n : ℕ) (h : 0 < n) :
    2 ^ natLog2 n ≤ n ∧ n < 2 ^ (natLog2 n + 1) :=
  log2Aux_spec n n h le_rfl

theorem floorLog2_spec (a : ℚ) (ha : 0 < a) :
    pow2 (floorLog2 a) ≤ a ∧ a < pow2 (floorLog2 a + 1) := by
  have hnum : 0 < a.num := Rat.num_pos.mpr ha
  have hn : 0 < a.num.natAbs := Int.natAbs_pos.mpr (ne_of_gt hnum)
  have hd : 0 < a.den := a.den_pos
  obtain ⟨n1, n2⟩ := natLog2_spec _ hn
  obtain ⟨d1, d2⟩ := natLog2_spec _ hd
  have hnq : (a.num.natAbs : ℚ) = a.num := by
    rw [← Int.cast_natCast, Int.natAbs_of_nonneg (le_of_lt hnum)]
  have haq : a = (a.num.natAbs : ℚ) / (a.den : ℚ) := by
    rw [hnq]; exact (Rat.num_div_den a).symm
  have hdq : (0 : ℚ) < a.den := by exact_mod_cast hd
  have n1q : pow2 (natLog2 a.num.natAbs : ℤ) ≤ (a.num.natAbs : ℚ) := by
    rw [pow2_natCast]; exact_mod_cast n1
  have n2q : (a.num.natAbs : ℚ) < pow2 ((natLog2 a.num.natAbs : ℤ) + 1) := by
    have : ((natLog2 a.num.natAbs : ℤ) + 1) = ((natLog2 a.num.natAbs + 1 : ℕ) : ℤ) := by push_cast; ring
    rw [this, pow2_natCast]; exact_mod_cast n2
  have d1q : pow2 (natLog2 a.den : ℤ) ≤ (a.den : ℚ) := by
    rw [pow2_natCast]; exact_mod_cast d1
  have d2q : (a.den : ℚ) < pow2 ((natLog2 a.den : ℤ) + 1) := by
    have : ((natLog2 a.den : ℤ) + 1) = ((natLog2 a.den + 1 : ℕ) : ℤ) := by push_cast; ring
    rw [this, pow2_natCast]; exact_mod_cast d2
  unfold floorLog2
  simp only
  split_ifs with h
  · refine ⟨h, ?_⟩
    -- a = n / d < 2^(ln+1) / 2^ld
    rw [show ((natLog2 a.num.natAbs : ℤ) - (natLog2 a.den : ℤ) + 1)
      = ((natLog2 a.num.natAbs : ℤ) + 1) + (-(natLog2 a.den : ℤ)) by ring, pow2_add]
    have hinv : pow2 (-(natLog2 a.den : ℤ)) = (pow2 (natLog2 a.den : ℤ))⁻¹ := by
      rw [pow2_eq, pow2_eq, zpow_neg]
    rw [hinv, ← div_eq_mul_inv]
    calc a = (a.num.natAbs : ℚ) / a.den := haq
      _ ≤ (a.num.natAbs : ℚ) / pow2 (natLog2 a.den : ℤ) := by
          apply div_le_div_of_nonneg_left (by positivity) (pow2_pos _) d1q
      _ < pow2 ((natLog2 a.num.natAbs : ℤ) + 1) / pow2 (natLog2 a.den : ℤ) := by
          apply div_lt_div_of_pos_right n2q (pow2_pos _)
  · constructor
    · rw [show ((natLog2 a.num.natAbs : ℤ) - (natLog2 a.den : ℤ) - 1)
        = (natLog2 a.num.natAbs : ℤ) + (-((natLog2 a.den : ℤ) + 1)) by ring, pow2_add]
      have hinv : pow2 (-((natLog2 a.den : ℤ) + 1)) = (pow2 ((natLog2 a.den : ℤ) + 1))⁻¹ := by
        rw [pow2_eq, pow2_eq, zpow_neg]
      rw [hinv, ← div_eq_mul_inv]
      calc pow2 (natLog2 a.num.natAbs : ℤ) / pow2 ((natLog2 a.den : ℤ) + 1)
            ≤ (a.num.natAbs : ℚ) / pow2 ((natLog2 a.den : ℤ) + 1) := by
            apply div_le_div_of_nonneg_right n1q (le_of_lt (pow2_pos _))
        _ ≤ (a.num.natAbs : ℚ) / a.den := by
            apply div_le_div_of_nonneg_left (by positivity) hdq (le_of_lt d2q)
        _ = a := haq.symm
    · rw [show ((natLog2 a.num.natAbs : ℤ) - (natLog2 a.den : ℤ) - 1 + 1)
        = (natLog2 a.num.natAbs : ℤ) - (natLog2 a.den : ℤ) by ring]
      exact not_le.mp h

theorem roundHalfEven_intCast (k : ℤ) : roundHalfEven (k : ℚ) = k := by
  unfold roundHalfEven
  simp

/-- A rational that is a binary64 value is not changed by rounding. -/
theorem roundToDouble_exact (q : ℚ) (m t : ℤ) (hq : q = (m : ℚ) * pow2 t)
    (hm : |m| < 2 ^ 53) (ht : -1074 ≤ t) (hbig : |q| < pow2 1024) (hq0 : q ≠ 0) :
    roundToDouble q = fin q := by
  have ha : 0 < |q| := abs_pos.mpr hq0
  have habs : |q| = ((|m| : ℤ) : ℚ) * pow2 t := by
    rw [hq, abs_mul, abs_of_pos (pow2_pos t), Int.cast_abs]
  obtain ⟨e1, _⟩ := floorLog2_spec |q| ha
  have he : floorLog2 |q| - 52 ≤ t := by
    have h1 : pow2 (floorLog2 |q|) < pow2 (53 + t) := by
      calc pow2 (floorLog2 |q|) ≤ |q| := e1
        _ = ((|m| : ℤ) : ℚ) * pow2 t := habs
        _ < pow2 53 * pow2 t := by
            apply mul_lt_mul_of_pos_right _ (pow2_pos t)
            have : pow2 53 = ((2 ^ 53 : ℤ) : ℚ) := by rw [pow2_eq]; norm_num
            rw [this]; exact_mod_cast hm
        _ = pow2 (53 + t) := (pow2_add 53 t).symm
    have := pow2_lt_pow2_iff.mp h1
    omega
  have ht2 : max (floorLog2 |q| - 52) (-1074) ≤ t := max_le he ht
  have key : ∀ T : ℤ, T ≤ t → ∃ K : ℤ, |q| / pow2 T = (K : ℚ) ∧ (K : ℚ) * pow2 T = |q| := by
    intro T hT
    obtain ⟨d, hd⟩ := Int.eq_ofNat_of_zero_le (sub_nonneg.mpr hT)
    have htd : t = (d : ℤ) + T := by omega
    have hp := pow2_pos T
    have h1 : |q| = ((|m| * 2 ^ d : ℤ) : ℚ) * pow2 T := by
      rw [habs, htd, pow2_add, pow2_natCast]; push_cast; ring
    refine ⟨|m| * 2 ^ d, ?_, h1.symm⟩
    rw [h1]; field_simp
  obtain ⟨K, hdiv, hr⟩ := key _ ht2
  have hK : K ≠ 0 := by
    intro h0
    rw [h0] at hr
    simp at hr
    exact (ne_of_gt ha) hr.symm
  unfold roundToDouble
  simp only [hq0, if_false, hdiv, roundHalfEven_intCast, hr, not_le.mpr hbig, hK]
  congr 1
  split_ifs with hneg
  · rw [abs_of_neg hneg]; ring
  · rw [abs_of_nonneg (not_lt.mp hneg)]

theorem roundToDouble_intCast (n : ℤ) (hn : |n| ≤ 2 ^ 53) :
    roundToDouble (n : ℚ) = fin (n : ℚ) := by
  by_cases h0 : n = 0
  · subst h0; simp [roundToDouble]
  have hq0 : (n : ℚ) ≠ 0 := by exact_mod_cast h0
  have hbig : |(n : ℚ)| < pow2 1024 := by
    have : pow2 1024 = ((2 ^ 1024 : ℤ) : ℚ) := by rw [pow2_eq]; norm_num
    rw [this, ← Int.cast_abs]
    have : |n| < 2 ^ 1024 := lt_of_le_of_lt hn (by norm_num)
    exact_mod_cast this
  rcases lt_or_eq_of_le hn with h | h
  · exact roundToDouble_exact _ n 0 (by simp [pow2]) h (by norm_num) hbig hq0
  · -- |n| = 2 ^ 53
    have hsign : n = 2 ^ 53 ∨ n = -2 ^ 53 := by
      rcases abs_cases n with ⟨h1, _⟩ | ⟨h1, _⟩ <;> [left; right] <;> omega
    rcases hsign with h1 | h1
    · exact roundToDouble_exact _ 1 53 (by rw [h1, pow2_eq]; norm_num) (by norm_num)
        (by norm_num) hbig hq0
    · exact roundToDouble_exact _ (-1) 53 (by rw [h1, pow2_eq]; norm_num) (by norm_num)
        (by norm_num) hbig hq0

end JSNum

namespace JSNum

/-! ### Integer arithmetic below `2 ^ 53` is exact -/

theorem add_def (a b : JSNum) : a + b = add a b := rfl
theorem sub_def (a b : JSNum) : a - b = add a (neg b) := rfl
theorem mul_def (a b : JSNum) : a * b = mul a b := rfl
theorem div_def (a b : JSNum) : a / b = div a b := rfl

theorem add_fin_int (A B : ℤ) (h : |A + B| ≤ 2 ^ 53) :
    (fin (A : ℚ) + fin (B : ℚ) : JSNum) = fin ((A + B : ℤ) : ℚ) := by
  rw [add_def]
  show roundToDouble ((A : ℚ) + (B : ℚ)) = _
  rw [← Int.cast_add]
  exact roundToDouble_intCast _ h

theorem mul_fin_nat (A B : ℕ) (h : A * B ≤ 2 ^ 53) :
    (fin (A : ℚ) * fin (B : ℚ) : JSNum) = fin ((A * B : ℕ) : ℚ) := by
  rw [mul_def]
  unfold mul
  simp only
  split_ifs with h0
  · have hA : ¬ ((A : ℚ) < 0) := not_lt.mpr (Nat.cast_nonneg A)
    have hB : ¬ ((B : ℚ) < 0) := not_lt.mpr (Nat.cast_nonneg B)
    have : ((A * B : ℕ) : ℚ) = 0 := by
      rcases h0 with h0 | h0 <;> simp [h0]
    simp [zero, hA, hB, this]
  · have := roundToDouble_intCast ((A * B : ℕ) : ℤ) (by
      rw [abs_of_nonneg (by positivity)]; exact_mod_cast h)
    push_cast at this ⊢
    exact this

theorem mathPow_fin_nat (b p : ℕ) (h : b ^ p ≤ 2 ^ 53) :
    mathPow (fin (b : ℚ)) p = fin ((b ^ p : ℕ) : ℚ) := by
  unfold mathPow
  by_cases hp : p = 0
  · subst hp; simp
  · rw [if_neg hp]
    show (if (b : ℚ) = 0 then fin 0 else roundToDouble ((b : ℚ) ^ p)) = _
    split_ifs with hb
    · have hb0 : b = 0 := by exact_mod_cast hb
      subst hb0
      simp [hp]
    · have := roundToDouble_intCast ((b ^ p : ℕ) : ℤ) (by
        rw [abs_of_nonneg (by positivity)]; exact_mod_cast h)
      push_cast at this ⊢
      exact this

end JSNum

/-! ### The positional value of a digit string -/

theorem digitsValue_cons (b : ℕ) (c : Char) (rest : List Char) (p : ℕ) :
    digitsValue b (c :: rest) p
      = digitValue c * (b : ℤ) ^ p + digitsValue b rest (p + 1) := rfl

theorem digitsValue_nonneg (b : ℕ) : ∀ (l : List Char) (p : ℕ),
    (∀ c ∈ l, 0 ≤ digitValue c) → 0 ≤ digitsValue b l p := by
  intro l
  induction l with
  | nil => intro p _; simp [digitsValue]
  | cons c rest ih =>
    intro p h
    unfold digitsValue
    have h1 := h c (List.mem_cons_self _ _)
    have h2 := ih (p + 1) (fun c hc => h c (List.mem_cons_of_mem _ hc))
    positivity

theorem digitsValue_bound (b : ℕ) : ∀ (l : List Char) (p : ℕ),
    (∀ c ∈ l, digitValue c < (b : ℤ)) →
    digitsValue b l p + (b : ℤ) ^ p ≤ (b : ℤ) ^ (p + l.length) := by
  intro l
  induction l with
  | nil => intro p _; simp [digitsValue]
  | cons c rest ih =>
    intro p h
    unfold digitsValue
    have h1 := h c (List.mem_cons_self _ _)
    have h2 := ih (p + 1) (fun c hc => h c (List.mem_cons_of_mem _ hc))
    have h3 : (p + (c :: rest).length) = p + 1 + rest.length := by simp; ring
    rw [h3]
    have h4 : (b : ℤ) ^ (p + 1) = (b : ℤ) ^ p * b := pow_succ _ _
    have h5 : 0 ≤ (b : ℤ) ^ p := by positivity
    have h6 : digitValue c * (b : ℤ) ^ p ≤ ((b : ℤ) - 1) * (b : ℤ) ^ p :=
      mul_le_mul_of_nonneg_right (by omega) h5
    nlinarith

/-- The loop of `baseToDecimal` is exact as long as the powers it uses and the
sum it reaches stay at or below `2 ^ 53` and no digit value is negative. -/
theorem baseToDecimalLoop_exact (b : ℕ) : ∀ (l : List Char) (p : ℕ) (A : ℤ),
    0 ≤ A → (∀ c ∈ l, 0 ≤ digitValue c) →
    (∀ i, i < l.length → b ^ (p + i) ≤ 2 ^ 53) →
    A + digitsValue b l p ≤ 2 ^ 53 →
    baseToDecimalLoop (fin (b : ℚ)) l p (fin (A : ℚ)) = fin ((A + digitsValue b l p : ℤ) : ℚ) := by
  intro l
  induction l with
  | nil => intro p A _ _ _ _; simp [baseToDecimalLoop, digitsValue]
  | cons c rest ih =>
    intro p A hA hd hp hs
    unfold baseToDecimalLoop
    have hc := hd c (List.mem_cons_self _ _)
    have hrest : ∀ c ∈ rest, 0 ≤ digitValue c := fun c hc => hd c (List.mem_cons_of_mem _ hc)
    have hnn := digitsValue_nonneg b rest (p + 1) hrest
    have hpow : b ^ p ≤ 2 ^ 53 := by simpa using hp 0 (by simp)
    rw [digitsValue_cons] at hs
    obtain ⟨dn, hdn⟩ := Int.eq_ofNat_of_zero_le hc
    have hprod : (dn : ℤ) * (b : ℤ) ^ p ≤ 2 ^ 53 := by
      rw [hdn] at hs; linarith
    have hprodN : dn * b ^ p ≤ 2 ^ 53 := by exact_mod_cast hprod
    rw [mathPow_fin_nat b p hpow, hdn]
    have e1 : (fin (((dn : ℕ) : ℤ) : ℚ) * fin ((b ^ p : ℕ) : ℚ) : JSNum)
        = fin ((dn * b ^ p : ℕ) : ℚ) := by
      have := mul_fin_nat dn (b ^ p) hprodN
      simpa using this
    rw [e1]
    have e2 : (fin (A : ℚ) + fin ((dn * b ^ p : ℕ) : ℚ) : JSNum)
        = fin ((A + (dn * b ^ p : ℕ) : ℤ) : ℚ) := by
      have := add_fin_int A ((dn * b ^ p : ℕ) : ℤ) (by
        rw [abs_of_nonneg (by positivity)]
        rw [hdn] at hs; push_cast; linarith)
      simpa using this
    rw [e2]
    have e3 := ih (p + 1) (A + (dn * b ^ p : ℕ)) (by positivity) hrest
      (fun i hi => by
        have := hp (i + 1) (by simp; omega)
        rwa [show p + (i + 1) = p + 1 + i by ring] at this)
      (by rw [hdn] at hs; push_cast; linarith)
    rw [e3, digitsValue_cons, hdn]
    congr 1
    push_cast; ring

/-! ### Characters and digit values -/

theorem char_le_iff (a b : Char) : a ≤ b ↔ a.toNat ≤ b.toNat := by
  rw [Char.le_def]
  exact Iff.rfl

theorem toLower_upper : ∀ n, 65 ≤ n → n ≤ 90 → (Char.ofNat n).toLower.toNat = n + 32 := by
  intro n h1 h2
  interval_cases n <;> rfl

theorem toUpper_lower : ∀ n, 97 ≤ n → n ≤ 122 → (Char.ofNat n).toUpper.toNat = n - 32 := by
  intro n h1 h2
  interval_cases n <;> rfl

theorem toLower_of_not_upper (c : Char) (h : ¬ (65 ≤ c.toNat ∧ c.toNat ≤ 90)) :
    c.toLower = c := by
  unfold Char.toLower
  exact if_neg h

theorem toUpper_of_not_lower (c : Char) (h : ¬ (97 ≤ c.toNat ∧ c.toNat ≤ 122)) :
    c.toUpper = c := by
  unfold Char.toUpper
  exact if_neg h

theorem isDigit_iff (c : Char) : c.isDigit = true ↔ 48 ≤ c.toNat ∧ c.toNat ≤ 57 := by
  unfold Char.isDigit
  rw [Bool.and_eq_true, decide_eq_true_iff, decide_eq_true_iff]
  exact Iff.rfl

theorem isUpper_iff (c : Char) : c.isUpper = true ↔ 65 ≤ c.toNat ∧ c.toNat ≤ 90 := by
  unfold Char.isUpper
  rw [Bool.and_eq_true, decide_eq_true_iff, decide_eq_true_iff]
  exact Iff.rfl

theorem isLower_iff (c : Char) : c.isLower = true ↔ 97 ≤ c.toNat ∧ c.toNat ≤ 122 := by
  unfold Char.isLower
  rw [Bool.and_eq_true, decide_eq_true_iff, decide_eq_true_iff]
  exact Iff.rfl

theorem isAlpha_iff (c : Char) :
    c.isAlpha = true ↔ (65 ≤ c.toNat ∧ c.toNat ≤ 90) ∨ (97 ≤ c.toNat ∧ c.toNat ≤ 122) := by
  unfold Char.isAlpha
  rw [Bool.or_eq_true, isUpper_iff, isLower_iff]

theorem digitValue_digit (c : Char) (h : 48 ≤ c.toNat ∧ c.toNat ≤ 57) :
    digitValue c = (c.toNat : ℤ) - 48 := by
  unfold digitValue
  rw [if_pos]
  rw [char_le_iff, char_le_iff]
  exact h

theorem digitValue_not_digit (c : Char) (h : ¬ (48 ≤ c.toNat ∧ c.toNat ≤ 57)) :
    digitValue c = (c.toLower.toNat : ℤ) - 97 + 10 := by
  unfold digitValue
  rw [if_neg]
  rw [char_le_iff, char_le_iff]
  exact h

theorem digitValue_lower (c : Char) (h : 97 ≤ c.toNat ∧ c.toNat ≤ 122) :
    digitValue c = (c.toNat : ℤ) - 87 := by
  rw [digitValue_not_digit c (by omega), toLower_of_not_upper c (by omega)]
  ring

theorem digitValue_upper (c : Char) (h : 65 ≤ c.toNat ∧ c.toNat ≤ 90) :
    digitValue c = (c.toNat : ℤ) - 55 := by
  rw [digitValue_not_digit c (by omega)]
  have h1 := toLower_upper c.toNat h.1 h.2
  rw [Char.ofNat_toNat] at h1
  rw [h1]
  push_cast; ring

theorem digitValue_nonneg_of_alnum (c : Char) (h : c.isDigit = true ∨ c.isAlpha = true) :
    0 ≤ digitValue c := by
  rcases h with h | h
  · rw [isDigit_iff] at h
    rw [digitValue_digit c h]; omega
  · rw [isAlpha_iff] at h
    rcases h with h | h
    · rw [digitValue_upper c h]; omega
    · rw [digitValue_lower c h]; omega

/-! ## The two documents of the program -/

/-- C3: on `testCase1` the run builds the points (1,4), (2,7), (3,12), (6,39),
selects (1,4), (2,7), (3,12) and returns the secret 3 (the last three points,
written to the log as verification, give 3 as well). -/
theorem testCase1_outcome :
    solvePolynomialSecretTrace testCase1 = Except.ok
      { points := [⟨fin 1, fin 4⟩, ⟨fin 2, fin 7⟩, ⟨fin 3, fin 12⟩, ⟨fin 6, fin 39⟩],
        selectedPoints := [⟨fin 1, fin 4⟩, ⟨fin 2, fin 7⟩, ⟨fin 3, fin 12⟩],
        secret := fin 3, verifyLog := [fin 3] } ∧
    solvePolynomialSecret testCase1 = Except.ok (fin 3) ∧
    lagrangeInterpolation [⟨fin 1, fin 4⟩, ⟨fin 2, fin 7⟩, ⟨fin 3, fin 12⟩] = fin 3 := by
  decide!

/-! ### `baseToDecimal` on small values -/

theorem digitsValue_le_mul (b : ℕ) (hb : 2 ≤ b) (D : ℤ) (hD : 0 ≤ D) :
    ∀ (l : List Char) (p : ℕ), (∀ c ∈ l, digitValue c ≤ D) →
    digitsValue b l p + D * (b : ℤ) ^ p ≤ D * (b : ℤ) ^ (p + l.length) := by
  intro l
  induction l with
  | nil => intro p _; simp [digitsValue]
  | cons c rest ih =>
    intro p h
    rw [digitsValue_cons]
    have h1 := h c (List.mem_cons_self _ _)
    have h2 := ih (p + 1) (fun c hc => h c (List.mem_cons_of_mem _ hc))
    have h3 : (p + (c :: rest).length) = p + 1 + rest.length := by simp; ring
    rw [h3]
    have h4 : (b : ℤ) ^ (p + 1) = (b : ℤ) ^ p * b := pow_succ _ _
    have h5 : 0 ≤ (b : ℤ) ^ p := by positivity
    have h6 : digitValue c * (b : ℤ) ^ p ≤ D * (b : ℤ) ^ p :=
      mul_le_mul_of_nonneg_right h1 h5
    have h7 : (2 : ℤ) ≤ b := by exact_mod_cast hb
    have h8 : 0 ≤ D * (b : ℤ) ^ p := mul_nonneg hD h5
    have h9 : D * (b : ℤ) ^ p * 2 ≤ D * (b : ℤ) ^ p * b := mul_le_mul_of_nonneg_left h7 h8
    rw [h4] at h2
    nlinarith

theorem pow_le_of_le_length (b : ℕ) (hb : 1 ≤ b) {i n m : ℕ} (hi : i < n) (hn : b ^ (n - 1) ≤ m) :
    b ^ (0 + i) ≤ m := by
  rw [Nat.zero_add]
  exact le_trans (Nat.pow_le_pow_right hb (by omega)) hn

/-- The exactness of `baseToDecimal` in terms of the string: no negative digit
value, the highest power used and the value itself at most `2 ^ 53`. -/
theorem baseToDecimal_exact (b : ℕ) (hb : 1 ≤ b) (s : String)
    (hd : ∀ c ∈ s.toList, 0 ≤ digitValue c)
    (hp : b ^ (s.length - 1) ≤ 2 ^ 53)
    (hv : positionalValue b s ≤ 2 ^ 53) :
    baseToDecimal s (fin (b : ℚ)) = fin ((positionalValue b s : ℤ) : ℚ) := by
  unfold baseToDecimal positionalValue
  have h := baseToDecimalLoop_exact b s.toList.reverse 0 0 le_rfl
    (fun c hc => hd c (List.mem_reverse.mp hc))
    (fun i hi => by
      rw [List.length_reverse] at hi
      exact pow_le_of_le_length b hb hi hp)
    (by unfold positionalValue at hv; simpa using hv)
  simpa using h

theorem pow_pred_le (b n : ℕ) (hb : 1 ≤ b) : b ^ (n - 1) ≤ b ^ n :=
  Nat.pow_le_pow_right hb (by omega)

theorem positionalValue_lt (b : ℕ) (s : String) (hv : ∀ c ∈ s.toList, validDigit b c) :
    positionalValue b s < (b : ℤ) ^ s.length := by
  unfold positionalValue
  have h := digitsValue_bound b s.toList.reverse 0
    (fun c hc => (hv c (List.mem_reverse.mp hc)).2)
  simp only [List.length_reverse, zero_add, pow_zero] at h
  have : s.length = s.toList.length := rfl
  rw [this]
  omega

theorem positionalValue_nonneg (b : ℕ) (s : String)
    (hd : ∀ c ∈ s.toList, 0 ≤ digitValue c) : 0 ≤ positionalValue b s :=
  digitsValue_nonneg b _ 0 (fun c hc => hd c (List.mem_reverse.mp hc))

/-- C1 (amended): for a base `b` from 2 to 36 and a non-empty string `s` of
valid digits of base `b` with `b ^ length s ≤ 2 ^ 53`, `baseToDecimal (s, b)`
is the positional-notation value of `s`. -/
theorem baseToDecimal_eq_positionalValue (b : ℕ) (s : String)
    (hb : 2 ≤ b ∧ b ≤ 36) (_hs : s ≠ "")
    (hv : ∀ c ∈ s.toList, validDigit b c)
    (hsmall : b ^ s.length ≤ 2 ^ 53) :
    baseToDecimal s (fin (b : ℚ)) = fin ((positionalValue b s : ℤ) : ℚ) := by
  have hb1 : 1 ≤ b := by omega
  apply baseToDecimal_exact b hb1 s
  · exact fun c hc => digitValue_nonneg_of_alnum c (hv c hc).1
  · exact le_trans (pow_pred_le b _ hb1) hsmall
  · have h1 := positionalValue_lt b s hv
    have h2 : ((b ^ s.length : ℕ) : ℤ) ≤ 2 ^ 53 := by exact_mod_cast hsmall
    push_cast at h2
    omega

/-- C1 (amended), at `"111"` in base 2 and `"213"` in base 4: the values are 7
and 39. -/
theorem baseToDecimal_eq_positionalValue_witness :
    (baseToDecimal "111" (fin ((2 : ℕ) : ℚ)) = fin ((positionalValue 2 "111" : ℤ) : ℚ)
      ∧ positionalValue 2 "111" = 7)
    ∧ (baseToDecimal "213" (fin ((4 : ℕ) : ℚ)) = fin ((positionalValue 4 "213" : ℤ) : ℚ)
      ∧ positionalValue 4 "213" = 39) :=
  ⟨⟨baseToDecimal_eq_positionalValue 2 "111" (by decide) (by decide) (by decide) (by decide),
      by decide⟩,
    ⟨baseToDecimal_eq_positionalValue 4 "213" (by decide) (by decide) (by decide) (by decide),
      by decide⟩⟩

/-- C1 (as stated) fails: `"9007199254740993"` is a non-empty string of valid
decimal digits, its positional value is `2 ^ 53 + 1`, and `baseToDecimal`
returns `2 ^ 53`.  (The powers of ten used here are below `2 ^ 53`.) -/
theorem baseToDecimal_ne_positionalValue :
    (2 ≤ 10 ∧ 10 ≤ 36) ∧ "9007199254740993" ≠ "" ∧
    (∀ c ∈ "9007199254740993".toList, validDigit 10 c) ∧
    positionalValue 10 "9007199254740993" = 9007199254740993 ∧
    baseToDecimal "9007199254740993" (fin ((10 : ℕ) : ℚ)) = fin 9007199254740992 ∧
    baseToDecimal "9007199254740993" (fin ((10 : ℕ) : ℚ))
      ≠ fin ((positionalValue 10 "9007199254740993" : ℤ) : ℚ) := by
  decide!

/-! ### Claims about `baseToDecimal` -/

/-- C7 (amended): `baseToDecimal` returns the exact non-negative value of a
valid digit string whenever that value and the highest power of the base it
uses are at most `2 ^ 53`. -/
theorem baseToDecimal_exact_upto_two_pow_53 (b : ℕ) (s : String)
    (hb : 2 ≤ b ∧ b ≤ 36) (hv : ∀ c ∈ s.toList, validDigit b c)
    (hpow : b ^ (s.length - 1) ≤ 2 ^ 53)
    (hval : positionalValue b s ≤ 2 ^ 53) :
    baseToDecimal s (fin (b : ℚ)) = fin ((positionalValue b s : ℤ) : ℚ)
      ∧ 0 ≤ positionalValue b s := by
  have hd : ∀ c ∈ s.toList, 0 ≤ digitValue c :=
    fun c hc => digitValue_nonneg_of_alnum c (hv c hc).1
  exact ⟨baseToDecimal_exact b (by omega) s hd hpow hval, positionalValue_nonneg b s hd⟩

/-- C7 (amended), at the 54-bit string of `2 ^ 53` in base 2. -/
theorem baseToDecimal_exact_upto_two_pow_53_witness :
    baseToDecimal "100000000000000000000000000000000000000000000000000000" (fin ((2 : ℕ) : ℚ))
      = fin ((positionalValue 2
          "100000000000000000000000000000000000000000000000000000" : ℤ) : ℚ)
      ∧ 0 ≤ positionalValue 2 "100000000000000000000000000000000000000000000000000000" :=
  baseToDecimal_exact_upto_two_pow_53 2
    "100000000000000000000000000000000000000000000000000000"
    (by decide) (by decide) (by decide) (by decide)

/-- C7 (as stated) fails: the value of `"aed7015a346d635"` in base 15 is
320923294898495900, which no double equals (rounding it to binary64 changes
it), and `baseToDecimal` returns 320923294898495872. -/
theorem baseToDecimal_aed7015a346d635 :
    (∀ c ∈ "aed7015a346d635".toList, validDigit 15 c) ∧
    positionalValue 15 "aed7015a346d635" = 320923294898495900 ∧
    roundToDouble 320923294898495900 ≠ fin 320923294898495900 ∧
    baseToDecimal "aed7015a346d635" (fin ((15 : ℕ) : ℚ)) = fin 320923294898495872 := by
  decide!

theorem digitValue_le_35_of_alnum (c : Char) (h : c.isDigit = true ∨ c.isAlpha = true) :
    digitValue c ≤ 35 := by
  rcases h with h | h
  · rw [isDigit_iff] at h
    rw [digitValue_digit c h]; omega
  · rw [isAlpha_iff] at h
    rcases h with h | h
    · rw [digitValue_upper c h]; omega
    · rw [digitValue_lower c h]; omega

theorem positionalValue_le_of_alnum (b : ℕ) (hb : 2 ≤ b) (s : String)
    (ha : ∀ c ∈ s.toList, c.isDigit = true ∨ c.isAlpha = true) :
    positionalValue b s ≤ 35 * (b : ℤ) ^ s.length := by
  unfold positionalValue
  have h := digitsValue_le_mul b hb 35 (by norm_num) s.toList.reverse 0
    (fun c hc => digitValue_le_35_of_alnum c (ha c (List.mem_reverse.mp hc)))
  simp only [List.length_reverse, zero_add, pow_zero] at h
  have : s.length = s.toList.length := rfl
  rw [this]
  omega

/-- C5 (amended): `baseToDecimal` has no failure path.  For a string of decimal
digits and letters, valid for the base or not, every character is given its
digit value and accumulated: with `36 * b ^ length s ≤ 2 ^ 53` the result is
the number `Σ digitValue (s_i) * b ^ i`. -/
theorem baseToDecimal_accepts_any_digit (b : ℕ) (s : String) (hb : 2 ≤ b ∧ b ≤ 36)
    (ha : ∀ c ∈ s.toList, c.isDigit = true ∨ c.isAlpha = true)
    (hsmall : 36 * b ^ s.length ≤ 2 ^ 53) :
    baseToDecimal s (fin (b : ℚ)) = fin ((positionalValue b s : ℤ) : ℚ) := by
  have hb1 : 1 ≤ b := by omega
  have h2 : ((36 * b ^ s.length : ℕ) : ℤ) ≤ 2 ^ 53 := by exact_mod_cast hsmall
  push_cast at h2
  have h3 : (0 : ℤ) ≤ (b : ℤ) ^ s.length := by positivity
  apply baseToDecimal_exact b hb1 s
  · exact fun c hc => digitValue_nonneg_of_alnum c (ha c hc)
  · have := pow_pred_le b s.length hb1
    omega
  · have h1 := positionalValue_le_of_alnum b hb.1 s ha
    omega

/-- C5 (amended), at `"123"` in base 2: the result is the number 11. -/
theorem baseToDecimal_accepts_any_digit_witness :
    baseToDecimal "123" (fin ((2 : ℕ) : ℚ)) = fin ((positionalValue 2 "123" : ℤ) : ℚ)
      ∧ positionalValue 2 "123" = 11 :=
  ⟨baseToDecimal_accepts_any_digit 2 "123" (by decide) (by decide) (by decide), by decide⟩

/-- C5 (as stated) fails: `"123"` holds the characters `2` and `3`, which are
not digits of base 2, and `baseToDecimal ("123", 2)` returns the number 11; a
document with that entry makes `solvePolynomialSecret` return a secret. -/
theorem baseToDecimal_invalid_digit_returns :
    ¬ validDigit 2 '2' ∧ ¬ validDigit 2 '3' ∧
    baseToDecimal "123" (fin 2) = fin 11 ∧
    solvePolynomialSecret
        { keys := some { n := some 1, k := some 1 },
          entries := [("1", { base := some "2", value := some "123" })] }
      = Except.ok (fin 11) := by
  decide!

theorem digitValue_digitChar : ∀ d : ℕ, d < 36 → digitValue (digitChar d) = (d : ℤ) := by
  intro d hd
  interval_cases d <;> rfl

theorem digitChar_alnum : ∀ d : ℕ, d < 36 →
    ((digitChar d).isDigit = true ∨ (digitChar d).isAlpha = true) := by
  intro d hd
  interval_cases d <;> decide

theorem digitsValue_map_digitChar (B : ℕ) : ∀ (ds : List ℕ) (p : ℕ), (∀ d ∈ ds, d < 36) →
    digitsValue B (ds.map digitChar) p = (B : ℤ) ^ p * (Nat.ofDigits B ds : ℕ) := by
  intro ds
  induction ds with
  | nil => intro p _; simp [digitsValue]
  | cons d rest ih =>
    intro p h
    rw [List.map_cons, digitsValue_cons, ih (p + 1) (fun d hd => h d (List.mem_cons_of_mem _ hd)),
      digitValue_digitChar d (h d (List.mem_cons_self _ _)), Nat.ofDigits_cons]
    push_cast
    ring

theorem encodeBase_toList_reverse (B v : ℕ) (hv : v ≠ 0) :
    (encodeBase B v).toList.reverse = (Nat.digits B v).map digitChar := by
  unfold encodeBase
  rw [if_neg hv]
  show ((Nat.digits B v).reverse.map digitChar).reverse = _
  rw [← List.map_reverse, List.reverse_reverse]

theorem positionalValue_encodeBase (B v : ℕ) (hB : 2 ≤ B ∧ B ≤ 36) :
    positionalValue B (encodeBase B v) = (v : ℤ) := by
  by_cases hv : v = 0
  · subst hv
    unfold positionalValue encodeBase
    simp [digitsValue, digitValue]
  · unfold positionalValue
    rw [encodeBase_toList_reverse B v hv, digitsValue_map_digitChar B _ 0
      (fun d hd => lt_of_lt_of_le (Nat.digits_lt_base (by omega) hd) hB.2),
      Nat.ofDigits_digits]
    simp

/-- C13 (amended): for every base `B` from 2 to 36 and every natural number
`v ≤ 2 ^ 53`, decoding the standard base-`B` digit string of `v` gives `v`. -/
theorem baseToDecimal_encodeBase (B v : ℕ) (hB : 2 ≤ B ∧ B ≤ 36) (hv : v ≤ 2 ^ 53) :
    baseToDecimal (encodeBase B v) (fin (B : ℚ)) = fin (v : ℚ) := by
  have hpv := positionalValue_encodeBase B v hB
  have h := baseToDecimal_exact B (by omega) (encodeBase B v) ?_ ?_ ?_
  · rw [h, hpv]; simp
  · intro c hc
    by_cases hv0 : v = 0
    · subst hv0
      have : c = '0' := by simpa [encodeBase] using hc
      subst this; decide
    · have hc2 : c ∈ (encodeBase B v).toList.reverse := List.mem_reverse.mpr hc
      rw [encodeBase_toList_reverse B v hv0, List.mem_map] at hc2
      obtain ⟨d, hd, rfl⟩ := hc2
      have hd36 : d < 36 := lt_of_lt_of_le (Nat.digits_lt_base (by omega) hd) hB.2
      exact digitValue_nonneg_of_alnum _ (digitChar_alnum d hd36)
  · by_cases hv0 : v = 0
    · subst hv0
      have : (encodeBase B 0).length = 1 := by
        unfold encodeBase; rw [if_pos rfl]; rfl
      rw [this]; simp
    · have hlen : (encodeBase B v).length = (Nat.digits B v).length := by
        show (encodeBase B v).toList.length = _
        rw [← List.length_reverse, encodeBase_toList_reverse B v hv0, List.length_map]
      rw [hlen]
      have h1 : B ^ (Nat.digits B v).length ≤ B * v := Nat.base_pow_length_digits_le B v (by omega) hv0
      have h2 : 0 < (Nat.digits B v).length := by
        rw [List.length_pos]
        exact Nat.digits_ne_nil_iff_ne_zero.mpr hv0
      have h3 : B ^ (Nat.digits B v).length = B * B ^ ((Nat.digits B v).length - 1) := by
        rw [← pow_succ']
        congr 1
        omega
      rw [h3] at h1
      have h4 : B ^ ((Nat.digits B v).length - 1) ≤ v := Nat.le_of_mul_le_mul_left h1 (by omega)
      omega
  · rw [hpv]; exact_mod_cast hv

/-- C13 (amended), at `v = 2024` in base 36. -/
theorem baseToDecimal_encodeBase_witness :
    baseToDecimal (encodeBase 36 2024) (fin ((36 : ℕ) : ℚ)) = fin ((2024 : ℕ) : ℚ) :=
  baseToDecimal_encodeBase 36 2024 (by decide) (by decide)

/-- C13 (as stated) fails: the decimal digit string of `2 ^ 53 + 1` is
`"9007199254740993"`, and decoding it in base 10 gives `2 ^ 53`. -/
theorem baseToDecimal_encodeBase_large :
    encodeBase 10 9007199254740993 = "9007199254740993" ∧
    baseToDecimal (encodeBase 10 9007199254740993) (fin 10) = fin 9007199254740992 ∧
    baseToDecimal (encodeBase 10 9007199254740993) (fin 10) ≠ fin 9007199254740993 := by
  have h : encodeBase 10 9007199254740993 = "9007199254740993" := by
    unfold encodeBase
    rw [if_neg (by norm_num)]
    have hd : Nat.digits 10 9007199254740993
        = [3, 9, 9, 0, 4, 7, 4, 5, 2, 9, 9, 1, 7, 0, 0, 9] := by norm_num
    rw [hd]
    decide
  rw [h]
  decide!

theorem digitValue_toLower (c : Char) :
    digitValue c.toLower = digitValue c := by
  by_cases hu : 65 ≤ c.toNat ∧ c.toNat ≤ 90
  · have h1 := toLower_upper c.toNat hu.1 hu.2
    rw [Char.ofNat_toNat] at h1
    rw [digitValue_upper c hu, digitValue_lower c.toLower (by omega), h1]
    push_cast; ring
  · rw [toLower_of_not_upper c hu]

theorem digitValue_toUpper (c : Char) :
    digitValue c.toUpper = digitValue c := by
  by_cases hl : 97 ≤ c.toNat ∧ c.toNat ≤ 122
  · have h1 := toUpper_lower c.toNat hl.1 hl.2
    rw [Char.ofNat_toNat] at h1
    rw [digitValue_lower c hl, digitValue_upper c.toUpper (by omega), h1]
    have : 32 ≤ c.toNat := by omega
    push_cast [this]; ring
  · rw [toUpper_of_not_lower c hl]

theorem baseToDecimalLoop_congr (base : JSNum) : ∀ (l l2 : List Char) (p : ℕ) (acc : JSNum),
    l.map digitValue = l2.map digitValue →
    baseToDecimalLoop base l p acc = baseToDecimalLoop base l2 p acc := by
  intro l
  induction l with
  | nil =>
    intro l2 p acc h
    cases l2 with
    | nil => rfl
    | cons c r => simp at h
  | cons c rest ih =>
    intro l2 p acc h
    cases l2 with
    | nil => simp at h
    | cons c2 r2 =>
      simp only [List.map_cons, List.cons.injEq] at h
      unfold baseToDecimalLoop
      rw [h.1]
      exact ih r2 (p + 1) _ h.2

theorem baseToDecimal_map (base : JSNum) (s : String) (f : Char → Char)
    (hf : ∀ c ∈ s.toList, digitValue (f c) = digitValue c) :
    baseToDecimal (String.mk (s.toList.map f)) base = baseToDecimal s base := by
  unfold baseToDecimal
  apply baseToDecimalLoop_congr
  show ((s.toList.map f).reverse).map digitValue = _
  rw [← List.map_reverse, List.map_map]
  apply List.map_congr_left
  intro c hc
  exact hf c (List.mem_reverse.mp hc)

/-- C15: a decimal digit has its numeric value, a letter has the value
`10 + (lower-cased letter - 'a')`, and for every base and every string of
digits and letters `baseToDecimal` gives the same result on the string, on its
lower-cased form and on its upper-cased form. -/
theorem baseToDecimal_case_insensitive (base : JSNum) (s : String)
    (_h : ∀ c ∈ s.toList, c.isDigit = true ∨ c.isAlpha = true) :
    (∀ c ∈ s.toList, c.isDigit = true → digitValue c = (c.toNat : ℤ) - ('0'.toNat : ℤ)) ∧
    (∀ c ∈ s.toList, c.isAlpha = true →
      digitValue c = 10 + ((c.toLower.toNat : ℤ) - ('a'.toNat : ℤ))) ∧
    baseToDecimal s base = baseToDecimal (lowercase s) base ∧
    baseToDecimal s base = baseToDecimal (uppercase s) base := by
  refine ⟨?_, ?_, ?_, ?_⟩
  · intro c _ hc
    rw [isDigit_iff] at hc
    rw [digitValue_digit c hc]; rfl
  · intro c _ hc
    rw [isAlpha_iff] at hc
    rw [digitValue_not_digit c (by omega)]
    show _ = 10 + ((c.toLower.toNat : ℤ) - 97)
    ring
  · exact (baseToDecimal_map base s Char.toLower (fun c _ => digitValue_toLower c)).symm
  · exact (baseToDecimal_map base s Char.toUpper (fun c _ => digitValue_toUpper c)).symm

/-- C15, at the string `"aEd7"` in base 16. -/
theorem baseToDecimal_case_insensitive_witness :
    lowercase "aEd7" = "aed7" ∧ uppercase "aEd7" = "AED7" ∧
    baseToDecimal "aEd7" (fin 16) = fin 44759 ∧
    baseToDecimal "aEd7" (fin 16) = baseToDecimal (lowercase "aEd7") (fin 16) ∧
    baseToDecimal "aEd7" (fin 16) = baseToDecimal (uppercase "aEd7") (fin 16) :=
  ⟨by decide, by decide, by decide!,
    (baseToDecimal_case_insensitive (fin 16) "aEd7" (by decide)).2.2.1,
    (baseToDecimal_case_insensitive (fin 16) "aEd7" (by decide)).2.2.2⟩

/-! ### Left-to-right evaluation, bounds and injectivity -/

theorem digitsValue_append (b : ℕ) : ∀ (l1 l2 : List Char) (p : ℕ),
    digitsValue b (l1 ++ l2) p = digitsValue b l1 p + digitsValue b l2 (p + l1.length) := by
  intro l1
  induction l1 with
  | nil => intro l2 p; simp [digitsValue]
  | cons c rest ih =>
    intro l2 p
    rw [List.cons_append, digitsValue_cons, digitsValue_cons, ih l2 (p + 1)]
    have : p + 1 + rest.length = p + (c :: rest).length := by simp; ring
    rw [this]; ring

theorem foldl_horner (b : ℕ) : ∀ (l : List Char) (acc : ℤ),
    l.foldl (fun acc c => acc * (b : ℤ) + digitValue c) acc
      = acc * (b : ℤ) ^ l.length + digitsValue b l.reverse 0 := by
  intro l
  induction l with
  | nil => intro acc; simp [digitsValue]
  | cons c rest ih =>
    intro acc
    rw [List.foldl_cons, ih, List.reverse_cons, digitsValue_append]
    simp only [digitsValue, List.length_reverse, List.length_cons, zero_add]
    ring

theorem hornerValue_eq_positionalValue (b : ℕ) (s : String) :
    hornerValue b s = positionalValue b s := by
  unfold hornerValue positionalValue
  rw [foldl_horner]
  simp

/-- C16 (amended): for a base from 2 to 36 and a string of valid digits with
`b ^ length s ≤ 2 ^ 53`, the right-to-left accumulation of `baseToDecimal`
gives the value of the left-to-right evaluation `acc := acc * base +
digitValue` started at `0`. -/
theorem baseToDecimal_eq_hornerValue (b : ℕ) (s : String) (hb : 2 ≤ b ∧ b ≤ 36)
    (hv : ∀ c ∈ s.toList, validDigit b c) (hsmall : b ^ s.length ≤ 2 ^ 53) :
    baseToDecimal s (fin (b : ℚ)) = fin ((hornerValue b s : ℤ) : ℚ) := by
  rw [hornerValue_eq_positionalValue]
  have hb1 : 1 ≤ b := by omega
  apply baseToDecimal_exact b hb1 s
  · exact fun c hc => digitValue_nonneg_of_alnum c (hv c hc).1
  · exact le_trans (pow_pred_le b _ hb1) hsmall
  · have h1 := positionalValue_lt b s hv
    have h2 : ((b ^ s.length : ℕ) : ℤ) ≤ 2 ^ 53 := by exact_mod_cast hsmall
    push_cast at h2
    omega

/-- C16 (amended), at `"zz"` in base 36: both evaluations give 1295. -/
theorem baseToDecimal_eq_hornerValue_witness :
    baseToDecimal "zz" (fin ((36 : ℕ) : ℚ)) = fin ((hornerValue 36 "zz" : ℤ) : ℚ)
      ∧ hornerValue 36 "zz" = 1295 :=
  ⟨baseToDecimal_eq_hornerValue 36 "zz" (by decide) (by decide) (by decide), by decide⟩

/-- C16 (as stated) fails: for the valid base-16 string `"232010b84550c17"`
the left-to-right evaluation gives 158190085887822871 over the integers and
158190085887822848 in JavaScript numbers, and `baseToDecimal` returns
158190085887822880.  (Every power of 16 is a double.) -/
theorem baseToDecimal_ne_hornerValue :
    (∀ c ∈ "232010b84550c17".toList, validDigit 16 c) ∧
    hornerValue 16 "232010b84550c17" = 158190085887822871 ∧
    hornerNumber (fin 16) "232010b84550c17" = fin 158190085887822848 ∧
    baseToDecimal "232010b84550c17" (fin 16) = fin 158190085887822880 := by
  decide!

theorem digitsValue_shift (b : ℕ) : ∀ (l : List Char) (p : ℕ),
    digitsValue b l p = (b : ℤ) ^ p * digitsValue b l 0 := by
  intro l
  induction l with
  | nil => intro p; simp [digitsValue]
  | cons c rest ih =>
    intro p
    rw [digitsValue_cons, digitsValue_cons, ih (p + 1), ih (0 + 1)]
    ring

theorem digitsValue_injective (b : ℕ) (hb : 2 ≤ b) : ∀ (l l2 : List Char),
    l.length = l2.length →
    (∀ c ∈ l, 0 ≤ digitValue c ∧ digitValue c < b) →
    (∀ c ∈ l2, 0 ≤ digitValue c ∧ digitValue c < b) →
    digitsValue b l 0 = digitsValue b l2 0 → l.map digitValue = l2.map digitValue := by
  intro l
  induction l with
  | nil =>
    intro l2 hlen _ _ _
    cases l2 with
    | nil => rfl
    | cons c r => simp at hlen
  | cons c rest ih =>
    intro l2 hlen h1 h2 heq
    cases l2 with
    | nil => simp at hlen
    | cons c2 r2 =>
      rw [digitsValue_cons, digitsValue_cons, digitsValue_shift b rest (0 + 1),
        digitsValue_shift b r2 (0 + 1)] at heq
      simp only [pow_zero, mul_one, zero_add, pow_one] at heq
      have hc := h1 c (List.mem_cons_self _ _)
      have hc2 := h2 c2 (List.mem_cons_self _ _)
      have hb0 : (0 : ℤ) < b := by exact_mod_cast (by omega : 0 < b)
      have hmod : digitValue c = digitValue c2 := by
        have e1 : (digitValue c + (b : ℤ) * digitsValue b rest 0) % (b : ℤ) = digitValue c := by
          rw [Int.add_mul_emod_self_left]
          exact Int.emod_eq_of_lt hc.1 hc.2
        have e2 : (digitValue c2 + (b : ℤ) * digitsValue b r2 0) % (b : ℤ) = digitValue c2 := by
          rw [Int.add_mul_emod_self_left]
          exact Int.emod_eq_of_lt hc2.1 hc2.2
        rw [← e1, ← e2, heq]
      have hrest : digitsValue b rest 0 = digitsValue b r2 0 := by
        rw [hmod] at heq
        have : (b : ℤ) * digitsValue b rest 0 = (b : ℤ) * digitsValue b r2 0 := by linarith
        exact mul_left_cancel₀ (ne_of_gt hb0) this
      simp only [List.map_cons, List.cons.injEq]
      refine ⟨hmod, ih r2 (by simpa using hlen)
        (fun c hc => h1 c (List.mem_cons_of_mem _ hc))
        (fun c hc => h2 c (List.mem_cons_of_mem _ hc)) hrest⟩

theorem char_eq_of_toNat_eq (c d : Char) (h : c.toNat = d.toNat) : c = d := by
  rw [← Char.ofNat_toNat c, ← Char.ofNat_toNat d, h]

theorem digitValue_injective_lower (c d : Char)
    (hc : c.isDigit = true ∨ c.isLower = true) (hd : d.isDigit = true ∨ d.isLower = true)
    (h : digitValue c = digitValue d) : c = d := by
  apply char_eq_of_toNat_eq
  rw [isDigit_iff, isLower_iff] at hc hd
  rcases hc with hc | hc <;> rcases hd with hd | hd
  · rw [digitValue_digit c hc, digitValue_digit d hd] at h; omega
  · rw [digitValue_digit c hc, digitValue_lower d hd] at h; omega
  · rw [digitValue_lower c hc, digitValue_digit d hd] at h; omega
  · rw [digitValue_lower c hc, digitValue_lower d hd] at h; omega

theorem map_digitValue_injective : ∀ (l l2 : List Char),
    (∀ c ∈ l, c.isDigit = true ∨ c.isLower = true) →
    (∀ c ∈ l2, c.isDigit = true ∨ c.isLower = true) →
    l.map digitValue = l2.map digitValue → l = l2 := by
  intro l
  induction l with
  | nil =>
    intro l2 _ _ h
    cases l2 with
    | nil => rfl
    | cons c r => simp at h
  | cons c rest ih =>
    intro l2 h1 h2 h
    cases l2 with
    | nil => simp at h
    | cons c2 r2 =>
      simp only [List.map_cons, List.cons.injEq] at h
      rw [digitValue_injective_lower c c2 (h1 c (List.mem_cons_self _ _))
        (h2 c2 (List.mem_cons_self _ _)) h.1,
        ih r2 (fun c hc => h1 c (List.mem_cons_of_mem _ hc))
          (fun c hc => h2 c (List.mem_cons_of_mem _ hc)) h.2]

/-- C20 (amended): for a base `b` from 2 to 36 and a string `s` of valid digits
with `b ^ length s ≤ 2 ^ 53`, `baseToDecimal (s, b)` is an integer `v` with
`0 ≤ v < b ^ length s`; and if `s` is lower-case, a valid lower-case digit
string `t` of the same length that decodes to the same value is `s` itself. -/
theorem baseToDecimal_bounds_injective (b : ℕ) (s : String) (hb : 2 ≤ b ∧ b ≤ 36)
    (hv : ∀ c ∈ s.toList, validDigit b c) (hsmall : b ^ s.length ≤ 2 ^ 53) :
    (∃ v : ℤ, baseToDecimal s (fin (b : ℚ)) = fin (v : ℚ) ∧ 0 ≤ v ∧ v < (b : ℤ) ^ s.length) ∧
    (∀ t : String, (∀ c ∈ s.toList, c.isDigit = true ∨ c.isLower = true) →
      (∀ c ∈ t.toList, validDigit b c) → (∀ c ∈ t.toList, c.isDigit = true ∨ c.isLower = true) →
      t.length = s.length →
      baseToDecimal s (fin (b : ℚ)) = baseToDecimal t (fin (b : ℚ)) → s = t) := by
  have hb1 : 1 ≤ b := by omega
  have hsmallZ : ((b : ℤ) ^ s.length) ≤ 2 ^ 53 := by exact_mod_cast hsmall
  have key : ∀ u : String, (∀ c ∈ u.toList, validDigit b c) → u.length = s.length →
      baseToDecimal u (fin (b : ℚ)) = fin ((positionalValue b u : ℤ) : ℚ) := by
    intro u hu hlen
    apply baseToDecimal_exact b hb1 u
    · exact fun c hc => digitValue_nonneg_of_alnum c (hu c hc).1
    · rw [hlen]; exact le_trans (pow_pred_le b _ hb1) hsmall
    · have h1 := positionalValue_lt b u hu
      rw [hlen] at h1
      omega
  constructor
  · refine ⟨positionalValue b s, key s hv rfl, ?_, positionalValue_lt b s hv⟩
    exact positionalValue_nonneg b s (fun c hc => digitValue_nonneg_of_alnum c (hv c hc).1)
  · intro t hls ht hlt hlen heq
    rw [key s hv rfl, key t ht hlen] at heq
    have heq2 : positionalValue b s = positionalValue b t := by
      have := JSNum.fin.inj heq
      exact_mod_cast this
    unfold positionalValue at heq2
    have h3 := digitsValue_injective b hb.1 s.toList.reverse t.toList.reverse
      (by simp only [List.length_reverse]; exact hlen.symm)
      (fun c hc => ⟨digitValue_nonneg_of_alnum c (hv c (List.mem_reverse.mp hc)).1,
        (hv c (List.mem_reverse.mp hc)).2⟩)
      (fun c hc => ⟨digitValue_nonneg_of_alnum c (ht c (List.mem_reverse.mp hc)).1,
        (ht c (List.mem_reverse.mp hc)).2⟩) heq2
    have h4 := map_digitValue_injective _ _
      (fun c hc => hls c (List.mem_reverse.mp hc))
      (fun c hc => hlt c (List.mem_reverse.mp hc)) h3
    have h5 : s.toList = t.toList := List.reverse_injective h4
    exact String.ext h5

/-- C20 (amended), at `"7f"` in base 16. -/
theorem baseToDecimal_bounds_injective_witness :
    (∃ v : ℤ, baseToDecimal "7f" (fin ((16 : ℕ) : ℚ)) = fin (v : ℚ) ∧ 0 ≤ v ∧
      v < ((16 : ℕ) : ℤ) ^ "7f".length) ∧
    (∀ t : String, (∀ c ∈ "7f".toList, c.isDigit = true ∨ c.isLower = true) →
      (∀ c ∈ t.toList, validDigit 16 c) → (∀ c ∈ t.toList, c.isDigit = true ∨ c.isLower = true) →
      t.length = "7f".length →
      baseToDecimal "7f" (fin ((16 : ℕ) : ℚ)) = baseToDecimal t (fin ((16 : ℕ) : ℚ)) →
      "7f" = t) :=
  baseToDecimal_bounds_injective 16 "7f" (by decide) (by decide) (by decide)

/-- C20 (as stated) fails: the 54-digit string of ones is valid in base 2 and
decodes to `2 ^ 54`, which is not below `2 ^ 54`; and the two different valid
decimal strings `"9007199254740993"` and `"9007199254740992"` of the same
length decode to the same number. -/
theorem baseToDecimal_bound_fails :
    (∀ c ∈ "111111111111111111111111111111111111111111111111111111".toList, validDigit 2 c) ∧
    "111111111111111111111111111111111111111111111111111111".length = 54 ∧
    baseToDecimal "111111111111111111111111111111111111111111111111111111" (fin 2)
      = fin (2 ^ 54) ∧
    (∀ c ∈ "9007199254740993".toList, validDigit 10 c ∧ (c.isDigit = true ∨ c.isLower = true)) ∧
    (∀ c ∈ "9007199254740992".toList, validDigit 10 c ∧ (c.isDigit = true ∨ c.isLower = true)) ∧
    "9007199254740993".length = "9007199254740992".length ∧
    baseToDecimal "9007199254740993" (fin 10) = baseToDecimal "9007199254740992" (fin 10) ∧
    "9007199254740993" ≠ "9007199254740992" := by
  decide!

/-! ### The orchestration in `solvePolynomialSecret` -/

theorem slice_zero_of_length_le {α : Type} (l : List α) (k : ℤ) (h : (l.length : ℤ) ≤ k) :
    slice l 0 k = l := by
  unfold slice sliceIndex
  have h0 : ¬ ((0 : ℤ) < 0) := lt_irrefl 0
  have hk : ¬ (k < 0) := by omega
  simp only [h0, hk, if_false, Int.toNat_zero]
  have : min k.toNat l.length = l.length := by omega
  simp [this]

theorem slice_eq_drop_take {α : Type} (l : List α) (s k : ℕ) (h : s + k ≤ l.length) :
    slice l (s : ℤ) ((s : ℤ) + (k : ℤ)) = (l.drop s).take k := by
  unfold slice sliceIndex
  have h1 : ¬ ((s : ℤ) < 0) := by omega
  have h2 : ¬ ((s : ℤ) + (k : ℤ) < 0) := by omega
  simp only [h1, h2, if_false]
  have e1 : min (s : ℤ).toNat l.length = s := by simp; omega
  have e2 : min ((s : ℤ) + (k : ℤ)).toNat l.length = s + k := by
    have : ((s : ℤ) + (k : ℤ)).toNat = s + k := by omega
    rw [this]; omega
  rw [e1, e2]
  congr 1
  omega

theorem slice_neg_eq_drop {α : Type} (l : List α) (k : ℕ) (hk : 1 ≤ k) (h : k ≤ l.length) :
    slice l (-(k : ℤ)) (l.length : ℤ) = l.drop (l.length - k) := by
  unfold slice sliceIndex
  have h1 : (-(k : ℤ) < 0) := by omega
  have h2 : ¬ ((l.length : ℤ) < 0) := by omega
  simp only [h1, h2, if_true, if_false]
  have e1 : ((l.length : ℤ) + -(k : ℤ)).toNat = l.length - k := by omega
  have e2 : min (l.length : ℤ).toNat l.length = l.length := by simp
  rw [e1, e2]
  apply List.take_of_length_le
  simp

theorem decodePoints_length : ∀ (entries : List (String × Entry)) (pts : List Point),
    decodePoints entries = Except.ok pts → pts.length = entries.length := by
  intro entries
  induction entries with
  | nil => intro pts h; simp [decodePoints] at h; subst h; rfl
  | cons e rest ih =>
    intro pts h
    unfold decodePoints at h
    split at h
    · cases h
    · split at h
      · cases h
      · rename_i ps hps
        cases h
        simp [ih ps hps]

theorem sortPoints_length (pts : List Point) : (sortPoints pts).length = pts.length :=
  List.length_insertionSort _ _

/-- C11 (amended): when the document has fewer points than the threshold `k`,
`solvePolynomialSecret` does not fail: `slice(0, k)` keeps all the points, the
returned secret is `lagrangeInterpolation` of all the sorted points, and no
verification is run. -/
theorem solvePolynomialSecret_fewer_points (data : Document) (keys : Keys) (k : ℤ)
    (decoded : List Point) (hkeys : data.keys = some keys) (hk : keys.k = some k)
    (hdec : decodePoints data.entries = Except.ok decoded)
    (hfew : (data.entries.length : ℤ) < k) :
    solvePolynomialSecretTrace data = Except.ok
      { points := sortPoints decoded, selectedPoints := sortPoints decoded,
        secret := lagrangeInterpolation (sortPoints decoded), verifyLog := [] } ∧
    solvePolynomialSecret data = Except.ok (lagrangeInterpolation (sortPoints decoded)) := by
  have hlen : ((sortPoints decoded).length : ℤ) < k := by
    rw [sortPoints_length, decodePoints_length _ _ hdec]; exact hfew
  have h1 : solvePolynomialSecretTrace data = Except.ok
      { points := sortPoints decoded, selectedPoints := sortPoints decoded,
        secret := lagrangeInterpolation (sortPoints decoded), verifyLog := [] } := by
    unfold solvePolynomialSecretTrace
    rw [hkeys]
    simp only [hdec, hk]
    rw [slice_zero_of_length_le _ _ (le_of_lt hlen)]
    unfold verifySecrets
    rw [if_neg (by omega)]
  refine ⟨h1, ?_⟩
  unfold solvePolynomialSecret
  rw [h1]

/-- C11 (amended), at a document with threshold 3 and two points. -/
theorem solvePolynomialSecret_fewer_points_witness :
    solvePolynomialSecretTrace
        { keys := some { n := some 2, k := some 3 },
          entries := [("1", { base := some "10", value := some "5" }),
                      ("2", { base := some "10", value := some "7" })] }
      = Except.ok
        { points := sortPoints [⟨fin 1, fin 5⟩, ⟨fin 2, fin 7⟩],
          selectedPoints := sortPoints [⟨fin 1, fin 5⟩, ⟨fin 2, fin 7⟩],
          secret := lagrangeInterpolation (sortPoints [⟨fin 1, fin 5⟩, ⟨fin 2, fin 7⟩]),
          verifyLog := [] } ∧
    solvePolynomialSecret
        { keys := some { n := some 2, k := some 3 },
          entries := [("1", { base := some "10", value := some "5" }),
                      ("2", { base := some "10", value := some "7" })] }
      = Except.ok (lagrangeInterpolation (sortPoints [⟨fin 1, fin 5⟩, ⟨fin 2, fin 7⟩])) :=
  solvePolynomialSecret_fewer_points
    { keys := some { n := some 2, k := some 3 },
      entries := [("1", { base := some "10", value := some "5" }),
                  ("2", { base := some "10", value := some "7" })] }
    { n := some 2, k := some 3 } 3 [⟨fin 1, fin 5⟩, ⟨fin 2, fin 7⟩]
    rfl rfl (by decide!) (by decide)

/-- C11 (as stated) fails: a document that declares the threshold 3 and holds
two points makes `solvePolynomialSecret` return the number 3. -/
theorem solvePolynomialSecret_two_of_three :
    solvePolynomialSecret
        { keys := some { n := some 2, k := some 3 },
          entries := [("1", { base := some "10", value := some "5" }),
                      ("2", { base := some "10", value := some "7" })] }
      = Except.ok (fin 3) := by
  decide!

/-- C12 (amended): `solvePolynomialSecret` returns the primary secret alone, the
interpolation of the first `k` sorted points; the verification secrets are only
written to the console.  For `count` sorted points and `k ≥ 1` they are: none
when `count ≤ k`; the interpolation of the last `k` points when `count > k`;
and after it, when `count ≥ k + 2`, the interpolation of the `k` points
starting at index `(count - k) / 2`. -/
theorem solvePolynomialSecret_returns_primary (data : Document) (keys : Keys) (k : ℕ)
    (decoded : List Point) (hkeys : data.keys = some keys) (hk : keys.k = some (k : ℤ))
    (hdec : decodePoints data.entries = Except.ok decoded) (hk1 : 1 ≤ k) :
    solvePolynomialSecret data
      = Except.ok (lagrangeInterpolation (slice (sortPoints decoded) 0 k)) ∧
    ∃ outcome, solvePolynomialSecretTrace data = Except.ok outcome ∧
      outcome.points = sortPoints decoded ∧
      outcome.secret = lagrangeInterpolation (slice (sortPoints decoded) 0 k) ∧
      (decoded.length ≤ k → outcome.verifyLog = []) ∧
      (decoded.length = k + 1 → outcome.verifyLog =
        [lagrangeInterpolation ((sortPoints decoded).drop (decoded.length - k))]) ∧
      (k + 2 ≤ decoded.length → outcome.verifyLog =
        [lagrangeInterpolation ((sortPoints decoded).drop (decoded.length - k)),
         lagrangeInterpolation
          (((sortPoints decoded).drop ((decoded.length - k) / 2)).take k)]) := by
  have hlen := sortPoints_length decoded
  have h1 : solvePolynomialSecretTrace data = Except.ok
      { points := sortPoints decoded, selectedPoints := slice (sortPoints decoded) 0 k,
        secret := lagrangeInterpolation (slice (sortPoints decoded) 0 k),
        verifyLog := verifySecrets (sortPoints decoded) k } := by
    unfold solvePolynomialSecretTrace
    rw [hkeys]
    simp only [hdec, hk]
  constructor
  · unfold solvePolynomialSecret
    rw [h1]
  · refine ⟨_, h1, rfl, rfl, ?_, ?_, ?_⟩
    · intro hle
      show verifySecrets (sortPoints decoded) k = []
      unfold verifySecrets
      rw [if_neg (by rw [hlen]; omega)]
    · intro heq
      show verifySecrets (sortPoints decoded) k = _
      unfold verifySecrets
      rw [if_pos (by rw [hlen]; omega), if_neg (by rw [hlen]; omega),
        slice_neg_eq_drop _ k hk1 (by rw [hlen]; omega), hlen]
    · intro hge
      show verifySecrets (sortPoints decoded) k = _
      unfold verifySecrets
      rw [if_pos (by rw [hlen]; omega), if_pos (by rw [hlen]; omega),
        slice_neg_eq_drop _ k hk1 (by rw [hlen]; omega), hlen]
      have hmid : ((decoded.length : ℤ) - (k : ℤ)) / 2 = (((decoded.length - k) / 2 : ℕ) : ℤ) := by
        omega
      simp only [hmid]
      rw [slice_eq_drop_take _ _ k (by rw [hlen]; omega)]

/-- C12 (amended), at `testCase1`. -/
theorem solvePolynomialSecret_returns_primary_witness :
    solvePolynomialSecret testCase1
      = Except.ok (lagrangeInterpolation
          (slice (sortPoints [⟨fin 1, fin 4⟩, ⟨fin 2, fin 7⟩, ⟨fin 3, fin 12⟩, ⟨fin 6, fin 39⟩])
            0 (3 : ℕ))) ∧
    ∃ outcome, solvePolynomialSecretTrace testCase1 = Except.ok outcome ∧
      outcome.points
        = sortPoints [⟨fin 1, fin 4⟩, ⟨fin 2, fin 7⟩, ⟨fin 3, fin 12⟩, ⟨fin 6, fin 39⟩] ∧
      outcome.secret = lagrangeInterpolation
          (slice (sortPoints [⟨fin 1, fin 4⟩, ⟨fin 2, fin 7⟩, ⟨fin 3, fin 12⟩, ⟨fin 6, fin 39⟩])
            0 (3 : ℕ)) ∧
      (([⟨fin 1, fin 4⟩, ⟨fin 2, fin 7⟩, ⟨fin 3, fin 12⟩, ⟨fin 6, fin 39⟩] : List Point).length
          ≤ 3 → outcome.verifyLog = []) ∧
      (([⟨fin 1, fin 4⟩, ⟨fin 2, fin 7⟩, ⟨fin 3, fin 12⟩, ⟨fin 6, fin 39⟩] : List Point).length
          = 3 + 1 → outcome.verifyLog =
        [lagrangeInterpolation
          ((sortPoints [⟨fin 1, fin 4⟩, ⟨fin 2, fin 7⟩, ⟨fin 3, fin 12⟩, ⟨fin 6, fin 39⟩]).drop
            (([⟨fin 1, fin 4⟩, ⟨fin 2, fin 7⟩, ⟨fin 3, fin 12⟩, ⟨fin 6, fin 39⟩]
              : List Point).length - 3))]) ∧
      (3 + 2 ≤ ([⟨fin 1, fin 4⟩, ⟨fin 2, fin 7⟩, ⟨fin 3, fin 12⟩, ⟨fin 6, fin 39⟩]
          : List Point).length → outcome.verifyLog =
        [lagrangeInterpolation
          ((sortPoints [⟨fin 1, fin 4⟩, ⟨fin 2, fin 7⟩, ⟨fin 3, fin 12⟩, ⟨fin 6, fin 39⟩]).drop
            (([⟨fin 1, fin 4⟩, ⟨fin 2, fin 7⟩, ⟨fin 3, fin 12⟩, ⟨fin 6, fin 39⟩]
              : List Point).length - 3)),
         lagrangeInterpolation
          (((sortPoints [⟨fin 1, fin 4⟩, ⟨fin 2, fin 7⟩, ⟨fin 3, fin 12⟩, ⟨fin 6, fin 39⟩]).drop
            ((([⟨fin 1, fin 4⟩, ⟨fin 2, fin 7⟩, ⟨fin 3, fin 12⟩, ⟨fin 6, fin 39⟩]
              : List Point).length - 3) / 2)).take 3)]) :=
  solvePolynomialSecret_returns_primary testCase1 { n := some 4, k := some 3 } 3
    [⟨fin 1, fin 4⟩, ⟨fin 2, fin 7⟩, ⟨fin 3, fin 12⟩, ⟨fin 6, fin 39⟩]
    rfl rfl (by decide!) (by decide)

/-- C12 (as stated) fails: on `testCase1` a verification secret is computed and
written to the console, and what the function returns is the number 3 alone,
not a result holding the verification secrets. -/
theorem solvePolynomialSecret_returns_number :
    solvePolynomialSecret testCase1 = Except.ok (fin 3) ∧
    (∃ outcome, solvePolynomialSecretTrace testCase1 = Except.ok outcome ∧
      outcome.verifyLog = [fin 3]) := by
  refine ⟨by decide!, ⟨_, rfl, by decide!⟩⟩

theorem decodePoints_error_iff : ∀ (entries : List (String × Entry)),
    decodePoints entries = Except.error JSError.typeError ↔ ∃ e ∈ entries, e.2.value = none := by
  intro entries
  induction entries with
  | nil => simp [decodePoints]
  | cons e rest ih =>
    unfold decodePoints decodeEntry
    cases hv : e.2.value with
    | none => simp [hv]
    | some v =>
      simp only [List.mem_cons, exists_eq_or_imp, hv]
      cases hr : decodePoints rest with
      | error err =>
        cases err
        simp only [true_iff]
        right
        exact ih.mp hr
      | ok ps =>
        simp only [false_or]
        constructor
        · intro h; cases h
        · intro h
          rcases h with h | h
          · cases h
          · have := ih.mpr h
            rw [hr] at this
            cases this

theorem decodePoints_ok_or_error (entries : List (String × Entry)) :
    decodePoints entries = Except.error JSError.typeError ∨ ∃ pts, decodePoints entries = Except.ok pts := by
  cases h : decodePoints entries with
  | error err => cases err; left; rfl
  | ok pts => right; exact ⟨pts, rfl⟩

/-- C14 (amended): `solvePolynomialSecret` throws exactly when the `keys` object
is absent or some point entry has no `value`, and it does so before any
interpolation.  An absent `n` changes nothing; with `k` absent it returns the
interpolation of all the sorted points; an absent `base` is read as
`parseInt(undefined)`, which is NaN, and decoding goes on. -/
theorem solvePolynomialSecret_throws_iff (data : Document) :
    (solvePolynomialSecret data = Except.error JSError.typeError ↔
      (data.keys = none ∨ ∃ e ∈ data.entries, e.2.value = none)) ∧
    (∀ keys decoded, data.keys = some keys → keys.k = none →
      decodePoints data.entries = Except.ok decoded →
      solvePolynomialSecret data = Except.ok (lagrangeInterpolation (sortPoints decoded))) ∧
    (∀ (key value : String),
      decodeEntry (key, { base := none, value := some value })
        = Except.ok { x := parseInt key, y := baseToDecimal value nan }) := by
  refine ⟨?_, ?_, ?_⟩
  · unfold solvePolynomialSecret solvePolynomialSecretTrace
    cases hk : data.keys with
    | none => simp
    | some keys =>
      rcases decodePoints_ok_or_error data.entries with h | ⟨pts, h⟩
      · simp only [h, true_iff]
        exact Or.inr ((decodePoints_error_iff _).mp h)
      · simp only [h]
        constructor
        · intro h2; cases h2
        · intro h2
          rcases h2 with h2 | h2
          · cases h2
          · have := (decodePoints_error_iff _).mpr h2
            rw [h] at this
            cases this
  · intro keys decoded hkeys hk hdec
    unfold solvePolynomialSecret solvePolynomialSecretTrace
    simp only [hkeys, hdec, hk]
  · intro key value
    have h : parseInt "undefined" = nan := by decide!
    unfold decodeEntry
    simp only [Option.getD_none, h]

/-- C14 (as stated) fails: a document whose `keys` has no `k` returns a secret
(here 5, from the single point (1,5)), and so does a document with an entry
that has no `base` (here 7, because `Math.pow(NaN, 0)` is 1). -/
theorem solvePolynomialSecret_missing_k_or_base :
    solvePolynomialSecret
        { keys := some { n := some 1, k := none },
          entries := [("1", { base := some "10", value := some "5" })] }
      = Except.ok (fin 5) ∧
    solvePolynomialSecret
        { keys := some { n := some 1, k := some 1 },
          entries := [("1", { base := none, value := some "7" })] }
      = Except.ok (fin 7) := by
  decide!

theorem head?_drop_take {α : Type} (l : List α) (s k : ℕ) (hk : 1 ≤ k) :
    ((l.drop s).take k).head? = l[s]? := by
  rw [List.head?_take, if_neg (by omega), List.head?_drop]

theorem getElem?_ne_of_nodup {α : Type} (l : List α) (hn : l.Nodup) (i j : ℕ)
    (hi : i < l.length) (hj : j < l.length) (hij : i ≠ j) : l[i]? ≠ l[j]? := by
  rw [List.getElem?_eq_getElem hi, List.getElem?_eq_getElem hj]
  intro h
  exact hij ((List.Nodup.getElem_inj_iff hn).mp (Option.some.inj h))

/-- C19: when the centred window is computed (`count ≥ k + 2`, `k ≥ 1`), its
start `midStart = ⌊(count - k) / 2⌋` satisfies `1 ≤ midStart < count - k`; the
window is the `k` points at the positions `midStart, …, midStart + k - 1`, all
inside the sorted list, and for points that are pairwise different it is
neither the first-`k` nor the last-`k` selection. -/
theorem centered_window_inside (points : List Point) (k : ℤ) (hk : 1 ≤ k)
    (hcount : (points.length : ℤ) ≥ k + 2) :
    1 ≤ ((points.length : ℤ) - k) / 2 ∧
    ((points.length : ℤ) - k) / 2 < (points.length : ℤ) - k ∧
    ((points.length : ℤ) - k) / 2 + k ≤ (points.length : ℤ) ∧
    slice points (((points.length : ℤ) - k) / 2) (((points.length : ℤ) - k) / 2 + k)
      = (points.drop (((points.length : ℤ) - k) / 2).toNat).take k.toNat ∧
    (slice points (((points.length : ℤ) - k) / 2) (((points.length : ℤ) - k) / 2 + k)).length
      = k.toNat ∧
    (points.Nodup →
      slice points (((points.length : ℤ) - k) / 2) (((points.length : ℤ) - k) / 2 + k)
        ≠ slice points 0 k ∧
      slice points (((points.length : ℤ) - k) / 2) (((points.length : ℤ) - k) / 2 + k)
        ≠ slice points (-k) (points.length : ℤ)) := by
  obtain ⟨kn, rfl⟩ := Int.eq_ofNat_of_zero_le (by omega : (0 : ℤ) ≤ k)
  have hk1 : 1 ≤ kn := by omega
  have hc : kn + 2 ≤ points.length := by omega
  have hmid : ((points.length : ℤ) - (kn : ℤ)) / 2 = (((points.length - kn) / 2 : ℕ) : ℤ) := by
    omega
  have hms : (points.length - kn) / 2 + kn ≤ points.length := by omega
  have e1 := slice_eq_drop_take points ((points.length - kn) / 2) kn hms
  have e0 := slice_eq_drop_take points 0 kn (by omega)
  have e2 := slice_neg_eq_drop points kn hk1 (by omega)
  simp only [Nat.cast_zero, zero_add, List.drop_zero] at e0
  rw [hmid]
  refine ⟨by omega, by omega, by omega, ?_, ?_, ?_⟩
  · rw [e1, Int.toNat_ofNat, Int.toNat_ofNat]
  · rw [e1, List.length_take, List.length_drop]; simp; omega
  · intro hn
    rw [e1, e0, e2]
    constructor
    · intro h
      have h1 := congrArg List.head? h
      rw [head?_drop_take _ _ _ hk1, ← List.drop_zero (List.take kn points)] at h1
      have h2 : (List.drop 0 (List.take kn points)).head? = points[0]? := by
        rw [List.drop_zero, List.head?_take, if_neg (by omega), ← List.head?_drop,
          List.drop_zero]
      rw [h2] at h1
      exact getElem?_ne_of_nodup points hn _ _ (by omega) (by omega) (by omega) h1
    · intro h
      have h1 := congrArg List.head? h
      rw [head?_drop_take _ _ _ hk1] at h1
      have h2 : (List.drop (points.length - kn) points).head? = points[points.length - kn]? := by
        rw [List.head?_drop]
      rw [h2] at h1
      exact getElem?_ne_of_nodup points hn _ _ (by omega) (by omega) (by omega) h1

/-- C19, at the ten sorted points of `testCase2` with `k = 7`: the window
starts at index 1. -/
theorem centered_window_inside_witness :
    ∃ points : List Point, points.length = 10 ∧
    1 ≤ ((points.length : ℤ) - 7) / 2 ∧
    ((points.length : ℤ) - 7) / 2 < (points.length : ℤ) - 7 ∧
    ((points.length : ℤ) - 7) / 2 + 7 ≤ (points.length : ℤ) ∧
    slice points (((points.length : ℤ) - 7) / 2) (((points.length : ℤ) - 7) / 2 + 7)
      = (points.drop (((points.length : ℤ) - 7) / 2).toNat).take (7 : ℤ).toNat ∧
    (slice points (((points.length : ℤ) - 7) / 2) (((points.length : ℤ) - 7) / 2 + 7)).length
      = (7 : ℤ).toNat ∧
    (points.Nodup →
      slice points (((points.length : ℤ) - 7) / 2) (((points.length : ℤ) - 7) / 2 + 7)
        ≠ slice points 0 7 ∧
      slice points (((points.length : ℤ) - 7) / 2) (((points.length : ℤ) - 7) / 2 + 7)
        ≠ slice points (-7) (points.length : ℤ)) :=
  ⟨(List.range 10).map (fun i => ⟨fin (i + 1 : ℕ), fin 0⟩), by decide,
    centered_window_inside ((List.range 10).map (fun i => ⟨fin (i + 1 : ℕ), fin 0⟩)) 7
      (by decide) (by decide)⟩

/-- C8 (amended): on `testCase2` the first value is decoded exactly and the
other nine are rounded to doubles; the first seven points give the returned
secret -6290016743746478080, the last seven give 79836265578496 and the
centred seven give 8386875276277710848. -/
theorem testCase2_outcome :
    solvePolynomialSecretTrace testCase2 = Except.ok
      { points :=
          [⟨fin 1, fin 995085094601491⟩, ⟨fin 2, fin 320923294898495872⟩,
           ⟨fin 3, fin 196563650089608576⟩, ⟨fin 4, fin 1016509518118225920⟩,
           ⟨fin 5, fin 3711974121218449920⟩, ⟨fin 6, fin 10788619898233491456⟩,
           ⟨fin 7, fin 26709394976508342272⟩, ⟨fin 8, fin 58725075613853310976⟩,
           ⟨fin 9, fin 117852986202006519808⟩, ⟨fin 10, fin 220003896831595315200⟩],
        selectedPoints :=
          [⟨fin 1, fin 995085094601491⟩, ⟨fin 2, fin 320923294898495872⟩,
           ⟨fin 3, fin 196563650089608576⟩, ⟨fin 4, fin 1016509518118225920⟩,
           ⟨fin 5, fin 3711974121218449920⟩, ⟨fin 6, fin 10788619898233491456⟩,
           ⟨fin 7, fin 26709394976508342272⟩],
        secret := fin (-6290016743746478080),
        verifyLog := [fin 79836265578496, fin 8386875276277710848] } ∧
    solvePolynomialSecret testCase2 = Except.ok (fin (-6290016743746478080)) ∧
    positionalValue 6 "13444211440455345511" = 995085094601491 := by
  decide!

/-- C8 (as stated) fails: the exact values of the entries 2 to 10 of
`testCase2` are not doubles (rounding them to binary64 changes them), so they
cannot be decoded without loss, and the primary secret of the run differs from
the last-seven verification secret. -/
theorem testCase2_inexact_and_inconsistent :
    roundToDouble (positionalValue 15 "aed7015a346d635")
      ≠ fin (positionalValue 15 "aed7015a346d635") ∧
    roundToDouble (positionalValue 15 "6aeeb69631c227c")
      ≠ fin (positionalValue 15 "6aeeb69631c227c") ∧
    roundToDouble (positionalValue 16 "e1b5e05623d881f")
      ≠ fin (positionalValue 16 "e1b5e05623d881f") ∧
    roundToDouble (positionalValue 8 "316034514573652620673")
      ≠ fin (positionalValue 8 "316034514573652620673") ∧
    roundToDouble (positionalValue 3 "2122212201122002221120200210011020220200")
      ≠ fin (positionalValue 3 "2122212201122002221120200210011020220200") ∧
    roundToDouble (positionalValue 3 "20120221122211000100210021102001201112121")
      ≠ fin (positionalValue 3 "20120221122211000100210021102001201112121") ∧
    roundToDouble (positionalValue 6 "20220554335330240002224253")
      ≠ fin (positionalValue 6 "20220554335330240002224253") ∧
    roundToDouble (positionalValue 12 "45153788322a1255483")
      ≠ fin (positionalValue 12 "45153788322a1255483") ∧
    roundToDouble (positionalValue 7 "1101613130313526312514143")
      ≠ fin (positionalValue 7 "1101613130313526312514143") ∧
    (∃ outcome, solvePolynomialSecretTrace testCase2 = Except.ok outcome ∧
      outcome.verifyLog.head? ≠ some outcome.secret) := by
  refine ⟨by decide!, by decide!, by decide!, by decide!, by decide!, by decide!, by decide!,
    by decide!, by decide!, ⟨_, rfl, by decide!⟩⟩

namespace JSNum

/-! ### NaN and the infinities propagate -/

theorem add_isFinite_false_left (a b : JSNum) (h : a.isFinite = false) :
    (a + b).isFinite = false := by
  rw [add_def]
  cases a <;> cases b <;> simp_all [add, isFinite]
  split_ifs <;> rfl

theorem add_isFinite_false_right (a b : JSNum) (h : b.isFinite = false) :
    (a + b).isFinite = false := by
  rw [add_def]
  cases a <;> cases b <;> simp_all [add, isFinite]
  split_ifs <;> rfl

theorem mul_isFinite_false_left (a b : JSNum) (h : a.isFinite = false) :
    (a * b).isFinite = false := by
  rw [mul_def]
  cases a <;> cases b <;> simp_all [mul, isFinite] <;> split_ifs <;> rfl

theorem mul_isFinite_false_right (a b : JSNum) (h : b.isFinite = false) :
    (a * b).isFinite = false := by
  rw [mul_def]
  cases a <;> cases b <;> simp_all [mul, isFinite] <;> split_ifs <;> rfl

theorem div_isFinite_false_of_isZero (a b : JSNum) (h : b.isZero = true) :
    (a / b).isFinite = false := by
  rw [div_def]
  cases a <;> cases b <;> simp_all [div, isFinite, isZero] <;> split_ifs <;> rfl

theorem sub_isZero_of_toRat_eq (a b : JSNum) (q : ℚ) (ha : a.toRat = some q)
    (hb : b.toRat = some q) : (a - b).isZero = true := by
  rw [sub_def]
  cases a with
  | nan => simp [toRat] at ha
  | inf s => simp [toRat] at ha
  | negZero =>
    cases b with
    | nan => simp [toRat] at hb
    | inf s => simp [toRat] at hb
    | negZero => simp [neg, add, isZero]
    | fin r =>
      simp only [toRat, Option.some.injEq] at ha hb
      subst ha; subst hb
      simp [neg, add, isZero]
  | fin p =>
    cases b with
    | nan => simp [toRat] at hb
    | inf s => simp [toRat] at hb
    | negZero =>
      simp only [toRat, Option.some.injEq] at ha hb
      subst hb; subst ha
      simp [neg, add, isZero, roundToDouble]
    | fin r =>
      simp only [toRat, Option.some.injEq] at ha hb
      have hpr : r = p := hb.trans ha.symm
      subst hpr
      by_cases hp : r = 0
      · subst hp; simp [neg, add, isZero]
      · simp [neg, hp, add, isZero, roundToDouble]

theorem mathRound_isFinite_false (a : JSNum) (h : a.isFinite = false) :
    (mathRound a).isFinite = false := by
  cases a <;> simp_all [mathRound, isFinite]

end JSNum

theorem basisLoop_isFinite_false_of_term (xi : JSNum) (i : ℕ) :
    ∀ (l : List Point) (j : ℕ) (term : JSNum), term.isFinite = false →
    (basisLoop xi i l j term).isFinite = false := by
  intro l
  induction l with
  | nil => intro j term h; exact h
  | cons p rest ih =>
    intro j term h
    unfold basisLoop
    apply ih
    split_ifs
    · exact mul_isFinite_false_left _ _ h
    · exact h

theorem basisLoop_isFinite_false (xi : JSNum) (i : ℕ) :
    ∀ (l : List Point) (j : ℕ) (term : JSNum) (n : ℕ) (pj : Point),
    l[n]? = some pj → j + n ≠ i → (xi - pj.x).isZero = true →
    (basisLoop xi i l j term).isFinite = false := by
  intro l
  induction l with
  | nil => intro j term n pj h; simp at h
  | cons p rest ih =>
    intro j term n pj h hne hz
    unfold basisLoop
    cases n with
    | zero =>
      simp only [List.getElem?_cons_zero, Option.some.injEq] at h
      subst h
      apply basisLoop_isFinite_false_of_term
      rw [if_pos (by omega)]
      exact mul_isFinite_false_right _ _ (div_isFinite_false_of_isZero _ _ hz)
    | succ m =>
      simp only [List.getElem?_cons_succ] at h
      exact ih (j + 1) _ m pj h (by omega) hz

theorem termLoop_isFinite_false_of_acc (points : List Point) :
    ∀ (l : List Point) (i : ℕ) (acc : JSNum), acc.isFinite = false →
    (termLoop points l i acc).isFinite = false := by
  intro l
  induction l with
  | nil => intro i acc h; exact h
  | cons p rest ih =>
    intro i acc h
    unfold termLoop
    exact ih _ _ (add_isFinite_false_left _ _ h)

theorem termLoop_isFinite_false (points : List Point) :
    ∀ (l : List Point) (i : ℕ) (acc : JSNum) (n : ℕ) (p : Point),
    l[n]? = some p → (basisLoop p.x (i + n) points 0 p.y).isFinite = false →
    (termLoop points l i acc).isFinite = false := by
  intro l
  induction l with
  | nil => intro i acc n p h; simp at h
  | cons p0 rest ih =>
    intro i acc n p h hb
    unfold termLoop
    cases n with
    | zero =>
      simp only [List.getElem?_cons_zero, Option.some.injEq] at h
      subst h
      apply termLoop_isFinite_false_of_acc
      exact add_isFinite_false_right _ _ hb
    | succ m =>
      simp only [List.getElem?_cons_succ] at h
      exact ih (i + 1) _ m p h (by rwa [show i + 1 + m = i + (m + 1) by ring])

/-- C6 (amended): for a list of points in which two different positions hold
the same finite x coordinate, `lagrangeInterpolation` raises nothing and
returns NaN or an infinity, never a finite number. -/
theorem lagrangeInterpolation_duplicate_x (points : List Point) (i j : ℕ) (pi pj : Point)
    (q : ℚ) (hij : i ≠ j) (hi : points[i]? = some pi) (hj : points[j]? = some pj)
    (hxi : pi.x.toRat = some q) (hxj : pj.x.toRat = some q) :
    lagrangeInterpolation points = nan ∨ lagrangeInterpolation points = inf false ∨
      lagrangeInterpolation points = inf true := by
  have h1 : (basisLoop pi.x (0 + i) points 0 pi.y).isFinite = false :=
    basisLoop_isFinite_false pi.x (0 + i) points 0 pi.y j pj hj (by omega)
      (sub_isZero_of_toRat_eq _ _ q hxi hxj)
  have h2 : (lagrangeSum points).isFinite = false :=
    termLoop_isFinite_false points points 0 (fin 0) i pi hi h1
  have h3 := mathRound_isFinite_false _ h2
  unfold lagrangeInterpolation
  cases h : mathRound (lagrangeSum points) with
  | nan => simp
  | inf s => cases s <;> simp
  | negZero => rw [h] at h3; simp [isFinite] at h3
  | fin r => rw [h] at h3; simp [isFinite] at h3

/-- C6 (amended), at the points (2,5), (4,1), (2,9). -/
theorem lagrangeInterpolation_duplicate_x_witness :
    lagrangeInterpolation [⟨fin 2, fin 5⟩, ⟨fin 4, fin 1⟩, ⟨fin 2, fin 9⟩] = nan ∨
    lagrangeInterpolation [⟨fin 2, fin 5⟩, ⟨fin 4, fin 1⟩, ⟨fin 2, fin 9⟩] = inf false ∨
    lagrangeInterpolation [⟨fin 2, fin 5⟩, ⟨fin 4, fin 1⟩, ⟨fin 2, fin 9⟩] = inf true :=
  lagrangeInterpolation_duplicate_x [⟨fin 2, fin 5⟩, ⟨fin 4, fin 1⟩, ⟨fin 2, fin 9⟩] 0 2
    ⟨fin 2, fin 5⟩ ⟨fin 2, fin 9⟩ 2 (by decide) rfl rfl rfl rfl

/-- C6 (as stated) fails: for the points (1,1), (1,2), which share `x = 1`,
`lagrangeInterpolation` returns the number `-Infinity`; nothing is raised. -/
theorem lagrangeInterpolation_duplicate_returns :
    lagrangeInterpolation [⟨fin 1, fin 1⟩, ⟨fin 1, fin 2⟩] = inf true := by
  decide!

/-! ### The exact Lagrange sum -/

theorem exactBasisLoop_eq_prod (xi : ℚ) (i : ℕ) : ∀ (l : List (ℚ × ℚ)) (j : ℕ) (term : ℚ),
    exactBasisLoop xi i l j term
      = term * ∏ k in Finset.range l.length,
          (if i ≠ j + k then (0 - (l.getD k (0, 0)).1) / (xi - (l.getD k (0, 0)).1) else 1) := by
  intro l
  induction l with
  | nil => intro j term; simp [exactBasisLoop]
  | cons p rest ih =>
    intro j term
    unfold exactBasisLoop
    rw [ih, List.length_cons, Finset.prod_range_succ']
    simp only [List.getD_cons_succ, List.getD_cons_zero, add_zero]
    have : ∀ k, j + 1 + k = j + (k + 1) := fun k => by ring
    simp only [this]
    split_ifs <;> ring

theorem exactTermLoop_eq_sum (points : List (ℚ × ℚ)) : ∀ (l : List (ℚ × ℚ)) (i : ℕ) (acc : ℚ),
    exactTermLoop points l i acc
      = acc + ∑ k in Finset.range l.length,
          exactBasisLoop (l.getD k (0, 0)).1 (i + k) points 0 (l.getD k (0, 0)).2 := by
  intro l
  induction l with
  | nil => intro i acc; simp [exactTermLoop]
  | cons p rest ih =>
    intro i acc
    unfold exactTermLoop
    rw [ih, List.length_cons, Finset.sum_range_succ']
    simp only [List.getD_cons_succ, List.getD_cons_zero, add_zero]
    have : ∀ k, i + 1 + k = i + (k + 1) := fun k => by ring
    simp only [this]
    ring

theorem exactLagrangeSum_eq_sum (points : List (ℚ × ℚ)) :
    exactLagrangeSum points
      = ∑ i : Fin points.length, (points.getD i (0, 0)).2 *
          ∏ j in Finset.univ.erase i,
            ((points.getD i (0, 0)).1 - (points.getD j (0, 0)).1)⁻¹
              * (0 - (points.getD j (0, 0)).1) := by
  unfold exactLagrangeSum
  rw [exactTermLoop_eq_sum, zero_add, Finset.sum_range]
  apply Finset.sum_congr rfl
  intro i _
  rw [exactBasisLoop_eq_prod, Finset.prod_range]
  congr 1
  rw [← Finset.filter_ne' Finset.univ i, Finset.prod_filter]
  apply Finset.prod_congr rfl
  intro j _
  simp only [zero_add]
  by_cases h : (i : ℕ) = (j : ℕ)
  · have : j = i := (Fin.ext h).symm
    simp [h, this]
  · have : j ≠ i := fun hji => h (by rw [hji])
    simp only [ne_eq, h, not_false_eq_true, if_true, this]
    rw [div_eq_mul_inv, mul_comm]

theorem getD_injective_of_nodup (points : List (ℚ × ℚ)) (hx : (points.map Prod.fst).Nodup) :
    Function.Injective (fun i : Fin points.length => (points.getD i (0, 0)).1) := by
  intro i j h
  simp only at h
  have hi : (i : ℕ) < (points.map Prod.fst).length := by simp
  have hj : (j : ℕ) < (points.map Prod.fst).length := by simp
  have e : (points.map Prod.fst)[(i : ℕ)] = (points.map Prod.fst)[(j : ℕ)] := by
    simp only [List.getElem_map]
    rw [List.getD_eq_getElem _ _ i.2, List.getD_eq_getElem _ _ j.2] at h
    exact h
  exact Fin.ext ((List.Nodup.getElem_inj_iff hx).mp e)

/-- The exact Lagrange sum of points with pairwise distinct `x` that lie on a
polynomial of degree below the number of points is the value of the polynomial
at zero. -/
theorem exactLagrangeSum_eq_eval (points : List (ℚ × ℚ)) (hx : (points.map Prod.fst).Nodup)
    (f : Polynomial ℚ) (hdeg : f.degree < points.length)
    (hf : ∀ p ∈ points, f.eval p.1 = p.2) :
    exactLagrangeSum points = f.eval 0 := by
  have hinj := getD_injective_of_nodup points hx
  have h := Lagrange.eq_interpolate_of_eval_eq
    (s := Finset.univ) (v := fun i : Fin points.length => (points.getD i (0, 0)).1)
    (fun i : Fin points.length => (points.getD i (0, 0)).2)
    (f := f) (hinj.injOn) (by simpa using hdeg)
    (by
      intro i _
      have hm : points.getD i (0, 0) ∈ points := by
        rw [List.getD_eq_getElem _ _ i.2]
        exact List.getElem_mem _
      exact hf _ hm)
  rw [h, exactLagrangeSum_eq_sum, Lagrange.interpolate_apply, Polynomial.eval_finset_sum]
  apply Finset.sum_congr rfl
  intro i _
  rw [Polynomial.eval_mul, Polynomial.eval_C, Lagrange.basis, Polynomial.eval_prod]
  congr 1
  apply Finset.prod_congr rfl
  intro j _
  simp [Lagrange.basisDivisor]

/-- The exact Lagrange sum does not depend on the order of the points. -/
theorem exactLagrangeSum_perm (points points2 : List (ℚ × ℚ))
    (hx : (points.map Prod.fst).Nodup) (hp : points.Perm points2) :
    exactLagrangeSum points = exactLagrangeSum points2 := by
  have hx2 : (points2.map Prod.fst).Nodup := (hp.map Prod.fst).nodup_iff.mp hx
  have hinj := getD_injective_of_nodup points2 hx2
  -- the interpolation polynomial of the second list
  let f : Polynomial ℚ := Lagrange.interpolate Finset.univ
    (fun i : Fin points2.length => (points2.getD i (0, 0)).1)
    (fun i : Fin points2.length => (points2.getD i (0, 0)).2)
  have hdeg : f.degree < points2.length := by
    have := Lagrange.degree_interpolate_lt (s := Finset.univ)
      (v := fun i : Fin points2.length => (points2.getD i (0, 0)).1)
      (r := fun i : Fin points2.length => (points2.getD i (0, 0)).2) hinj.injOn
    rw [Finset.card_univ, Fintype.card_fin] at this
    exact this
  have hf2 : ∀ p ∈ points2, f.eval p.1 = p.2 := by
    intro p hp2
    obtain ⟨k, hk, rfl⟩ := List.getElem_of_mem hp2
    have := Lagrange.eval_interpolate_at_node (s := Finset.univ)
      (v := fun i : Fin points2.length => (points2.getD i (0, 0)).1)
      (fun i : Fin points2.length => (points2.getD i (0, 0)).2) hinj.injOn
      (Finset.mem_univ (⟨k, hk⟩ : Fin points2.length))
    simp only [List.getD_eq_getElem _ _ hk] at this
    exact this
  rw [exactLagrangeSum_eq_eval points2 hx2 f hdeg hf2,
    exactLagrangeSum_eq_eval points hx f (by rw [hp.length_eq]; exact hdeg)
      (fun p hp1 => hf2 p (hp.subset hp1))]

/-! ### `Math.round` and the floating-point sum -/

theorem mathRound_toRat (a : JSNum) (T : ℚ) (h : a.toRat = some T) :
    (mathRound a).toRat = some ((⌊T + 1 / 2⌋ : ℤ) : ℚ) := by
  cases a with
  | nan => simp [toRat] at h
  | inf s => simp [toRat] at h
  | negZero =>
    simp only [toRat, Option.some.injEq] at h
    subst h
    simp only [mathRound, toRat, Option.some.injEq]
    norm_num
  | fin q =>
    simp only [toRat, Option.some.injEq] at h
    subst h
    simp only [mathRound]
    split_ifs with h0
    · simp only [toRat, Option.some.injEq]
      rw [h0.1]; simp
    · rfl

theorem floor_add_half_eq_of_close (T : ℚ) (m : ℤ) (h : |T - (m : ℚ)| < 1 / 2) :
    ⌊T + 1 / 2⌋ = m := by
  rw [Int.floor_eq_iff]
  rw [abs_lt] at h
  constructor <;> linarith [h.1, h.2]

/-- When the floating-point sum is within one half of an integer exact sum,
`lagrangeInterpolation` returns that integer. -/
theorem lagrangeInterpolation_of_small_error (points : List (ℚ × ℚ)) (m : ℤ)
    (hS : exactLagrangeSum points = (m : ℚ)) (hsmall : roundingErrorSmall points) :
    (lagrangeInterpolation (toPoints points)).toRat = some (m : ℚ) := by
  unfold roundingErrorSmall at hsmall
  cases hT : (lagrangeSum (toPoints points)).toRat with
  | none => rw [hT] at hsmall; exact absurd hsmall not_false
  | some T =>
    rw [hT] at hsmall
    simp only at hsmall
    rw [hS] at hsmall
    unfold lagrangeInterpolation
    rw [mathRound_toRat _ T hT, floor_add_half_eq_of_close T m hsmall]

theorem exists_polynomial_of_coeffs : ∀ (coeffs : List ℤ),
    ∃ f : Polynomial ℚ, f.degree < (coeffs.length : WithBot ℕ) ∧
      ∀ x : ℤ, f.eval (x : ℚ) = ((evalPoly coeffs x : ℤ) : ℚ) := by
  intro coeffs
  induction coeffs with
  | nil => exact ⟨0, by simp, fun x => by simp [evalPoly]⟩
  | cons c cs ih =>
    obtain ⟨g, hg, hev⟩ := ih
    refine ⟨Polynomial.C (c : ℚ) + Polynomial.X * g, ?_, ?_⟩
    · apply lt_of_le_of_lt (Polynomial.degree_add_le _ _)
      rw [max_lt_iff]
      constructor
      · apply lt_of_le_of_lt Polynomial.degree_C_le
        simp
        exact_mod_cast Nat.succ_pos _
      · by_cases hg0 : g = 0
        · subst hg0
          simp only [mul_zero, Polynomial.degree_zero]
          exact WithBot.bot_lt_coe _
        · rw [Polynomial.degree_mul, Polynomial.degree_X]
          rw [Polynomial.degree_eq_natDegree hg0] at hg ⊢
          have : g.natDegree < cs.length := by exact_mod_cast hg
          simp only [List.length_cons]
          have h2 : (1 : WithBot ℕ) + (g.natDegree : WithBot ℕ)
              = ((1 + g.natDegree : ℕ) : WithBot ℕ) := by push_cast; rfl
          rw [h2]
          exact_mod_cast (by omega : 1 + g.natDegree < cs.length + 1)
    · intro x
      simp [evalPoly, hev x]

theorem samplePoints_map_fst (coeffs xs : List ℤ) :
    (samplePoints coeffs xs).map Prod.fst = xs.map (fun (x : ℤ) => (x : ℚ)) := by
  unfold samplePoints
  rw [List.map_map]
  rfl

theorem samplePoints_nodup (coeffs xs : List ℤ) (hx : xs.Nodup) :
    ((samplePoints coeffs xs).map Prod.fst).Nodup := by
  rw [samplePoints_map_fst]
  exact hx.map Int.cast_injective

theorem samplePoints_length (coeffs xs : List ℤ) : (samplePoints coeffs xs).length = xs.length := by
  unfold samplePoints
  simp

/-- The exact Lagrange sum of at least `deg + 1` samples of an integer
polynomial at pairwise distinct integers is its constant term. -/
theorem exactLagrangeSum_samplePoints (coeffs xs : List ℤ) (hx : xs.Nodup)
    (hlen : coeffs.length ≤ xs.length) :
    exactLagrangeSum (samplePoints coeffs xs) = ((evalPoly coeffs 0 : ℤ) : ℚ) := by
  obtain ⟨f, hdeg, hev⟩ := exists_polynomial_of_coeffs coeffs
  have h := exactLagrangeSum_eq_eval (samplePoints coeffs xs) (samplePoints_nodup coeffs xs hx) f
    (by
      rw [samplePoints_length]
      exact lt_of_lt_of_le hdeg (by exact_mod_cast hlen))
    (by
      intro p hp
      unfold samplePoints at hp
      rw [List.mem_map] at hp
      obtain ⟨x, _, rfl⟩ := hp
      exact hev x)
  rw [h]
  have := hev 0
  simpa using this

/-! ### Claims about `lagrangeInterpolation` -/

/-- C2 (as stated) fails: the points (1, 2^53 + 2) and (3, 3 * 2^53 + 4) lie on
`p = 1 + (2^53 + 1) * x`, of degree 1 with `p 0 = 1`, all four coordinates are
doubles, and `lagrangeInterpolation` returns 2. -/
theorem lagrangeInterpolation_not_constant_term :
    samplePoints [1, 9007199254740993] [1, 3]
      = [(1, 9007199254740994), (3, 27021597764222980)] ∧
    roundToDouble 9007199254740994 = fin 9007199254740994 ∧
    roundToDouble 27021597764222980 = fin 27021597764222980 ∧
    evalPoly [1, 9007199254740993] 0 = 1 ∧
    lagrangeInterpolation (toPoints (samplePoints [1, 9007199254740993] [1, 3])) = fin 2 := by
  decide!

/-- C9 (as stated) fails: for the points (1,74), (4,194), (9,29), with
pairwise distinct x, the exact sum is `S = -5/2`, so `⌊S + 1/2⌋ = -2`, and
`lagrangeInterpolation` returns -3, because the rounded sum is below `-5/2`. -/
theorem lagrangeInterpolation_not_round_of_exact :
    exactLagrangeSum [(1, 74), (4, 194), (9, 29)] = -5 / 2 ∧
    ⌊exactLagrangeSum [(1, 74), (4, 194), (9, 29)] + 1 / 2⌋ = -2 ∧
    lagrangeInterpolation (toPoints [(1, 74), (4, 194), (9, 29)]) = fin (-3) := by
  decide!

/-- C17 (as stated) fails: the points (1,74), (4,194), (9,29) have pairwise
distinct x; in this order `lagrangeInterpolation` returns -3, and with the last
two points exchanged it returns -2. -/
theorem lagrangeInterpolation_order_dependent :
    List.Perm [((1 : ℚ), (74 : ℚ)), (4, 194), (9, 29)] [(1, 74), (9, 29), (4, 194)] ∧
    lagrangeInterpolation (toPoints [(1, 74), (4, 194), (9, 29)]) = fin (-3) ∧
    lagrangeInterpolation (toPoints [(1, 74), (9, 29), (4, 194)]) = fin (-2) := by
  refine ⟨?_, by decide!, by decide!⟩
  exact List.Perm.cons _ (List.Perm.swap _ _ _)

theorem exists_interpolant (points : List (ℚ × ℚ)) (hx : (points.map Prod.fst).Nodup) :
    ∃ f : Polynomial ℚ, f.degree < (points.length : WithBot ℕ) ∧
      ∀ p ∈ points, f.eval p.1 = p.2 := by
  have hinj := getD_injective_of_nodup points hx
  refine ⟨Lagrange.interpolate Finset.univ
    (fun i : Fin points.length => (points.getD i (0, 0)).1)
    (fun i : Fin points.length => (points.getD i (0, 0)).2), ?_, ?_⟩
  · have := Lagrange.degree_interpolate_lt (s := Finset.univ)
      (v := fun i : Fin points.length => (points.getD i (0, 0)).1)
      (r := fun i : Fin points.length => (points.getD i (0, 0)).2) hinj.injOn
    rw [Finset.card_univ, Fintype.card_fin] at this
    exact this
  · intro p hp
    obtain ⟨k, hk, rfl⟩ := List.getElem_of_mem hp
    have := Lagrange.eval_interpolate_at_node (s := Finset.univ)
      (v := fun i : Fin points.length => (points.getD i (0, 0)).1)
      (fun i : Fin points.length => (points.getD i (0, 0)).2) hinj.injOn
      (Finset.mem_univ (⟨k, hk⟩ : Fin points.length))
    simp only [List.getD_eq_getElem _ _ hk] at this
    exact this

/-- The exact Lagrange sum of points with pairwise distinct x, one of which has
`x = 0`, is the `y` of that point. -/
theorem exactLagrangeSum_of_zero_mem (points : List (ℚ × ℚ)) (y : ℚ)
    (hx : (points.map Prod.fst).Nodup) (h0 : ((0 : ℚ), y) ∈ points) :
    exactLagrangeSum points = y := by
  obtain ⟨f, hdeg, hf⟩ := exists_interpolant points hx
  rw [exactLagrangeSum_eq_eval points hx f hdeg hf]
  exact hf _ h0

/-- C18 (as stated) fails: the points (1, 2^1023), (2, 0), (0, 7) have pairwise
distinct x and contain `x = 0` with `y = 7`, but the first term overflows to
`Infinity` before it is multiplied by zero, and `lagrangeInterpolation` returns
NaN. -/
theorem lagrangeInterpolation_zero_point_nan :
    roundToDouble (2 ^ 1023) = fin (2 ^ 1023) ∧
    lagrangeInterpolation (toPoints [(1, 2 ^ 1023), (2, 0), (0, 7)]) = nan := by
  decide!

theorem toPoints_samplePoints_window (coeffs xs : List ℤ) (s k : ℕ) :
    ((toPoints (samplePoints coeffs xs)).drop s).take k
      = toPoints (samplePoints coeffs ((xs.drop s).take k)) := by
  unfold toPoints samplePoints
  rw [← List.map_drop, ← List.map_take, ← List.map_drop, ← List.map_take]

theorem toPoints_samplePoints_length (coeffs xs : List ℤ) :
    (toPoints (samplePoints coeffs xs)).length = xs.length := by
  unfold toPoints samplePoints
  simp

theorem window_secret (coeffs xs : List ℤ) (s k : ℕ) (hx : xs.Nodup)
    (hdeg : coeffs.length ≤ k) (hs : s + k ≤ xs.length)
    (herr : roundingErrorSmall (samplePoints coeffs ((xs.drop s).take k))) :
    (lagrangeInterpolation (((toPoints (samplePoints coeffs xs)).drop s).take k)).toRat
      = some ((evalPoly coeffs 0 : ℤ) : ℚ) := by
  rw [toPoints_samplePoints_window]
  apply lagrangeInterpolation_of_small_error _ _ _ herr
  apply exactLagrangeSum_samplePoints
  · exact (hx.sublist ((List.take_sublist _ _).trans (List.drop_sublist _ _)))
  · rw [List.length_take, List.length_drop]
    omega

theorem solvePolynomialSecretTrace_eq (data : Document) (keys : Keys) (k : ℤ)
    (decoded : List Point) (hkeys : data.keys = some keys) (hk : keys.k = some k)
    (hdec : decodePoints data.entries = Except.ok decoded) :
    solvePolynomialSecretTrace data = Except.ok
      { points := sortPoints decoded, selectedPoints := slice (sortPoints decoded) 0 k,
        secret := lagrangeInterpolation (slice (sortPoints decoded) 0 k),
        verifyLog := verifySecrets (sortPoints decoded) k } := by
  unfold solvePolynomialSecretTrace
  rw [hkeys]
  simp only [hdec, hk]

theorem verifySecrets_eq (points : List Point) (k : ℕ) (hk1 : 1 ≤ k) :
    (points.length ≤ k → verifySecrets points k = []) ∧
    (points.length = k + 1 → verifySecrets points k =
      [lagrangeInterpolation (points.drop (points.length - k))]) ∧
    (k + 2 ≤ points.length → verifySecrets points k =
      [lagrangeInterpolation (points.drop (points.length - k)),
       lagrangeInterpolation ((points.drop ((points.length - k) / 2)).take k)]) := by
  refine ⟨?_, ?_, ?_⟩
  · intro hle
    unfold verifySecrets
    rw [if_neg (by omega)]
  · intro heq
    unfold verifySecrets
    rw [if_pos (by omega), if_neg (by omega), slice_neg_eq_drop _ k hk1 (by omega)]
  · intro hge
    unfold verifySecrets
    rw [if_pos (by omega), if_pos (by omega), slice_neg_eq_drop _ k hk1 (by omega)]
    have hmid : ((points.length : ℤ) - (k : ℤ)) / 2 = (((points.length - k) / 2 : ℕ) : ℤ) := by
      omega
    simp only [hmid]
    rw [slice_eq_drop_take _ _ k (by omega)]

/-- C4 (as stated) fails: the four points of this document, decoded without
loss, lie on `p = 1 + (2^53 + 1) * x`, of degree `k - 1 = 1`, at the distinct
x = 1, 3, 7, 15; the returned secret is 2 and both verification secrets are 0,
none of them the constant term 1. -/
theorem solvePolynomialSecret_selections_disagree :
    solvePolynomialSecretTrace
        { keys := some { n := some 4, k := some 2 },
          entries :=
            [("1", { base := some "16", value := some "20000000000002" }),
             ("3", { base := some "16", value := some "60000000000004" }),
             ("7", { base := some "16", value := some "e0000000000008" }),
             ("15", { base := some "16", value := some "1e0000000000010" })] }
      = Except.ok
        { points := toPoints (samplePoints [1, 9007199254740993] [1, 3, 7, 15]),
          selectedPoints := toPoints (samplePoints [1, 9007199254740993] [1, 3]),
          secret := fin 2, verifyLog := [fin 0, fin 0] } ∧
    evalPoly [1, 9007199254740993] 0 = 1 := by
  decide!

namespace JSNum

/-! ### The sign of a rounded integer -/

theorem roundHalfEven_ge_floor (z : ℚ) : ⌊z⌋ ≤ roundHalfEven z := by
  unfold roundHalfEven
  simp only
  split_ifs <;> omega

/-- Rounding a rational of absolute value at least one keeps its sign and does
not give zero. -/
theorem roundToDouble_sign (q : ℚ) (hq : 1 ≤ |q|) :
    roundToDouble q = inf (decide (q < 0)) ∨
      ∃ r : ℚ, 0 < r ∧ roundToDouble q = fin (if q < 0 then -r else r) := by
  have ha : 0 < |q| := lt_of_lt_of_le one_pos hq
  have hq0 : q ≠ 0 := abs_pos.mp ha
  obtain ⟨e1, e2⟩ := floorLog2_spec |q| ha
  have he : 0 ≤ floorLog2 |q| := by
    have h1 : pow2 0 < pow2 (floorLog2 |q| + 1) := by
      have : pow2 0 = 1 := by simp [pow2]
      rw [this]
      exact lt_of_le_of_lt hq e2
    have := pow2_lt_pow2_iff.mp h1
    omega
  have ht : max (floorLog2 |q| - 52) (-1074) ≤ floorLog2 |q| := by
    apply max_le <;> omega
  have hz : 1 ≤ |q| / pow2 (max (floorLog2 |q| - 52) (-1074)) := by
    rw [le_div_iff₀ (pow2_pos _), one_mul]
    exact le_trans (pow2_le_pow2 ht) e1
  have hm : 1 ≤ roundHalfEven (|q| / pow2 (max (floorLog2 |q| - 52) (-1074))) := by
    apply le_trans _ (roundHalfEven_ge_floor _)
    rw [Int.le_floor]
    exact_mod_cast hz
  have hm0 : roundHalfEven (|q| / pow2 (max (floorLog2 |q| - 52) (-1074))) ≠ 0 := by omega
  have hr : 0 < (roundHalfEven (|q| / pow2 (max (floorLog2 |q| - 52) (-1074))) : ℚ)
      * pow2 (max (floorLog2 |q| - 52) (-1074)) := by
    apply mul_pos _ (pow2_pos _)
    exact_mod_cast (by omega : 0 < roundHalfEven (|q| / pow2 (max (floorLog2 |q| - 52) (-1074))))
  by_cases hbig : pow2 1024 ≤ (roundHalfEven (|q| / pow2 (max (floorLog2 |q| - 52) (-1074))) : ℚ)
      * pow2 (max (floorLog2 |q| - 52) (-1074))
  · left
    unfold roundToDouble
    simp only [hq0, if_false, hbig, if_true]
  · right
    refine ⟨_, hr, ?_⟩
    unfold roundToDouble
    simp only [hq0, if_false, hbig, hm0]

end JSNum

/-! ### Sorting by integer x coordinates -/

theorem comesAfter_int (a b : Point) (m n : ℤ) (ha : a.x = fin (m : ℚ)) (hb : b.x = fin (n : ℚ)) :
    comesAfter a b = true ↔ n < m := by
  unfold comesAfter
  rw [ha, hb, sub_def]
  by_cases hn : n = 0
  · subst hn
    simp [neg, add]
  · have hnq : (n : ℚ) ≠ 0 := by exact_mod_cast hn
    simp only [neg, hnq, if_false, add]
    by_cases hd : m = n
    · subst hd
      simp [roundToDouble]
    · have hdq : 1 ≤ |(m : ℚ) + -(n : ℚ)| := by
        have : (1 : ℤ) ≤ |m - n| := Int.one_le_abs (sub_ne_zero.mpr hd)
        have h2 : ((1 : ℤ) : ℚ) ≤ ((|m - n| : ℤ) : ℚ) := by exact_mod_cast this
        rw [Int.cast_abs] at h2
        push_cast at h2
        rw [← sub_eq_add_neg]
        exact h2
      have hlt : ((m : ℚ) + -(n : ℚ) < 0) ↔ m < n := by
        rw [← sub_eq_add_neg, sub_neg]
        exact_mod_cast Iff.rfl
      rcases roundToDouble_sign _ hdq with h | ⟨r, hr, h⟩
      · rw [h]
        by_cases hmn : m < n
        · simp [hlt.mpr hmn]; omega
        · simp [mt hlt.mp hmn]; omega
      · rw [h]
        by_cases hmn : m < n
        · simp only [hlt.mpr hmn, if_true]
          simp
          constructor
          · intro h3; linarith
          · intro h3; omega
        · simp only [mt hlt.mp hmn, if_false]
          simp [hr]
          omega

theorem xValue_int (a : Point) (m : ℤ) (ha : a.x = fin (m : ℚ)) : xValue a = (m : ℚ) := by
  unfold xValue
  rw [ha]
  rfl

theorem pointLE_iff_xValue_le (a b : Point) (ha : ∃ m : ℤ, a.x = fin (m : ℚ))
    (hb : ∃ n : ℤ, b.x = fin (n : ℚ)) : pointLE a b ↔ xValue a ≤ xValue b := by
  obtain ⟨m, hm⟩ := ha
  obtain ⟨n, hn⟩ := hb
  unfold pointLE
  rw [xValue_int a m hm, xValue_int b n hn]
  have h := comesAfter_int a b m n hm hn
  constructor
  · intro hf
    have : ¬ (n < m) := fun hlt => by
      rw [h.mpr hlt] at hf
      cases hf
    exact_mod_cast not_lt.mp this
  · intro hle
    cases hc : comesAfter a b with
    | false => rfl
    | true =>
      have := h.mp hc
      have hle2 : m ≤ n := by exact_mod_cast hle
      omega

theorem sortPoints_map_xValue (l : List Point) (hint : ∀ p ∈ l, ∃ n : ℤ, p.x = fin (n : ℚ)) :
    (sortPoints l).map xValue = (l.map xValue).insertionSort (· ≤ ·) := by
  unfold sortPoints
  apply List.map_insertionSort
  intro a ha b hb
  exact pointLE_iff_xValue_le a b (hint a ha) (hint b hb)

theorem sortPoints_perm (l : List Point) : (sortPoints l).Perm l :=
  List.perm_insertionSort _ _

theorem xValue_injOn (l : List Point) (hint : ∀ p ∈ l, ∃ n : ℤ, p.x = fin (n : ℚ))
    (hdist : (l.map (fun p => p.x)).Nodup) :
    ∀ a ∈ l, ∀ b ∈ l, xValue a = xValue b → a = b := by
  intro a ha b hb h
  obtain ⟨m, hm⟩ := hint a ha
  obtain ⟨n, hn⟩ := hint b hb
  rw [xValue_int a m hm, xValue_int b n hn] at h
  have hx : a.x = b.x := by rw [hm, hn, h]
  exact List.inj_on_of_nodup_map hdist ha hb hx

theorem map_xValue_nodup (l : List Point) (hint : ∀ p ∈ l, ∃ n : ℤ, p.x = fin (n : ℚ))
    (hdist : (l.map (fun p => p.x)).Nodup) : (l.map xValue).Nodup := by
  have hn : l.Nodup := List.Nodup.of_map _ hdist
  exact List.Nodup.map_on (xValue_injOn l hint hdist) hn

theorem eq_of_map_eq_of_injOn {α β : Type} (f : α → β) : ∀ (l1 l2 : List α),
    (∀ a ∈ l1, ∀ b ∈ l2, f a = f b → a = b) → l1.map f = l2.map f → l1 = l2 := by
  intro l1
  induction l1 with
  | nil =>
    intro l2 _ h
    cases l2 with
    | nil => rfl
    | cons b r => simp at h
  | cons a r ih =>
    intro l2 hinj h
    cases l2 with
    | nil => simp at h
    | cons b r2 =>
      simp only [List.map_cons, List.cons.injEq] at h
      rw [hinj a (List.mem_cons_self _ _) b (List.mem_cons_self _ _) h.1,
        ih r2 (fun x hx y hy => hinj x (List.mem_cons_of_mem _ hx) y (List.mem_cons_of_mem _ hy))
          h.2]

/-- Sorting does not depend on the order in which the points arrive, when
their x coordinates are pairwise distinct integers. -/
theorem sortPoints_eq_of_perm (l l2 : List Point) (hp : l.Perm l2)
    (hint : ∀ p ∈ l, ∃ n : ℤ, p.x = fin (n : ℚ))
    (hdist : (l.map (fun p => p.x)).Nodup) : sortPoints l = sortPoints l2 := by
  have hint2 : ∀ p ∈ l2, ∃ n : ℤ, p.x = fin (n : ℚ) := fun p hp2 => hint p (hp.mem_iff.mpr hp2)
  have hmap : (sortPoints l).map xValue = (sortPoints l2).map xValue := by
    rw [sortPoints_map_xValue l hint, sortPoints_map_xValue l2 hint2]
    apply List.eq_of_perm_of_sorted (r := (· ≤ ·))
    · exact ((List.perm_insertionSort _ _).trans (hp.map xValue)).trans
        (List.perm_insertionSort _ _).symm
    · exact List.sorted_insertionSort _ _
    · exact List.sorted_insertionSort _ _
  apply eq_of_map_eq_of_injOn xValue _ _ _ hmap
  intro a ha b hb h
  have ha2 : a ∈ l := (sortPoints_perm l).mem_iff.mp ha
  have hb2 : b ∈ l := hp.mem_iff.mpr ((sortPoints_perm l2).mem_iff.mp hb)
  exact xValue_injOn l hint hdist a ha2 b hb2 h

/-- The sorted points are in strictly ascending order of x. -/
theorem sortPoints_pairwise (l : List Point) (hint : ∀ p ∈ l, ∃ n : ℤ, p.x = fin (n : ℚ))
    (hdist : (l.map (fun p => p.x)).Nodup) :
    (sortPoints l).Pairwise (fun a b => xValue a < xValue b) := by
  have h1 : ((sortPoints l).map xValue).Sorted (· ≤ ·) := by
    rw [sortPoints_map_xValue l hint]
    exact List.sorted_insertionSort _ _
  have h2 : ((sortPoints l).map xValue).Nodup :=
    ((sortPoints_perm l).map xValue).nodup_iff.mpr (map_xValue_nodup l hint hdist)
  have h3 : ((sortPoints l).map xValue).Sorted (· < ·) := h1.lt_of_le h2
  exact List.pairwise_map.mp h3

theorem decodePoints_eq_map : ∀ (entries : List (String × Entry)) (pts : List Point),
    decodePoints entries = Except.ok pts → pts = entries.map entryPoint := by
  intro entries
  induction entries with
  | nil => intro pts h; simp [decodePoints] at h; subst h; rfl
  | cons e rest ih =>
    intro pts h
    unfold decodePoints at h
    split at h
    · cases h
    · rename_i p hp
      split at h
      · cases h
      · rename_i ps hps
        cases h
        rw [List.map_cons, ← ih ps hps]
        congr 1
        unfold decodeEntry at hp
        cases hv : e.2.value with
        | none => rw [hv] at hp; cases hp
        | some v =>
          rw [hv] at hp
          simp only at hp
          cases hp
          unfold entryPoint
          rw [hv]
          rfl

theorem decodePoints_of_all_values : ∀ (entries : List (String × Entry)),
    (∀ e ∈ entries, e.2.value ≠ none) →
    decodePoints entries = Except.ok (entries.map entryPoint) := by
  intro entries h
  rcases decodePoints_ok_or_error entries with he | ⟨pts, hp⟩
  · obtain ⟨e, hmem, hv⟩ := (decodePoints_error_iff entries).mp he
    exact absurd hv (h e hmem)
  · rw [hp, decodePoints_eq_map entries pts hp]

theorem decodePoints_perm (entries entries2 : List (String × Entry)) (pts : List Point)
    (hp : entries2.Perm entries) (hdec : decodePoints entries = Except.ok pts) :
    ∃ pts2, decodePoints entries2 = Except.ok pts2 ∧ pts2.Perm pts := by
  have hall : ∀ e ∈ entries, e.2.value ≠ none := by
    intro e he hv
    have := (decodePoints_error_iff entries).mpr ⟨e, he, hv⟩
    rw [hdec] at this
    cases this
  refine ⟨entries2.map entryPoint,
    decodePoints_of_all_values entries2 (fun e he => hall e (hp.mem_iff.mp he)), ?_⟩
  rw [decodePoints_eq_map entries pts hdec]
  exact hp.map entryPoint

/-- C10: for a document with a threshold `k` and at least `k` points whose
x coordinates are pairwise distinct integers, the secret returned is
`lagrangeInterpolation` of `k` of the points, in strictly ascending order of x
and with every point left out having a larger x than all of them; and the
return value is the same for every order of the entries in the document. -/
theorem solvePolynomialSecret_smallest_x (data : Document) (keys : Keys) (k : ℕ)
    (decoded : List Point) (hkeys : data.keys = some keys) (hk : keys.k = some (k : ℤ))
    (hdec : decodePoints data.entries = Except.ok decoded)
    (hint : ∀ p ∈ decoded, ∃ n : ℤ, p.x = fin (n : ℚ))
    (hdist : (decoded.map (fun p => p.x)).Nodup) (hcount : k ≤ decoded.length) :
    (∃ selected : List Point,
      solvePolynomialSecret data = Except.ok (lagrangeInterpolation selected) ∧
      selected.length = k ∧ (∀ p ∈ selected, p ∈ decoded) ∧
      selected.Pairwise (fun a b => xValue a < xValue b) ∧
      (∀ p ∈ decoded, p ∉ selected → ∀ s ∈ selected, xValue s < xValue p)) ∧
    (∀ entries2 : List (String × Entry), entries2.Perm data.entries →
      solvePolynomialSecret { keys := data.keys, entries := entries2 }
        = solvePolynomialSecret data) := by
  have htrace := solvePolynomialSecretTrace_eq data keys k decoded hkeys hk hdec
  have hlen := sortPoints_length decoded
  have hslice : slice (sortPoints decoded) 0 (k : ℤ) = (sortPoints decoded).take k := by
    have := slice_eq_drop_take (sortPoints decoded) 0 k (by omega)
    simpa using this
  have hpw := sortPoints_pairwise decoded hint hdist
  constructor
  · refine ⟨(sortPoints decoded).take k, ?_, ?_, ?_, ?_, ?_⟩
    · unfold solvePolynomialSecret
      rw [htrace, hslice]
    · rw [List.length_take]; omega
    · intro p hp
      exact (sortPoints_perm decoded).mem_iff.mp (List.mem_of_mem_take hp)
    · exact hpw.sublist (List.take_sublist _ _)
    · intro p hp hnot s hs
      have hmem : p ∈ (sortPoints decoded).take k ++ (sortPoints decoded).drop k := by
        rw [List.take_append_drop]
        exact (sortPoints_perm decoded).mem_iff.mpr hp
      rcases List.mem_append.mp hmem with h | h
      · exact absurd h hnot
      · have hsplit := hpw
        rw [← List.take_append_drop k (sortPoints decoded), List.pairwise_append] at hsplit
        exact hsplit.2.2 s hs p h
  · intro entries2 hperm
    obtain ⟨decoded2, hdec2, hp2⟩ := decodePoints_perm data.entries entries2 decoded hperm hdec
    have htrace2 := solvePolynomialSecretTrace_eq { keys := data.keys, entries := entries2 }
      keys k decoded2 hkeys hk hdec2
    unfold solvePolynomialSecret
    rw [htrace, htrace2, sortPoints_eq_of_perm decoded decoded2 hp2.symm hint hdist]

/-- C10, at `testCase1` and its entries in the order 6, 2, 1, 3. -/
theorem solvePolynomialSecret_smallest_x_witness :
    (∃ selected : List Point,
      solvePolynomialSecret testCase1 = Except.ok (lagrangeInterpolation selected) ∧
      selected.length = 3 ∧
      (∀ p ∈ selected,
        p ∈ ([⟨fin 1, fin 4⟩, ⟨fin 2, fin 7⟩, ⟨fin 3, fin 12⟩, ⟨fin 6, fin 39⟩] : List Point)) ∧
      selected.Pairwise (fun a b => xValue a < xValue b) ∧
      (∀ p ∈ ([⟨fin 1, fin 4⟩, ⟨fin 2, fin 7⟩, ⟨fin 3, fin 12⟩, ⟨fin 6, fin 39⟩] : List Point),
        p ∉ selected → ∀ s ∈ selected, xValue s < xValue p)) ∧
    solvePolynomialSecret
        { keys := testCase1.keys,
          entries :=
            [("6", { base := some "4", value := some "213" }),
             ("2", { base := some "2", value := some "111" }),
             ("1", { base := some "10", value := some "4" }),
             ("3", { base := some "10", value := some "12" })] }
      = solvePolynomialSecret testCase1 :=
  ⟨(solvePolynomialSecret_smallest_x testCase1 { n := some 4, k := some 3 } 3
      [⟨fin 1, fin 4⟩, ⟨fin 2, fin 7⟩, ⟨fin 3, fin 12⟩, ⟨fin 6, fin 39⟩]
      rfl rfl (by decide!)
      (by
        intro p hp
        simp only [List.mem_cons, List.mem_singleton, List.not_mem_nil, or_false] at hp
        rcases hp with rfl | rfl | rfl | rfl
        · exact ⟨1, by simp⟩
        · exact ⟨2, by simp⟩
        · exact ⟨3, by simp⟩
        · exact ⟨6, by simp⟩)
      (by decide!) (by decide)).1,
    (solvePolynomialSecret_smallest_x testCase1 { n := some 4, k := some 3 } 3
      [⟨fin 1, fin 4⟩, ⟨fin 2, fin 7⟩, ⟨fin 3, fin 12⟩, ⟨fin 6, fin 39⟩]
      rfl rfl (by decide!)
      (by
        intro p hp
        simp only [List.mem_cons, List.mem_singleton, List.not_mem_nil, or_false] at hp
        rcases hp with rfl | rfl | rfl | rfl
        · exact ⟨1, by simp⟩
        · exact ⟨2, by simp⟩
        · exact ⟨3, by simp⟩
        · exact ⟨6, by simp⟩)
      (by decide!) (by decide)).2 _ (by decide)⟩

namespace JSNum

/-! ### The error of one rounding -/

theorem roundHalfEven_error (z : ℚ) : |(roundHalfEven z : ℚ) - z| ≤ 1 / 2 := by
  have h1 : (⌊z⌋ : ℚ) ≤ z := Int.floor_le z
  have h2 : z < (⌊z⌋ : ℚ) + 1 := Int.lt_floor_add_one z
  unfold roundHalfEven
  simp only
  split_ifs with c1 c2 c3
  · rw [abs_le]; constructor <;> linarith
  · rw [abs_le]; push_cast; constructor <;> linarith
  · rw [abs_le]; constructor <;> linarith
  · rw [abs_le]; push_cast; constructor <;> linarith

theorem pow2_neg_one_mul (t : ℤ) : pow2 t / 2 = pow2 (t - 1) := by
  rw [show t - 1 = t + (-1) by ring, pow2_add]
  have : pow2 (-1) = 1 / 2 := by simp [pow2]
  rw [this]; ring

theorem pow2_le_pow2_iff {s t : ℤ} : pow2 s ≤ pow2 t ↔ s ≤ t := by
  constructor
  · intro h
    by_contra hc
    exact absurd (pow2_lt_pow2 (not_le.mp hc)) (not_lt.mpr h)
  · exact pow2_le_pow2

/-- One rounding of a rational of size at most `2 ^ 1023` gives a finite number
within `2 ^ (-53) * |q| + 2 ^ (-1075)` of it, and within `2 ^ (-53) * |q|` when
`|q| ≥ 2 ^ (-1022)`. -/
theorem roundToDouble_error (q : ℚ) (hq : |q| ≤ pow2 1023) :
    ∃ r : ℚ, (roundToDouble q).toRat = some r ∧
      |r - q| ≤ pow2 (-53) * |q| + pow2 (-1075) ∧
      (pow2 (-1022) ≤ |q| → |r - q| ≤ pow2 (-53) * |q|) := by
  by_cases hq0 : q = 0
  · subst hq0
    refine ⟨0, by simp [roundToDouble, toRat], ?_, ?_⟩
    · simp; exact le_of_lt (pow2_pos _)
    · intro _; simp
  have ha : 0 < |q| := abs_pos.mpr hq0
  obtain ⟨e1, e2⟩ := floorLog2_spec |q| ha
  have he : floorLog2 |q| ≤ 1023 := pow2_le_pow2_iff.mp (le_trans e1 hq)
  obtain ⟨t, ht⟩ : ∃ t, t = max (floorLog2 |q| - 52) (-1074) := ⟨_, rfl⟩
  obtain ⟨m, hm⟩ : ∃ m, m = roundHalfEven (|q| / pow2 t) := ⟨_, rfl⟩
  have hpt := pow2_pos t
  have herr : |(m : ℚ) * pow2 t - abs q| ≤ pow2 t / 2 := by
    have h := roundHalfEven_error (|q| / pow2 t)
    rw [← hm] at h
    have : (m : ℚ) * pow2 t - abs q = ((m : ℚ) - abs q / pow2 t) * pow2 t := by
      field_simp
    rw [this, abs_mul, abs_of_pos hpt]
    calc |(m : ℚ) - abs q / pow2 t| * pow2 t ≤ 1 / 2 * pow2 t :=
          mul_le_mul_of_nonneg_right h (le_of_lt hpt)
      _ = pow2 t / 2 := by ring
  have ht971 : t ≤ 971 := by rw [ht]; apply max_le <;> omega
  have hnobig : ¬ (pow2 1024 ≤ (m : ℚ) * pow2 t) := by
    rw [not_le]
    have h1 : (m : ℚ) * pow2 t ≤ |q| + pow2 t / 2 := by
      have := (abs_le.mp herr).2
      linarith
    have h2 : pow2 t / 2 ≤ pow2 970 := by
      rw [pow2_neg_one_mul]
      exact pow2_le_pow2 (by omega)
    have p1 : pow2 1 = 2 := by simp [pow2]
    have h3 : pow2 1024 = 2 * pow2 1023 := by
      rw [show (1024 : ℤ) = 1 + 1023 by norm_num, pow2_add, p1]
    have h4 : pow2 970 < pow2 1023 := pow2_lt_pow2 (by norm_num)
    linarith
  have hbound1 : pow2 t / 2 ≤ pow2 (-53) * |q| + pow2 (-1075) := by
    rw [pow2_neg_one_mul]
    rcases le_or_lt (-1074) (floorLog2 |q| - 52) with hc | hc
    · have : t = floorLog2 |q| - 52 := by rw [ht]; exact max_eq_left hc
      rw [this, show floorLog2 |q| - 52 - 1 = -53 + floorLog2 |q| by ring, pow2_add]
      have := mul_le_mul_of_nonneg_left e1 (le_of_lt (pow2_pos (-53)))
      linarith [pow2_pos (-1075)]
    · have : t = -1074 := by rw [ht]; exact max_eq_right (le_of_lt hc)
      rw [this]
      have := mul_nonneg (le_of_lt (pow2_pos (-53))) (le_of_lt ha)
      norm_num
      linarith
  have hbound2 : pow2 (-1022) ≤ |q| → pow2 t / 2 ≤ pow2 (-53) * |q| := by
    intro hn
    rw [pow2_neg_one_mul]
    have hlt : pow2 (-1022) < pow2 (floorLog2 |q| + 1) := lt_of_le_of_lt hn e2
    have := pow2_lt_pow2_iff.mp hlt
    have : t = floorLog2 |q| - 52 := by rw [ht]; exact max_eq_left (by omega)
    rw [this, show floorLog2 |q| - 52 - 1 = -53 + floorLog2 |q| by ring, pow2_add]
    exact mul_le_mul_of_nonneg_left e1 (le_of_lt (pow2_pos (-53)))
  have hround : roundToDouble q
      = if m = 0 then zero (decide (q < 0)) else fin (if q < 0 then -((m : ℚ) * pow2 t)
          else (m : ℚ) * pow2 t) := by
    unfold roundToDouble
    simp only [hq0, if_false]
    rw [← ht, ← hm, if_neg hnobig]
  rw [hround]
  by_cases hm0 : m = 0
  · refine ⟨0, ?_, ?_, ?_⟩
    · rw [if_pos hm0]
      unfold zero
      split_ifs <;> rfl
    · rw [hm0] at herr
      simp only [Int.cast_zero, zero_mul, zero_sub, abs_neg, abs_abs] at herr
      simp only [zero_sub, abs_neg]
      exact le_trans herr hbound1
    · intro hn
      rw [hm0] at herr
      simp only [Int.cast_zero, zero_mul, zero_sub, abs_neg, abs_abs] at herr
      simp only [zero_sub, abs_neg]
      exact le_trans herr (hbound2 hn)
  · rw [if_neg hm0]
    have hsame : |(if q < 0 then -((m : ℚ) * pow2 t) else (m : ℚ) * pow2 t) - q|
        = |(m : ℚ) * pow2 t - abs q| := by
      split_ifs with hneg
      · rw [abs_of_neg hneg,
          show -((m : ℚ) * pow2 t) - q = -((m : ℚ) * pow2 t - -q) by ring, abs_neg]
      · rw [abs_of_nonneg (not_lt.mp hneg)]
    refine ⟨_, rfl, ?_, ?_⟩
    · rw [hsame]; exact le_trans herr hbound1
    · intro hn
      rw [hsame]; exact le_trans herr (hbound2 hn)

end JSNum

namespace JSNum

/-! ### The error of one operation -/

theorem add_toRat_error (a b : JSNum) (p q : ℚ) (ha : a.toRat = some p) (hb : b.toRat = some q)
    (hr : |p + q| ≤ pow2 1023) :
    ∃ r : ℚ, (a + b).toRat = some r ∧ |r - (p + q)| ≤ pow2 (-53) * |p + q| + pow2 (-1075) := by
  have hnn : 0 ≤ pow2 (-53) * |p + q| + pow2 (-1075) :=
    add_nonneg (mul_nonneg (le_of_lt (pow2_pos _)) (abs_nonneg _)) (le_of_lt (pow2_pos _))
  rw [add_def]
  cases a with
  | nan => simp [toRat] at ha
  | inf s => simp [toRat] at ha
  | negZero =>
    simp only [toRat, Option.some.injEq] at ha
    subst ha
    cases b with
    | nan => simp [toRat] at hb
    | inf s => simp [toRat] at hb
    | negZero =>
      simp only [toRat, Option.some.injEq] at hb
      subst hb
      exact ⟨0, rfl, by simpa using hnn⟩
    | fin q2 =>
      simp only [toRat, Option.some.injEq] at hb
      subst hb
      exact ⟨q2, rfl, by simpa using hnn⟩
  | fin p2 =>
    simp only [toRat, Option.some.injEq] at ha
    subst ha
    cases b with
    | nan => simp [toRat] at hb
    | inf s => simp [toRat] at hb
    | negZero =>
      simp only [toRat, Option.some.injEq] at hb
      subst hb
      exact ⟨p2, rfl, by simpa using hnn⟩
    | fin q2 =>
      simp only [toRat, Option.some.injEq] at hb
      subst hb
      obtain ⟨r, h1, h2, _⟩ := roundToDouble_error (p2 + q2) hr
      exact ⟨r, h1, h2⟩

theorem zero_toRat (s : Bool) : (zero s).toRat = some 0 := by
  unfold zero
  split_ifs <;> rfl

theorem mul_toRat_error (a b : JSNum) (p q : ℚ) (ha : a.toRat = some p) (hb : b.toRat = some q)
    (hr : p * q = 0 ∨ (pow2 (-1022) ≤ |p * q| ∧ |p * q| ≤ pow2 1023)) :
    ∃ r : ℚ, (a * b).toRat = some r ∧ |r - p * q| ≤ pow2 (-53) * |p * q| := by
  rw [mul_def]
  cases a with
  | nan => simp [toRat] at ha
  | inf s => simp [toRat] at ha
  | negZero =>
    simp only [toRat, Option.some.injEq] at ha
    subst ha
    cases b with
    | nan => simp [toRat] at hb
    | inf s => simp [toRat] at hb
    | negZero => exact ⟨0, zero_toRat _, by simp⟩
    | fin q2 => exact ⟨0, zero_toRat _, by simp⟩
  | fin p2 =>
    simp only [toRat, Option.some.injEq] at ha
    subst ha
    cases b with
    | nan => simp [toRat] at hb
    | inf s => simp [toRat] at hb
    | negZero =>
      simp only [toRat, Option.some.injEq] at hb
      subst hb
      exact ⟨0, zero_toRat _, by simp⟩
    | fin q2 =>
      simp only [toRat, Option.some.injEq] at hb
      subst hb
      unfold mul
      simp only
      split_ifs with h0
      · refine ⟨0, zero_toRat _, ?_⟩
        have : p2 * q2 = 0 := by rcases h0 with h | h <;> simp [h]
        simp [this]
      · rcases hr with hr | ⟨hr1, hr2⟩
        · exact absurd (mul_eq_zero.mp hr) h0
        · obtain ⟨r, h1, _, h3⟩ := roundToDouble_error (p2 * q2) hr2
          exact ⟨r, h1, h3 hr1⟩

theorem div_toRat_error (a b : JSNum) (p q : ℚ) (ha : a.toRat = some p) (hb : b.toRat = some q)
    (hq : q ≠ 0) (hr : p = 0 ∨ (pow2 (-1022) ≤ |p / q| ∧ |p / q| ≤ pow2 1023)) :
    ∃ r : ℚ, (a / b).toRat = some r ∧ |r - p / q| ≤ pow2 (-53) * |p / q| := by
  rw [div_def]
  cases b with
  | nan => simp [toRat] at hb
  | inf s => simp [toRat] at hb
  | negZero =>
    simp only [toRat, Option.some.injEq] at hb
    exact absurd hb.symm hq
  | fin q2 =>
    simp only [toRat, Option.some.injEq] at hb
    subst hb
    cases a with
    | nan => simp [toRat] at ha
    | inf s => simp [toRat] at ha
    | negZero =>
      simp only [toRat, Option.some.injEq] at ha
      subst ha
      refine ⟨0, ?_, by simp⟩
      simp only [div, isZero, hq, decide_False, Bool.false_eq_true, if_false, if_true]
      exact zero_toRat _
    | fin p2 =>
      simp only [toRat, Option.some.injEq] at ha
      subst ha
      by_cases hp : p2 = 0
      · subst hp
        refine ⟨0, ?_, by simp⟩
        simp only [div, isZero, hq, decide_False, Bool.false_eq_true, if_false, decide_True,
          if_true]
        exact zero_toRat _
      · rcases hr with hr | ⟨hr1, hr2⟩
        · exact absurd hr hp
        · obtain ⟨r, h1, _, h3⟩ := roundToDouble_error (p2 / q2) hr2
          refine ⟨r, ?_, h3 hr1⟩
          simp only [div, isZero, hq, hp, decide_False, Bool.false_eq_true, if_false]
          exact h1

theorem sub_fin_int (a b : ℤ) (h : |a - b| ≤ 2 ^ 53) :
    (fin (a : ℚ) - fin (b : ℚ) : JSNum) = fin ((a - b : ℤ) : ℚ) := by
  rw [sub_def]
  by_cases hb : b = 0
  · subst hb
    simp [neg, add]
  · have hbq : (b : ℚ) ≠ 0 := by exact_mod_cast hb
    simp only [neg, hbq, if_false]
    have := add_fin_int a (-b) (by rwa [← sub_eq_add_neg])
    rw [← sub_eq_add_neg] at this
    rw [← this]
    push_cast
    rfl

end JSNum

/-! ### The rounding error of one term -/

theorem pow2_neg53 : pow2 (-53) = unitRoundoff := by
  unfold unitRoundoff
  rw [pow2_eq]
  norm_num

theorem unitRoundoff_pos : 0 < unitRoundoff := by
  unfold unitRoundoff; positivity

theorem unitRoundoff_le : unitRoundoff ≤ 1 / 4 := by
  unfold unitRoundoff; norm_num

/-- One step of the product: from relative error `c - 1` to `c (1 + u)^2 - 1`. -/
theorem rel_error_step (t E q ρ t2 c u : ℚ) (hc : 1 ≤ c) (hu : 0 ≤ u)
    (h1 : |t - E| ≤ (c - 1) * |E|) (h2 : |q - ρ| ≤ u * |ρ|) (h3 : |t2 - t * q| ≤ u * |t * q|) :
    |t2 - E * ρ| ≤ (c * (1 + u) ^ 2 - 1) * |E * ρ| := by
  have hE := abs_nonneg E
  have hρ := abs_nonneg ρ
  have ht : |t| ≤ c * |E| := by
    have := abs_sub_abs_le_abs_sub t E
    linarith
  have hq : |q| ≤ (1 + u) * |ρ| := by
    have := abs_sub_abs_le_abs_sub q ρ
    linarith
  have htq : |t * q| ≤ c * (1 + u) * (|E| * |ρ|) := by
    rw [abs_mul]
    calc |t| * |q| ≤ (c * |E|) * ((1 + u) * |ρ|) :=
          mul_le_mul ht hq (abs_nonneg q) (by positivity)
      _ = c * (1 + u) * (|E| * |ρ|) := by ring
  have hmid : |t * q - E * ρ| ≤ (c * (1 + u) - 1) * (|E| * |ρ|) := by
    have e : t * q - E * ρ = t * (q - ρ) + ρ * (t - E) := by ring
    rw [e]
    calc |t * (q - ρ) + ρ * (t - E)| ≤ |t * (q - ρ)| + |ρ * (t - E)| := abs_add _ _
      _ = |t| * |q - ρ| + |ρ| * |t - E| := by rw [abs_mul, abs_mul]
      _ ≤ (c * |E|) * (u * |ρ|) + |ρ| * ((c - 1) * |E|) := by
          apply add_le_add
          · exact mul_le_mul ht h2 (abs_nonneg _) (by positivity)
          · exact mul_le_mul_of_nonneg_left h1 hρ
      _ = (c * (1 + u) - 1) * (|E| * |ρ|) := by ring
  rw [abs_mul E ρ]
  calc |t2 - E * ρ| = |(t2 - t * q) + (t * q - E * ρ)| := by ring_nf
    _ ≤ |t2 - t * q| + |t * q - E * ρ| := abs_add _ _
    _ ≤ u * (c * (1 + u) * (|E| * |ρ|)) + (c * (1 + u) - 1) * (|E| * |ρ|) := by
        apply add_le_add
        · exact le_trans h3 (mul_le_mul_of_nonneg_left htq hu)
        · exact hmid
    _ = (c * (1 + u) ^ 2 - 1) * (|E| * |ρ|) := by ring

/-- The ratio `(0 - a) / (xi - a)` of two different integers of size at most
`X`. -/
theorem ratio_bounds (X : ℕ) (xi a : ℤ) (hxi : |xi| ≤ X) (ha : |a| ≤ X) (hne : a ≠ xi)
    (ha0 : a ≠ 0) :
    |((0 : ℚ) - (a : ℚ)) / ((xi : ℚ) - (a : ℚ))| ≤ (X : ℚ) ∧
    1 ≤ |((0 : ℚ) - (a : ℚ)) / ((xi : ℚ) - (a : ℚ))| * (2 * (X : ℚ)) := by
  have hd : (1 : ℤ) ≤ |xi - a| := Int.one_le_abs (sub_ne_zero.mpr (Ne.symm hne))
  have hd2 : |xi - a| ≤ 2 * (X : ℤ) := by
    have := abs_sub xi a
    omega
  have ha1 : (1 : ℤ) ≤ |a| := Int.one_le_abs ha0
  have hdq : (1 : ℚ) ≤ |(xi : ℚ) - (a : ℚ)| := by
    have : ((1 : ℤ) : ℚ) ≤ ((|xi - a| : ℤ) : ℚ) := by exact_mod_cast hd
    simpa using this
  have hd2q : |(xi : ℚ) - (a : ℚ)| ≤ 2 * (X : ℚ) := by
    have : ((|xi - a| : ℤ) : ℚ) ≤ ((2 * (X : ℤ) : ℤ) : ℚ) := by exact_mod_cast hd2
    simpa using this
  have haq : |(a : ℚ)| ≤ (X : ℚ) := by
    have : ((|a| : ℤ) : ℚ) ≤ (((X : ℤ)) : ℚ) := by exact_mod_cast ha
    simpa using this
  have ha1q : (1 : ℚ) ≤ |(a : ℚ)| := by
    have : ((1 : ℤ) : ℚ) ≤ ((|a| : ℤ) : ℚ) := by exact_mod_cast ha1
    simpa using this
  have hpos : (0 : ℚ) < |(xi : ℚ) - (a : ℚ)| := lt_of_lt_of_le one_pos hdq
  rw [abs_div, zero_sub, abs_neg]
  constructor
  · rw [div_le_iff₀ hpos]
    nlinarith
  · rw [div_mul_eq_mul_div, le_div_iff₀ hpos]
    nlinarith

theorem one_le_one_add_unitRoundoff_pow (k : ℕ) : 1 ≤ (1 + unitRoundoff) ^ k :=
  one_le_pow₀ (by linarith [unitRoundoff_pos])

theorem pow_two_mul_succ (k : ℕ) :
    (1 + unitRoundoff) ^ (2 * (k + 1)) = (1 + unitRoundoff) ^ 2 * (1 + unitRoundoff) ^ (2 * k) := by
  rw [show 2 * (k + 1) = 2 + 2 * k by ring, pow_add]

theorem abs_le_of_rel (t E c : ℚ) (h : |t - E| ≤ (c - 1) * |E|) : |t| ≤ c * |E| := by
  have := abs_sub_abs_le_abs_sub t E
  linarith

theorem abs_ge_of_rel (t E c : ℚ) (h : |t - E| ≤ (c - 1) * |E|) : (2 - c) * |E| ≤ |t| := by
  have := abs_sub_abs_le_abs_sub E t
  rw [abs_sub_comm] at h
  linarith

theorem eq_zero_of_rel_zero (t c : ℚ) (h : |t - 0| ≤ (c - 1) * |(0 : ℚ)|) : t = 0 := by
  simp only [abs_zero, mul_zero, sub_zero] at h
  exact abs_eq_zero.mp (le_antisymm h (abs_nonneg t))

theorem low_step (Lw P X2 e r : ℚ) (hX2 : 0 < X2) (he : 0 ≤ e)
    (h1 : Lw * (P * X2) ≤ e) (h2 : 1 ≤ r * X2) : Lw * P ≤ e * r := by
  have h3 : e ≤ e * (r * X2) := le_mul_of_one_le_right he h2
  have h4 : Lw * P * X2 ≤ e * r * X2 := by linarith
  exact le_of_mul_le_mul_right h4 hX2

theorem range_low (Lw e r t q P : ℚ) (hLw : 0 < Lw) (hP : 1 ≤ P) (he : 0 ≤ e) (hr : 0 ≤ r)
    (ht : 3 / 4 * e ≤ t) (hq : 3 / 4 * r ≤ q) (h : Lw * P ≤ e * r) : Lw / 2 ≤ t * q := by
  have h1 : 3 / 4 * e * (3 / 4 * r) ≤ t * q :=
    mul_le_mul ht hq (by positivity) (le_trans (by positivity) ht)
  have h2 : Lw ≤ Lw * P := le_mul_of_one_le_right (le_of_lt hLw) hP
  nlinarith

theorem range_up (B e r t q c u X P : ℚ) (he : 0 ≤ e) (hr : 0 ≤ r) (hq0 : 0 ≤ q)
    (hc : 1 ≤ c) (hc54 : c ≤ 5 / 4) (hu0 : 0 ≤ u) (hu : u ≤ 1 / 4) (hP : 1 ≤ P)
    (ht : t ≤ c * e) (hq : q ≤ (1 + u) * r) (hrX : r ≤ X) (h : e * (P * X) ≤ B) :
    t * q ≤ 2 * B := by
  have hX : 0 ≤ X := le_trans hr hrX
  have h1 : t * q ≤ (c * e) * ((1 + u) * X) :=
    mul_le_mul ht (le_trans hq (mul_le_mul_of_nonneg_left hrX (by linarith))) hq0
      (by positivity)
  have h2 : e * X ≤ e * (P * X) := by
    apply mul_le_mul_of_nonneg_left _ he
    exact le_mul_of_one_le_left hX hP
  have h3 : 0 ≤ e * X := mul_nonneg he hX
  have h4 : c * (1 + u) ≤ 25 / 16 := by nlinarith
  have h5 : (c * e) * ((1 + u) * X) = c * (1 + u) * (e * X) := by ring
  rw [h5] at h1
  have h6 : c * (1 + u) * (e * X) ≤ 25 / 16 * (e * X) := mul_le_mul_of_nonneg_right h4 h3
  linarith

set_option maxHeartbeats 1000000 in
/-- The inner loop in floating point stays within a relative error of the
inner loop over the rationals: each factor multiplies `1 + error` by at most
`(1 + 2^-53)^2`.  (`B` and `Lw` stand for `2 ^ 1022` and `2 ^ (-1021)`.) -/
theorem basisLoop_error_core (B Lw : ℚ) (hLw : 0 < Lw)
    (hmul : ∀ (a b : JSNum) (p q : ℚ), a.toRat = some p → b.toRat = some q →
      (p * q = 0 ∨ (Lw / 2 ≤ |p * q| ∧ |p * q| ≤ 2 * B)) →
      ∃ r : ℚ, (a * b).toRat = some r ∧ |r - p * q| ≤ unitRoundoff * |p * q|)
    (hdiv : ∀ (a b : JSNum) (p q : ℚ), a.toRat = some p → b.toRat = some q → q ≠ 0 →
      (p = 0 ∨ (Lw / 2 ≤ |p / q| ∧ |p / q| ≤ 2 * B)) →
      ∃ r : ℚ, (a / b).toRat = some r ∧ |r - p / q| ≤ unitRoundoff * |p / q|)
    (X : ℕ) (hX1 : 1 ≤ X) (hX : 2 * X ≤ 2 ^ 53) (hLwX : Lw * (X : ℚ) ≤ 1)
    (hXB : (X : ℚ) ≤ 2 * B) (xi : ℤ) (hxi : |xi| ≤ X) (i : ℕ) :
    ∀ (l : List (ℚ × ℚ)) (j : ℕ) (term : JSNum) (t E c : ℚ),
    (∀ p ∈ l, ∃ a : ℤ, p.1 = (a : ℚ) ∧ |a| ≤ X) →
    (∀ (k : ℕ) (p : ℚ × ℚ), l[k]? = some p → j + k ≠ i → p.1 ≠ (xi : ℚ)) →
    term.toRat = some t → 1 ≤ c → |t - E| ≤ (c - 1) * |E| →
    c * (1 + unitRoundoff) ^ (2 * l.length) ≤ 5 / 4 →
    |E| * ((X : ℚ) ^ l.length) ≤ B →
    (E = 0 ∨ Lw * (2 * (X : ℚ)) ^ l.length ≤ |E|) →
    ∃ t2 : ℚ, (basisLoop (fin (xi : ℚ)) i (toPoints l) j term).toRat = some t2 ∧
      |t2 - exactBasisLoop (xi : ℚ) i l j E|
        ≤ (c * (1 + unitRoundoff) ^ (2 * l.length) - 1) * |exactBasisLoop (xi : ℚ) i l j E| := by
  have hu := unitRoundoff_pos
  have hu4 := unitRoundoff_le
  have hXq : (1 : ℚ) ≤ (X : ℚ) := by exact_mod_cast hX1
  have hX2 : (0 : ℚ) < 2 * (X : ℚ) := by linarith
  intro l
  induction l with
  | nil =>
    intro j term t E c _ _ ht _ herr _ _ _
    refine ⟨t, ht, ?_⟩
    simpa [exactBasisLoop] using herr
  | cons p rest ih =>
    intro j term t E c hint hdist ht hc herr hcb hup hlow
    have hrestint : ∀ p ∈ rest, ∃ a : ℤ, p.1 = (a : ℚ) ∧ |a| ≤ X :=
      fun q hq => hint q (List.mem_cons_of_mem _ hq)
    have hrestdist : ∀ (k : ℕ) (q : ℚ × ℚ), rest[k]? = some q → j + 1 + k ≠ i →
        q.1 ≠ (xi : ℚ) := by
      intro k q hk hne
      exact hdist (k + 1) q (by simpa using hk) (by omega)
    have hpowL : 1 ≤ (1 + unitRoundoff) ^ (2 * rest.length) := one_le_one_add_unitRoundoff_pow _
    have hXL : (1 : ℚ) ≤ (X : ℚ) ^ rest.length := one_le_pow₀ hXq
    have h2XL : (1 : ℚ) ≤ (2 * (X : ℚ)) ^ rest.length := one_le_pow₀ (by linarith)
    have hsq : (1 + unitRoundoff) ^ 2 * (1 + unitRoundoff) ^ (2 * rest.length)
        = (1 + unitRoundoff) ^ (2 * (rest.length + 1)) := (pow_two_mul_succ _).symm
    have hsq1 : (1 : ℚ) ≤ (1 + unitRoundoff) ^ 2 := one_le_one_add_unitRoundoff_pow 2
    simp only [List.length_cons, pow_succ] at hup hlow
    simp only [List.length_cons] at hcb ⊢
    have hcpos : 0 < c := lt_of_lt_of_le one_pos hc
    have hE := abs_nonneg E
    have hmono : (1 + unitRoundoff) ^ (2 * rest.length)
        ≤ (1 + unitRoundoff) ^ 2 * (1 + unitRoundoff) ^ (2 * rest.length) :=
      le_mul_of_one_le_left (le_trans zero_le_one hpowL) hsq1
    have hcmono : c * (1 + unitRoundoff) ^ (2 * rest.length)
        ≤ c * (1 + unitRoundoff) ^ (2 * (rest.length + 1)) := by
      rw [← hsq]
      exact mul_le_mul_of_nonneg_left hmono (le_of_lt hcpos)
    have hc54 : c ≤ 5 / 4 :=
      le_trans (le_mul_of_one_le_right (le_of_lt hcpos)
        (one_le_one_add_unitRoundoff_pow (2 * (rest.length + 1)))) hcb
    have hupX : |E| * (X : ℚ) ^ rest.length ≤ B := by
      refine le_trans (mul_le_mul_of_nonneg_left ?_ hE) hup
      exact le_mul_of_one_le_right (le_trans zero_le_one hXL) hXq
    obtain ⟨a, hpa, ha⟩ := hint p (List.mem_cons_self _ _)
    by_cases hij : i = j
    · -- the point itself: skipped
      have hstep : basisLoop (fin (xi : ℚ)) i (toPoints (p :: rest)) j term
          = basisLoop (fin (xi : ℚ)) i (toPoints rest) (j + 1) term := by
        simp only [toPoints, List.map_cons, basisLoop, hij, ne_eq, not_true_eq_false, if_false]
      have hstepE : exactBasisLoop (xi : ℚ) i (p :: rest) j E
          = exactBasisLoop (xi : ℚ) i rest (j + 1) E := by
        simp only [exactBasisLoop, hij, ne_eq, not_true_eq_false, if_false]
      rw [hstep, hstepE]
      obtain ⟨t2, h1, h2⟩ := ih (j + 1) term t E c hrestint hrestdist ht hc herr
        (le_trans hcmono hcb) hupX
        (by
          rcases hlow with h | h
          · left; exact h
          · right
            refine le_trans ?_ h
            apply mul_le_mul_of_nonneg_left _ (le_of_lt hLw)
            exact le_mul_of_one_le_right (le_trans zero_le_one h2XL) (by linarith))
      refine ⟨t2, h1, le_trans h2 ?_⟩
      apply mul_le_mul_of_nonneg_right _ (abs_nonneg _)
      linarith
    · -- another point: one quotient and one product
      have hne : p.1 ≠ (xi : ℚ) := hdist 0 p (by simp) (by omega)
      have hane : a ≠ xi := by
        intro h
        apply hne
        rw [hpa, h]
      have hX53 : 2 * (X : ℤ) ≤ 2 ^ 53 := by
        have : ((2 * X : ℕ) : ℤ) ≤ ((2 ^ 53 : ℕ) : ℤ) := by exact_mod_cast hX
        push_cast at this
        exact this
      have hnum : (fin 0 - fin p.1 : JSNum) = fin ((0 - a : ℤ) : ℚ) := by
        rw [hpa]
        have := sub_fin_int 0 a (by simp only [zero_sub, abs_neg]; omega)
        simpa using this
      have hden : (fin (xi : ℚ) - fin p.1 : JSNum) = fin ((xi - a : ℤ) : ℚ) := by
        rw [hpa]
        exact sub_fin_int xi a (by
          have := abs_sub xi a
          omega)
      have hdne : ((xi - a : ℤ) : ℚ) ≠ 0 := by
        have : xi - a ≠ 0 := sub_ne_zero.mpr (Ne.symm hane)
        exact_mod_cast this
      have hρeq : ((0 - a : ℤ) : ℚ) / ((xi - a : ℤ) : ℚ) = (0 - p.1) / ((xi : ℚ) - p.1) := by
        rw [hpa]; push_cast; rfl
      have hstepE : exactBasisLoop (xi : ℚ) i (p :: rest) j E
          = exactBasisLoop (xi : ℚ) i rest (j + 1) (E * ((0 - p.1) / ((xi : ℚ) - p.1))) := by
        simp only [exactBasisLoop, ne_eq, hij, not_false_eq_true, if_true]
      have hstep : basisLoop (fin (xi : ℚ)) i (toPoints (p :: rest)) j term
          = basisLoop (fin (xi : ℚ)) i (toPoints rest) (j + 1)
              (term * (fin ((0 - a : ℤ) : ℚ) / fin ((xi - a : ℤ) : ℚ))) := by
        simp only [toPoints, List.map_cons, basisLoop, ne_eq, hij, not_false_eq_true, if_true]
        rw [hnum, hden]
      rw [hstep, hstepE]
      obtain ⟨ρ, hρdef⟩ : ∃ ρ : ℚ, ρ = (0 - p.1) / ((xi : ℚ) - p.1) := ⟨_, rfl⟩
      rw [← hρdef]
      rw [← hρdef] at hρeq
      -- facts about the exact ratio
      have hρfacts : (a = 0 → ρ = 0) ∧ (a ≠ 0 → |ρ| ≤ (X : ℚ) ∧ 1 ≤ |ρ| * (2 * (X : ℚ))) := by
        constructor
        · intro ha0
          rw [hρdef, hpa, ha0]; simp
        · intro ha0
          rw [hρdef, hpa]
          exact ratio_bounds X xi a hxi ha hane ha0
      have hρabs : |ρ| ≤ (X : ℚ) := by
        by_cases ha0 : a = 0
        · rw [hρfacts.1 ha0, abs_zero]; linarith
        · exact (hρfacts.2 ha0).1
      -- the quotient
      obtain ⟨qv, hq1, hq2⟩ : ∃ qv : ℚ,
          (fin ((0 - a : ℤ) : ℚ) / fin ((xi - a : ℤ) : ℚ) : JSNum).toRat = some qv ∧
          |qv - ρ| ≤ unitRoundoff * |ρ| := by
        have := hdiv (fin ((0 - a : ℤ) : ℚ)) (fin ((xi - a : ℤ) : ℚ))
          ((0 - a : ℤ) : ℚ) ((xi - a : ℤ) : ℚ) rfl rfl hdne
          (by
            by_cases ha0 : a = 0
            · left; subst ha0; simp
            · right
              rw [hρeq]
              obtain ⟨b1, b2⟩ := hρfacts.2 ha0
              constructor
              · have h9 : Lw / 2 * (2 * (X : ℚ)) ≤ |ρ| * (2 * (X : ℚ)) := by linarith
                exact le_of_mul_le_mul_right h9 hX2
              · linarith)
        rw [hρeq] at this
        exact this
      have hqabs : |qv| ≤ (1 + unitRoundoff) * |ρ| := by
        have := abs_le_of_rel qv ρ (1 + unitRoundoff) (by simpa using hq2)
        exact this
      have hqlow : 3 / 4 * |ρ| ≤ |qv| := by
        have := abs_ge_of_rel qv ρ (1 + unitRoundoff) (by simpa using hq2)
        have h0 := abs_nonneg ρ
        nlinarith
      have htabs : |t| ≤ c * |E| := abs_le_of_rel t E c herr
      have htlow : 3 / 4 * |E| ≤ |t| := by
        have := abs_ge_of_rel t E c herr
        nlinarith
      -- whether the exact product vanishes
      have hzero_or : (E * ρ = 0 ∧ t * qv = 0) ∨
          (E ≠ 0 ∧ a ≠ 0 ∧ Lw * (2 * (X : ℚ)) ^ rest.length ≤ |E| * |ρ|) := by
        by_cases hE0 : E = 0
        · left
          subst hE0
          rw [eq_zero_of_rel_zero t c herr]
          simp
        by_cases ha0 : a = 0
        · left
          have hρ0 := hρfacts.1 ha0
          rw [hρ0] at hq2
          rw [hρ0, eq_zero_of_rel_zero qv (1 + unitRoundoff) (by simpa using hq2)]
          simp
        right
        refine ⟨hE0, ha0, ?_⟩
        rcases hlow with h | h
        · exact absurd h hE0
        · exact low_step Lw _ (2 * (X : ℚ)) |E| |ρ| hX2 hE h (hρfacts.2 ha0).2
      -- the product
      obtain ⟨t3, hp1, hp2⟩ : ∃ t3 : ℚ,
          (term * (fin ((0 - a : ℤ) : ℚ) / fin ((xi - a : ℤ) : ℚ)) : JSNum).toRat = some t3 ∧
          |t3 - t * qv| ≤ unitRoundoff * |t * qv| := by
        apply hmul term (fin ((0 - a : ℤ) : ℚ) / fin ((xi - a : ℤ) : ℚ)) t qv ht hq1
        rcases hzero_or with ⟨_, h0⟩ | ⟨_, _, hl⟩
        · left; exact h0
        · right
          rw [abs_mul]
          constructor
          · exact range_low Lw |E| |ρ| |t| |qv| _ hLw h2XL hE (abs_nonneg ρ) htlow hqlow hl
          · exact range_up B |E| |ρ| |t| |qv| c unitRoundoff (X : ℚ) _ hE (abs_nonneg ρ)
              (abs_nonneg qv) hc hc54 (le_of_lt hu) hu4 hXL htabs hqabs hρabs hup
      have hnew := rel_error_step t E qv ρ t3 c unitRoundoff hc (le_of_lt hu) herr hq2 hp2
      have hc2 : 1 ≤ c * (1 + unitRoundoff) ^ 2 := by
        have := le_mul_of_one_le_right (le_of_lt hcpos) hsq1
        linarith
      have hcb2 : c * (1 + unitRoundoff) ^ 2 * (1 + unitRoundoff) ^ (2 * rest.length) ≤ 5 / 4 := by
        rw [mul_assoc, hsq]; exact hcb
      obtain ⟨t2, h1, h2⟩ := ih (j + 1) _ t3 (E * ρ) (c * (1 + unitRoundoff) ^ 2)
        hrestint hrestdist hp1 hc2 hnew hcb2
        (by
          rw [abs_mul]
          have h1 : |E| * |ρ| * (X : ℚ) ^ rest.length ≤ |E| * (X : ℚ) * (X : ℚ) ^ rest.length := by
            apply mul_le_mul_of_nonneg_right _ (le_trans zero_le_one hXL)
            exact mul_le_mul_of_nonneg_left hρabs hE
          have h2 : |E| * (X : ℚ) * (X : ℚ) ^ rest.length
              = |E| * ((X : ℚ) ^ rest.length * (X : ℚ)) := by ring
          exact le_trans h1 (le_trans (le_of_eq h2) hup))
        (by
          rcases hzero_or with ⟨h0, _⟩ | ⟨_, _, hl⟩
          · left; exact h0
          · right; rw [abs_mul]; exact hl)
      refine ⟨t2, h1, le_trans h2 (le_of_eq ?_)⟩
      rw [mul_assoc c, hsq]

/-! ### The rounding error of the sum -/

theorem exactBasisLoop_abs_le (X : ℕ) (hX1 : 1 ≤ X) (xi : ℤ) (hxi : |xi| ≤ X) (i : ℕ) :
    ∀ (l : List (ℚ × ℚ)) (j : ℕ) (E : ℚ),
    (∀ p ∈ l, ∃ a : ℤ, p.1 = (a : ℚ) ∧ |a| ≤ X) →
    (∀ (k : ℕ) (p : ℚ × ℚ), l[k]? = some p → j + k ≠ i → p.1 ≠ (xi : ℚ)) →
    |exactBasisLoop (xi : ℚ) i l j E| ≤ |E| * (X : ℚ) ^ l.length := by
  have hXq : (1 : ℚ) ≤ (X : ℚ) := by exact_mod_cast hX1
  intro l
  induction l with
  | nil => intro j E _ _; simp [exactBasisLoop]
  | cons p rest ih =>
    intro j E hint hdist
    have hrestint : ∀ p ∈ rest, ∃ a : ℤ, p.1 = (a : ℚ) ∧ |a| ≤ X :=
      fun q hq => hint q (List.mem_cons_of_mem _ hq)
    have hrestdist : ∀ (k : ℕ) (q : ℚ × ℚ), rest[k]? = some q → j + 1 + k ≠ i →
        q.1 ≠ (xi : ℚ) := by
      intro k q hk hne
      exact hdist (k + 1) q (by simpa using hk) (by omega)
    have hXL : (0 : ℚ) ≤ (X : ℚ) ^ rest.length := by positivity
    obtain ⟨a, hpa, ha⟩ := hint p (List.mem_cons_self _ _)
    simp only [List.length_cons, pow_succ]
    by_cases hij : i = j
    · have hstepE : exactBasisLoop (xi : ℚ) i (p :: rest) j E
          = exactBasisLoop (xi : ℚ) i rest (j + 1) E := by
        simp only [exactBasisLoop, hij, ne_eq, not_true_eq_false, if_false]
      rw [hstepE]
      refine le_trans (ih (j + 1) E hrestint hrestdist) ?_
      apply mul_le_mul_of_nonneg_left _ (abs_nonneg E)
      exact le_mul_of_one_le_right hXL hXq
    · have hstepE : exactBasisLoop (xi : ℚ) i (p :: rest) j E
          = exactBasisLoop (xi : ℚ) i rest (j + 1) (E * ((0 - p.1) / ((xi : ℚ) - p.1))) := by
        simp only [exactBasisLoop, ne_eq, hij, not_false_eq_true, if_true]
      rw [hstepE]
      refine le_trans (ih (j + 1) _ hrestint hrestdist) ?_
      have hne : p.1 ≠ (xi : ℚ) := hdist 0 p (by simp) (by omega)
      have hane : a ≠ xi := by
        intro h; apply hne; rw [hpa, h]
      have hρ : |(0 - p.1) / ((xi : ℚ) - p.1)| ≤ (X : ℚ) := by
        by_cases ha0 : a = 0
        · rw [hpa, ha0]; simp
        · rw [hpa]; exact (ratio_bounds X xi a hxi ha hane ha0).1
      rw [abs_mul]
      have h1 := mul_le_mul_of_nonneg_left hρ (abs_nonneg E)
      have h2 := mul_le_mul_of_nonneg_right h1 hXL
      have h3 : |E| * (X : ℚ) * (X : ℚ) ^ rest.length
          = |E| * ((X : ℚ) ^ rest.length * (X : ℚ)) := by ring
      linarith

theorem sumErrorBound_nonneg (K : ℚ) (hK : 0 ≤ K) : ∀ m, 0 ≤ sumErrorBound K m := by
  intro m
  induction m with
  | zero => exact le_rfl
  | succ m ih =>
    unfold sumErrorBound
    have := unitRoundoff_pos
    positivity

theorem sumErrorBound_le_succ (K : ℚ) (hK : 0 ≤ K) (m : ℕ) :
    sumErrorBound K m ≤ sumErrorBound K (m + 1) := by
  have h := sumErrorBound_nonneg K hK m
  have hu := unitRoundoff_pos
  show sumErrorBound K m ≤ (1 + unitRoundoff) * sumErrorBound K m + K
  nlinarith

theorem sumErrorBound_mono (K : ℚ) (hK : 0 ≤ K) {m n : ℕ} (h : m ≤ n) :
    sumErrorBound K m ≤ sumErrorBound K n := by
  induction n with
  | zero =>
    have : m = 0 := by omega
    rw [this]
  | succ n ih =>
    rcases Nat.lt_or_ge m (n + 1) with hlt | hge
    · exact le_trans (ih (by omega)) (sumErrorBound_le_succ K hK n)
    · have : m = n + 1 := by omega
      rw [this]

theorem sum_step (s t S E G M w u η K n m r : ℚ) (hu : 0 ≤ u) (hM : 0 ≤ M) (hw : 1 ≤ w)
    (hmn : m ≤ n) (hK : K = (w - 1) * M + u * (n + w) * M + η)
    (hs : |s - S| ≤ G) (hS : |S| ≤ m * M) (ht : |t - E| ≤ (w - 1) * |E|) (hE : |E| ≤ M)
    (hr : |r - (s + t)| ≤ u * |s + t| + η) :
    |s + t| ≤ m * M + G + w * M ∧ |r - (S + E)| ≤ (1 + u) * G + K ∧ |S + E| ≤ (m + 1) * M := by
  have hs2 : |s| ≤ |S| + G := by
    have := abs_sub_abs_le_abs_sub s S
    linarith
  have ht2 : |t| ≤ w * |E| := abs_le_of_rel t E w ht
  have hE0 := abs_nonneg E
  have hwE : w * |E| ≤ w * M := mul_le_mul_of_nonneg_left hE (by linarith)
  have hst : |s + t| ≤ m * M + G + w * M := by
    have := abs_add s t
    linarith
  refine ⟨hst, ?_, ?_⟩
  · have e : r - (S + E) = (r - (s + t)) + (s - S) + (t - E) := by ring
    have h1 : |r - (S + E)| ≤ |r - (s + t)| + |s - S| + |t - E| := by
      rw [e]
      exact le_trans (abs_add _ _) (add_le_add (abs_add _ _) le_rfl)
    have h2 : (w - 1) * |E| ≤ (w - 1) * M := mul_le_mul_of_nonneg_left hE (by linarith)
    have h3 : u * |s + t| ≤ u * (m * M + G + w * M) := mul_le_mul_of_nonneg_left hst hu
    have h4 : u * (m * M) ≤ u * (n * M) :=
      mul_le_mul_of_nonneg_left (mul_le_mul_of_nonneg_right hmn hM) hu
    rw [hK]
    nlinarith
  · have := abs_add S E
    linarith

/-- The outer loop in floating point: after all terms the sum is within
`sumErrorBound K n` of the exact sum.  (`B2` and `η` stand for `2 ^ 1023` and
`2 ^ (-1075)`.) -/
theorem termLoop_error_core (B2 η : ℚ) (hη : 0 ≤ η)
    (hadd : ∀ (a b : JSNum) (p q : ℚ), a.toRat = some p → b.toRat = some q → |p + q| ≤ B2 →
      ∃ r : ℚ, (a + b).toRat = some r ∧ |r - (p + q)| ≤ unitRoundoff * |p + q| + η)
    (pts : List (ℚ × ℚ)) (w M K : ℚ) (hw : 1 ≤ w) (hM : 0 ≤ M)
    (hK : K = (w - 1) * M + unitRoundoff * ((pts.length : ℚ) + w) * M + η)
    (hrange : (pts.length : ℚ) * M + sumErrorBound K pts.length + w * M ≤ B2)
    (hterm : ∀ (k : ℕ) (p : ℚ × ℚ), pts[k]? = some p →
      ∃ t : ℚ, (basisLoop (fin p.1) k (toPoints pts) 0 (fin p.2)).toRat = some t ∧
        |t - exactBasisLoop p.1 k pts 0 p.2| ≤ (w - 1) * |exactBasisLoop p.1 k pts 0 p.2| ∧
        |exactBasisLoop p.1 k pts 0 p.2| ≤ M) :
    ∀ (l : List (ℚ × ℚ)) (m : ℕ) (acc : JSNum) (s S : ℚ),
    (∀ (k : ℕ) (p : ℚ × ℚ), l[k]? = some p → pts[m + k]? = some p) →
    m + l.length = pts.length → acc.toRat = some s → |S| ≤ (m : ℚ) * M →
    |s - S| ≤ sumErrorBound K m →
    ∃ T : ℚ, (termLoop (toPoints pts) (toPoints l) m acc).toRat = some T ∧
      |T - exactTermLoop pts l m S| ≤ sumErrorBound K pts.length := by
  have hu := unitRoundoff_pos
  have hK0 : 0 ≤ K := by
    rw [hK]
    have : 0 ≤ (pts.length : ℚ) := Nat.cast_nonneg _
    have h1 : 0 ≤ (w - 1) * M := mul_nonneg (by linarith) hM
    have h2 : 0 ≤ unitRoundoff * ((pts.length : ℚ) + w) * M := by positivity
    linarith
  intro l
  induction l with
  | nil =>
    intro m acc s S _ hlen hacc _ herr
    simp only [List.length_nil, add_zero] at hlen
    refine ⟨s, hacc, ?_⟩
    rw [← hlen]
    simpa [exactTermLoop] using herr
  | cons p rest ih =>
    intro m acc s S hsuf hlen hacc hS herr
    simp only [List.length_cons] at hlen
    have hp : pts[m]? = some p := by
      have := hsuf 0 p (by simp)
      simpa using this
    obtain ⟨t, ht1, ht2, ht3⟩ := hterm m p hp
    have hmn : (m : ℚ) ≤ (pts.length : ℚ) := by exact_mod_cast (by omega : m ≤ pts.length)
    have hGm : sumErrorBound K m ≤ sumErrorBound K pts.length :=
      sumErrorBound_mono K hK0 (by omega)
    have hst0 : |s + t| ≤ B2 := by
      have hs2 : |s| ≤ |S| + sumErrorBound K m := by
        have := abs_sub_abs_le_abs_sub s S
        linarith
      have ht4 : |t| ≤ w * |exactBasisLoop p.1 m pts 0 p.2| := abs_le_of_rel _ _ w ht2
      have hwE : w * |exactBasisLoop p.1 m pts 0 p.2| ≤ w * M :=
        mul_le_mul_of_nonneg_left ht3 (by linarith)
      have hmM : (m : ℚ) * M ≤ (pts.length : ℚ) * M := mul_le_mul_of_nonneg_right hmn hM
      have := abs_add s t
      linarith
    obtain ⟨r, hr1, hr2⟩ := hadd acc (basisLoop (fin p.1) m (toPoints pts) 0 (fin p.2)) s t
      hacc ht1 hst0
    obtain ⟨_, h2, h3⟩ := sum_step s t S (exactBasisLoop p.1 m pts 0 p.2) (sumErrorBound K m) M w
      unitRoundoff η K (pts.length : ℚ) (m : ℚ) r (le_of_lt hu) hM hw hmn hK herr hS ht2 ht3 hr2
    have hstep : termLoop (toPoints pts) (toPoints (p :: rest)) m acc
        = termLoop (toPoints pts) (toPoints rest) (m + 1)
            (acc + basisLoop (fin p.1) m (toPoints pts) 0 (fin p.2)) := by
      simp only [toPoints, List.map_cons, termLoop]
    have hstepE : exactTermLoop pts (p :: rest) m S
        = exactTermLoop pts rest (m + 1) (S + exactBasisLoop p.1 m pts 0 p.2) := by
      simp only [exactTermLoop]
    rw [hstep, hstepE]
    apply ih (m + 1) _ r _
    · intro k q hk
      have := hsuf (k + 1) q (by simpa using hk)
      rwa [show m + (k + 1) = m + 1 + k by ring] at this
    · omega
    · exact hr1
    · push_cast; exact h3
    · exact h2

/-! ### An a-priori bound on the rounding error -/

theorem pow2_two_mul (t : ℤ) : pow2 (t + 1) = 2 * pow2 t := by
  have p1 : pow2 1 = 2 := by simp [pow2]
  rw [pow2_add, p1, mul_comm]

theorem pow2_nat_le (k : ℕ) (e : ℕ) (h : k ≤ 2 ^ e) : (k : ℚ) ≤ pow2 (e : ℤ) := by
  rw [pow2_natCast]
  exact_mod_cast h

theorem getElem?_fst_ne_of_nodup (pts : List (ℚ × ℚ)) (hx : (pts.map Prod.fst).Nodup)
    (k k2 : ℕ) (p p2 : ℚ × ℚ) (h1 : pts[k]? = some p) (h2 : pts[k2]? = some p2) (hne : k2 ≠ k) :
    p2.1 ≠ p.1 := by
  intro heq
  have hk : k < pts.length := by
    by_contra hc
    rw [List.getElem?_eq_none (not_lt.mp hc)] at h1
    cases h1
  have hk2 : k2 < pts.length := by
    by_contra hc
    rw [List.getElem?_eq_none (not_lt.mp hc)] at h2
    cases h2
  rw [List.getElem?_eq_getElem hk, Option.some.injEq] at h1
  rw [List.getElem?_eq_getElem hk2, Option.some.injEq] at h2
  have hinj := getD_injective_of_nodup pts hx
  have := @hinj ⟨k2, hk2⟩ ⟨k, hk⟩ (by
    simp only
    rw [List.getD_eq_getElem _ _ hk2, List.getD_eq_getElem _ _ hk, h1, h2, heq])
  exact hne (Fin.mk.inj this)

/-- For points with integer coordinates `|x| ≤ X`, `|y| ≤ Y` and pairwise
distinct x, under the size conditions `lagrangeBoundOK` the loops of
`lagrangeInterpolation` end on a finite number `T` that differs from the exact
Lagrange sum by at most `lagrangeErrorBound`. -/
theorem lagrangeSum_error_of_bound (pts : List (ℚ × ℚ)) (X Y : ℕ)
    (hint : ∀ p ∈ pts, ∃ a b : ℤ, p.1 = (a : ℚ) ∧ p.2 = (b : ℚ) ∧ |a| ≤ X ∧ |b| ≤ Y)
    (hx : (pts.map Prod.fst).Nodup) (hok : lagrangeBoundOK pts.length X Y) :
    ∃ T : ℚ, (lagrangeSum (toPoints pts)).toRat = some T ∧
      |T - exactLagrangeSum pts| ≤ lagrangeErrorBound pts.length X Y := by
  obtain ⟨hX1, hX53, h2X, hbig, hw54, hbound⟩ := hok
  obtain ⟨n, hn⟩ : ∃ n, n = pts.length := ⟨_, rfl⟩
  rw [← hn] at h2X hbig hw54 hbound
  have hu := unitRoundoff_pos
  have hXq : (1 : ℚ) ≤ (X : ℚ) := by exact_mod_cast hX1
  -- the constants
  obtain ⟨B, hB⟩ : ∃ B, B = pow2 1022 := ⟨_, rfl⟩
  obtain ⟨Lw, hLwdef⟩ : ∃ Lw, Lw = pow2 (-1021) := ⟨_, rfl⟩
  have hB2 : pow2 1023 = 2 * B := by
    rw [hB, show (1023 : ℤ) = 1022 + 1 by norm_num, pow2_two_mul]
  have hLw2 : pow2 (-1022) = Lw / 2 := by
    rw [hLwdef, show (-1021 : ℤ) = -1022 + 1 by norm_num, pow2_two_mul]
    ring
  have hLw : 0 < Lw := by rw [hLwdef]; exact pow2_pos _
  have hη : pow2 (-1075) = 1 / 2 ^ 1075 := by
    rw [pow2_eq, show (-1075 : ℤ) = -((1075 : ℕ) : ℤ) by norm_num, zpow_neg, zpow_natCast,
      one_div]
  have hmul : ∀ (a b : JSNum) (p q : ℚ), a.toRat = some p → b.toRat = some q →
      (p * q = 0 ∨ (Lw / 2 ≤ |p * q| ∧ |p * q| ≤ 2 * B)) →
      ∃ r : ℚ, (a * b).toRat = some r ∧ |r - p * q| ≤ unitRoundoff * |p * q| := by
    intro a b p q ha hb hr
    rw [← hLw2, ← hB2] at hr
    have := mul_toRat_error a b p q ha hb hr
    rwa [pow2_neg53] at this
  have hdiv : ∀ (a b : JSNum) (p q : ℚ), a.toRat = some p → b.toRat = some q → q ≠ 0 →
      (p = 0 ∨ (Lw / 2 ≤ |p / q| ∧ |p / q| ≤ 2 * B)) →
      ∃ r : ℚ, (a / b).toRat = some r ∧ |r - p / q| ≤ unitRoundoff * |p / q| := by
    intro a b p q ha hb hq hr
    rw [← hLw2, ← hB2] at hr
    have := div_toRat_error a b p q ha hb hq hr
    rwa [pow2_neg53] at this
  have hadd : ∀ (a b : JSNum) (p q : ℚ), a.toRat = some p → b.toRat = some q →
      |p + q| ≤ 2 * B →
      ∃ r : ℚ, (a + b).toRat = some r ∧
        |r - (p + q)| ≤ unitRoundoff * |p + q| + 1 / 2 ^ 1075 := by
    intro a b p q ha hb hr
    rw [← hB2] at hr
    have := add_toRat_error a b p q ha hb hr
    rwa [pow2_neg53, hη] at this
  -- sizes
  have hXB53 : (X : ℚ) ≤ pow2 ((53 : ℕ) : ℤ) := pow2_nat_le X 53 (by omega)
  have hLwX : Lw * (X : ℚ) ≤ 1 := by
    have h1 : Lw ≤ pow2 (-53) := by rw [hLwdef]; exact pow2_le_pow2 (by norm_num)
    have h2 : pow2 (-53) * pow2 ((53 : ℕ) : ℤ) = 1 := by
      rw [← pow2_add]; simp [pow2]
    have h3 : Lw * (X : ℚ) ≤ pow2 (-53) * pow2 ((53 : ℕ) : ℤ) :=
      mul_le_mul h1 hXB53 (by linarith) (le_of_lt (pow2_pos _))
    linarith
  have hXB : (X : ℚ) ≤ 2 * B := by
    have h1 : pow2 ((53 : ℕ) : ℤ) ≤ pow2 1023 := pow2_le_pow2 (by norm_num)
    rw [hB2] at h1
    linarith
  have hMB : (Y : ℚ) * (X : ℚ) ^ n ≤ B := by
    have h1 : 2 * (Y * X ^ n) ≤ 2 ^ 1023 := by
      have : 2 * (Y * X ^ n) ≤ (n + 2) * (Y * X ^ n) := Nat.mul_le_mul_right _ (by omega)
      omega
    have h2 := pow2_nat_le (2 * (Y * X ^ n)) 1023 h1
    have h3 : pow2 ((1023 : ℕ) : ℤ) = 2 * B := hB2
    rw [h3] at h2
    push_cast at h2
    linarith
  have hLow : Lw * (2 * (X : ℚ)) ^ n ≤ 1 := by
    have h1 : (((2 * X) ^ n : ℕ) : ℚ) ≤ pow2 ((1021 : ℕ) : ℤ) :=
      pow2_nat_le ((2 * X) ^ n) 1021 h2X
    have h2 : Lw * pow2 ((1021 : ℕ) : ℤ) = 1 := by
      rw [hLwdef, ← pow2_add]; simp [pow2]
    have h3 := mul_le_mul_of_nonneg_left h1 (le_of_lt hLw)
    rw [h2] at h3
    push_cast at h3
    exact h3
  have hbigq : ((n : ℚ) + 2) * ((Y : ℚ) * (X : ℚ) ^ n) + 1 ≤ 2 * B := by
    have h1 := pow2_nat_le ((n + 2) * (Y * X ^ n) + 1) 1023 hbig
    have h3 : pow2 ((1023 : ℕ) : ℤ) = 2 * B := hB2
    rw [h3] at h1
    push_cast at h1
    exact h1
  clear hB hLwdef hB2 hLw2 hη hXB53
  obtain ⟨w, hw⟩ : ∃ w, w = (1 + unitRoundoff) ^ (2 * n) := ⟨_, rfl⟩
  obtain ⟨M, hM⟩ : ∃ M, M = (Y : ℚ) * (X : ℚ) ^ n := ⟨_, rfl⟩
  obtain ⟨K, hK⟩ : ∃ K, K = (w - 1) * M + unitRoundoff * ((n : ℚ) + w) * M + 1 / 2 ^ 1075 :=
    ⟨_, rfl⟩
  have hw1 : 1 ≤ w := by rw [hw]; exact one_le_one_add_unitRoundoff_pow _
  have hM0 : 0 ≤ M := by
    rw [hM]
    exact mul_nonneg (Nat.cast_nonneg _) (pow_nonneg (Nat.cast_nonneg _) _)
  have hEq : lagrangeErrorBound n X Y = sumErrorBound K n := by
    unfold lagrangeErrorBound
    rw [hK, hw, hM]
  have hG : sumErrorBound K n < 1 / 2 := by
    rw [← hEq]
    exact hbound
  -- every term
  have hterm : ∀ (k : ℕ) (p : ℚ × ℚ), pts[k]? = some p →
      ∃ t : ℚ, (basisLoop (fin p.1) k (toPoints pts) 0 (fin p.2)).toRat = some t ∧
        |t - exactBasisLoop p.1 k pts 0 p.2| ≤ (w - 1) * |exactBasisLoop p.1 k pts 0 p.2| ∧
        |exactBasisLoop p.1 k pts 0 p.2| ≤ M := by
    intro k p hp
    have hmem : p ∈ pts := List.getElem?_mem hp
    obtain ⟨a, b, hpa, hpb, ha, hb⟩ := hint p hmem
    have hxs : ∀ q ∈ pts, ∃ a : ℤ, q.1 = (a : ℚ) ∧ |a| ≤ X := by
      intro q hq
      obtain ⟨a2, _, h1, _, h3, _⟩ := hint q hq
      exact ⟨a2, h1, h3⟩
    have hdist : ∀ (k2 : ℕ) (p2 : ℚ × ℚ), pts[k2]? = some p2 → 0 + k2 ≠ k →
        p2.1 ≠ (a : ℚ) := by
      intro k2 p2 h2 hne
      rw [← hpa]
      exact getElem?_fst_ne_of_nodup pts hx k k2 p p2 hp h2 (by omega)
    have hbq : |(b : ℚ)| ≤ (Y : ℚ) := by
      have : ((|b| : ℤ) : ℚ) ≤ (((Y : ℤ)) : ℚ) := by exact_mod_cast hb
      simpa using this
    have hXn : (0 : ℚ) ≤ (X : ℚ) ^ n := pow_nonneg (Nat.cast_nonneg _) _
    have hup : |(b : ℚ)| * (X : ℚ) ^ pts.length ≤ B := by
      rw [← hn]
      exact le_trans (mul_le_mul_of_nonneg_right hbq hXn) hMB
    have hlow : (b : ℚ) = 0 ∨ Lw * (2 * (X : ℚ)) ^ pts.length ≤ |(b : ℚ)| := by
      by_cases hb0 : b = 0
      · left; exact_mod_cast hb0
      · right
        rw [← hn]
        have : (1 : ℚ) ≤ |(b : ℚ)| := by
          have h1 : (1 : ℤ) ≤ |b| := Int.one_le_abs hb0
          have : ((1 : ℤ) : ℚ) ≤ ((|b| : ℤ) : ℚ) := by exact_mod_cast h1
          simpa using this
        linarith
    have hcore := basisLoop_error_core B Lw hLw hmul hdiv X hX1 hX53 hLwX hXB a ha k pts 0
      (fin (b : ℚ)) (b : ℚ) (b : ℚ) 1 hxs hdist rfl le_rfl (by simp)
      (by rw [one_mul, ← hn]; exact hw54) hup hlow
    obtain ⟨t, ht1, ht2⟩ := hcore
    rw [one_mul, ← hn, ← hw] at ht2
    refine ⟨t, ?_, ?_, ?_⟩
    · rw [hpa, hpb]; exact ht1
    · rw [hpa, hpb]; exact ht2
    · rw [hpa, hpb]
      have := exactBasisLoop_abs_le X hX1 a ha k pts 0 (b : ℚ) hxs hdist
      rw [← hn] at this
      rw [hM]
      exact le_trans this (mul_le_mul_of_nonneg_right hbq hXn)
  -- the sum
  have hrange : (pts.length : ℚ) * M + sumErrorBound K pts.length + w * M ≤ 2 * B := by
    rw [← hn]
    have h1 := hbigq
    rw [← hM] at h1
    have hw2 : w * M ≤ 2 * M := by
      apply mul_le_mul_of_nonneg_right _ hM0
      rw [hw]; linarith
    linarith
  have hsum := termLoop_error_core (2 * B) (1 / 2 ^ 1075)
    (div_nonneg zero_le_one (pow_nonneg (by norm_num) _)) hadd pts w M K hw1 hM0
    (by rw [← hn]; exact hK) hrange hterm pts 0 (fin 0) 0 0
    (by intro k p hk; simpa using hk) (by simp) rfl (by simp) (by simp [sumErrorBound])
  obtain ⟨T, hT1, hT2⟩ := hsum
  refine ⟨T, hT1, ?_⟩
  rw [← hn, hEq]
  rw [← hn] at hT2
  exact hT2

/-- For points with integer coordinates `|x| ≤ X`, `|y| ≤ Y` and pairwise
distinct x, the size conditions `lagrangeBoundOK` keep the rounding error of
the floating-point Lagrange sum below one half. -/
theorem roundingErrorSmall_of_bound (pts : List (ℚ × ℚ)) (X Y : ℕ)
    (hint : ∀ p ∈ pts, ∃ a b : ℤ, p.1 = (a : ℚ) ∧ p.2 = (b : ℚ) ∧ |a| ≤ X ∧ |b| ≤ Y)
    (hx : (pts.map Prod.fst).Nodup) (hok : lagrangeBoundOK pts.length X Y) :
    roundingErrorSmall pts := by
  obtain ⟨T, hT1, hT2⟩ := lagrangeSum_error_of_bound pts X Y hint hx hok
  unfold roundingErrorSmall
  rw [hT1]
  exact lt_of_le_of_lt hT2 hok.2.2.2.2.2

/-! ### Exactness of `lagrangeInterpolation` on small integer points -/

theorem samplePoints_int (coeffs xs : List ℤ) (X Y : ℕ) (hX : ∀ x ∈ xs, |x| ≤ X)
    (hY : ∀ x ∈ xs, |evalPoly coeffs x| ≤ Y) :
    ∀ p ∈ samplePoints coeffs xs,
      ∃ a b : ℤ, p.1 = (a : ℚ) ∧ p.2 = (b : ℚ) ∧ |a| ≤ X ∧ |b| ≤ Y := by
  intro p hp
  unfold samplePoints at hp
  rw [List.mem_map] at hp
  obtain ⟨x, hxm, rfl⟩ := hp
  exact ⟨x, evalPoly coeffs x, rfl, rfl, hX x hxm, hY x hxm⟩

theorem roundingErrorSmall_samplePoints (coeffs xs : List ℤ) (X Y : ℕ) (hx : xs.Nodup)
    (hX : ∀ x ∈ xs, |x| ≤ X) (hY : ∀ x ∈ xs, |evalPoly coeffs x| ≤ Y)
    (hok : lagrangeBoundOK xs.length X Y) : roundingErrorSmall (samplePoints coeffs xs) := by
  apply roundingErrorSmall_of_bound _ X Y (samplePoints_int coeffs xs X Y hX hY)
    (samplePoints_nodup coeffs xs hx)
  rw [samplePoints_length]
  exact hok

/-- C2 (amended): for a polynomial `p` with integer coefficients and degree at
most `d` and `d + 1` points `(x_i, p (x_i))` at pairwise distinct integers
with `|x_i| ≤ X` and `|p (x_i)| ≤ Y`, `lagrangeInterpolation` returns exactly
`p 0` whenever the size conditions `lagrangeBoundOK (d + 1) X Y` hold, which
keep the accumulated rounding error below one half. -/
theorem lagrangeInterpolation_constant_term (coeffs xs : List ℤ) (d X Y : ℕ)
    (hdeg : coeffs.length ≤ d + 1) (hlen : xs.length = d + 1) (hx : xs.Nodup)
    (hX : ∀ x ∈ xs, |x| ≤ X) (hY : ∀ x ∈ xs, |evalPoly coeffs x| ≤ Y)
    (hok : lagrangeBoundOK (d + 1) X Y) :
    (lagrangeInterpolation (toPoints (samplePoints coeffs xs))).toRat
      = some ((evalPoly coeffs 0 : ℤ) : ℚ) :=
  lagrangeInterpolation_of_small_error _ _
    (exactLagrangeSum_samplePoints coeffs xs hx (by omega))
    (roundingErrorSmall_samplePoints coeffs xs X Y hx hX hY (by rw [hlen]; exact hok))

/-- C2 (amended), at `p = 3 + x ^ 2` and `x = 1, 2, 6` with `X = 6`, `Y = 39`:
the result is 3. -/
theorem lagrangeInterpolation_constant_term_witness :
    (lagrangeInterpolation (toPoints (samplePoints [3, 0, 1] [1, 2, 6]))).toRat
      = some ((evalPoly [3, 0, 1] 0 : ℤ) : ℚ) :=
  lagrangeInterpolation_constant_term [3, 0, 1] [1, 2, 6] 2 6 39 (by decide) (by decide)
    (by decide) (by decide) (by decide) (by decide!)

/-- C17 (amended): for points with integer coordinates `|x| ≤ X`, `|y| ≤ Y`,
pairwise distinct x and an integer exact Lagrange sum, `lagrangeInterpolation`
gives that integer for the list and for every permutation of it, whenever the
size conditions `lagrangeBoundOK n X Y` hold.  (The exact sum itself never
depends on the order.) -/
theorem lagrangeInterpolation_perm (points points2 : List (ℚ × ℚ)) (m : ℤ) (X Y : ℕ)
    (hint : ∀ p ∈ points, ∃ a b : ℤ, p.1 = (a : ℚ) ∧ p.2 = (b : ℚ) ∧ |a| ≤ X ∧ |b| ≤ Y)
    (hx : (points.map Prod.fst).Nodup) (hp : points.Perm points2)
    (hS : exactLagrangeSum points = (m : ℚ)) (hok : lagrangeBoundOK points.length X Y) :
    exactLagrangeSum points2 = exactLagrangeSum points ∧
    (lagrangeInterpolation (toPoints points)).toRat = some (m : ℚ) ∧
    (lagrangeInterpolation (toPoints points2)).toRat = some (m : ℚ) := by
  have hperm := exactLagrangeSum_perm points points2 hx hp
  have hx2 : (points2.map Prod.fst).Nodup := (hp.map Prod.fst).nodup_iff.mp hx
  have h1 := roundingErrorSmall_of_bound points X Y hint hx hok
  have h2 := roundingErrorSmall_of_bound points2 X Y
    (fun p hp2 => hint p (hp.mem_iff.mpr hp2)) hx2 (by rw [← hp.length_eq]; exact hok)
  exact ⟨hperm.symm, lagrangeInterpolation_of_small_error points m hS h1,
    lagrangeInterpolation_of_small_error points2 m (by rw [← hperm]; exact hS) h2⟩

/-- C17 (amended), at the points (1,4), (2,7), (3,12) and the order (3,12),
(1,4), (2,7). -/
theorem lagrangeInterpolation_perm_witness :
    exactLagrangeSum [(((3 : ℤ) : ℚ), ((12 : ℤ) : ℚ)), (((1 : ℤ) : ℚ), ((4 : ℤ) : ℚ)),
        (((2 : ℤ) : ℚ), ((7 : ℤ) : ℚ))]
      = exactLagrangeSum [(((1 : ℤ) : ℚ), ((4 : ℤ) : ℚ)), (((2 : ℤ) : ℚ), ((7 : ℤ) : ℚ)),
        (((3 : ℤ) : ℚ), ((12 : ℤ) : ℚ))] ∧
    (lagrangeInterpolation (toPoints [(((1 : ℤ) : ℚ), ((4 : ℤ) : ℚ)),
        (((2 : ℤ) : ℚ), ((7 : ℤ) : ℚ)), (((3 : ℤ) : ℚ), ((12 : ℤ) : ℚ))])).toRat
      = some ((3 : ℤ) : ℚ) ∧
    (lagrangeInterpolation (toPoints [(((3 : ℤ) : ℚ), ((12 : ℤ) : ℚ)),
        (((1 : ℤ) : ℚ), ((4 : ℤ) : ℚ)), (((2 : ℤ) : ℚ), ((7 : ℤ) : ℚ))])).toRat
      = some ((3 : ℤ) : ℚ) :=
  lagrangeInterpolation_perm _ _ 3 3 12
    (by
      intro p hp
      simp only [List.mem_cons, List.mem_singleton, List.not_mem_nil, or_false] at hp
      rcases hp with rfl | rfl | rfl
      · exact ⟨1, 4, rfl, rfl, by decide, by decide⟩
      · exact ⟨2, 7, rfl, rfl, by decide, by decide⟩
      · exact ⟨3, 12, rfl, rfl, by decide, by decide⟩)
    (by decide!) (by decide) (by decide!) (by decide!)

/-- C18 (amended): for points with integer coordinates `|x| ≤ X`, `|y| ≤ Y` and
pairwise distinct x that contain a point `(0, y)`, `lagrangeInterpolation`
returns `y` whenever the size conditions `lagrangeBoundOK n X Y` hold; and for
a single point `(x, y)` with an integer `|y| ≤ 2 ^ 53` it returns `y` for any
`x`. -/
theorem lagrangeInterpolation_zero_point (points : List (ℚ × ℚ)) (y : ℤ) (X Y : ℕ)
    (hint : ∀ p ∈ points, ∃ a b : ℤ, p.1 = (a : ℚ) ∧ p.2 = (b : ℚ) ∧ |a| ≤ X ∧ |b| ≤ Y)
    (hx : (points.map Prod.fst).Nodup) (h0 : ((0 : ℚ), (y : ℚ)) ∈ points)
    (hok : lagrangeBoundOK points.length X Y) :
    (lagrangeInterpolation (toPoints points)).toRat = some (y : ℚ) ∧
    (∀ (x : JSNum) (v : ℤ), |v| ≤ 2 ^ 53 →
      lagrangeInterpolation [{ x := x, y := fin (v : ℚ) }] = fin (v : ℚ)) := by
  refine ⟨lagrangeInterpolation_of_small_error points y
    (exactLagrangeSum_of_zero_mem points y hx h0)
    (roundingErrorSmall_of_bound points X Y hint hx hok), ?_⟩
  intro x v hv
  unfold lagrangeInterpolation lagrangeSum termLoop termLoop basisLoop basisLoop
  simp only [ne_eq, not_true_eq_false, if_false]
  have h := add_fin_int 0 v (by simpa using hv)
  simp only [Int.cast_zero, zero_add] at h
  rw [h]
  unfold mathRound
  simp only
  have hfl : ⌊(v : ℚ) + 1 / 2⌋ = v := by
    rw [Int.floor_eq_iff]
    constructor <;> linarith
  rw [hfl]
  split_ifs with hc
  · exfalso
    have := hc.2
    rw [hc.1] at this
    simp at this
  · rfl

/-- C18 (amended), at the points (2,12), (0,4), (1,6). -/
theorem lagrangeInterpolation_zero_point_witness :
    (lagrangeInterpolation (toPoints [(((2 : ℤ) : ℚ), ((12 : ℤ) : ℚ)),
        ((0 : ℚ), ((4 : ℤ) : ℚ)), (((1 : ℤ) : ℚ), ((6 : ℤ) : ℚ))])).toRat
        = some ((4 : ℤ) : ℚ) ∧
    (∀ (x : JSNum) (v : ℤ), |v| ≤ 2 ^ 53 →
      lagrangeInterpolation [{ x := x, y := fin (v : ℚ) }] = fin (v : ℚ)) :=
  lagrangeInterpolation_zero_point _ 4 2 12
    (by
      intro p hp
      simp only [List.mem_cons, List.mem_singleton, List.not_mem_nil, or_false] at hp
      rcases hp with rfl | rfl | rfl
      · exact ⟨2, 12, rfl, rfl, by decide, by decide⟩
      · exact ⟨0, 4, by simp, rfl, by decide, by decide⟩
      · exact ⟨1, 6, rfl, rfl, by decide, by decide⟩)
    (by decide!) (by simp) (by decide!)

/-- C4 (amended): when the sorted decoded points of a document are the samples
of one integer polynomial of degree at most `k - 1` at pairwise distinct
integers, with at least `k` points, the secret returned by
`solvePolynomialSecret` and every verification secret it logs (last `k`
points, centred window) equal the constant term of the polynomial, provided `|x| ≤ X` and
`|p x| ≤ Y` at every point and the size conditions `lagrangeBoundOK k X Y`
hold, which keep the accumulated rounding error below one half. -/
theorem solvePolynomialSecret_selections_agree (data : Document) (keys : Keys) (k : ℕ)
    (decoded : List Point) (coeffs xs : List ℤ) (X Y : ℕ)
    (hkeys : data.keys = some keys) (hk : keys.k = some (k : ℤ))
    (hdec : decodePoints data.entries = Except.ok decoded)
    (hsorted : sortPoints decoded = toPoints (samplePoints coeffs xs))
    (hk1 : 1 ≤ k) (hdeg : coeffs.length ≤ k) (hx : xs.Nodup) (hcount : k ≤ xs.length)
    (hX : ∀ x ∈ xs, |x| ≤ X) (hY : ∀ x ∈ xs, |evalPoly coeffs x| ≤ Y)
    (hok : lagrangeBoundOK k X Y) :
    ∃ outcome, solvePolynomialSecretTrace data = Except.ok outcome ∧
      outcome.secret.toRat = some ((evalPoly coeffs 0 : ℤ) : ℚ) ∧
      (xs.length = k → outcome.verifyLog.length = 0) ∧
      (xs.length = k + 1 → outcome.verifyLog.length = 1) ∧
      (k + 2 ≤ xs.length → outcome.verifyLog.length = 2) ∧
      ∀ v ∈ outcome.verifyLog, v.toRat = some ((evalPoly coeffs 0 : ℤ) : ℚ) := by
  have herr : ∀ s, s + k ≤ xs.length →
      roundingErrorSmall (samplePoints coeffs ((xs.drop s).take k)) := by
    intro s hs
    have hsub : ((xs.drop s).take k).Sublist xs :=
      (List.take_sublist _ _).trans (List.drop_sublist _ _)
    apply roundingErrorSmall_samplePoints coeffs _ X Y (hx.sublist hsub)
      (fun x hxm => hX x (hsub.subset hxm)) (fun x hxm => hY x (hsub.subset hxm))
    have hl : ((xs.drop s).take k).length = k := by
      rw [List.length_take, List.length_drop]
      omega
    rw [hl]
    exact hok
  have hlen : decoded.length = xs.length := by
    rw [← sortPoints_length, hsorted, toPoints_samplePoints_length]
  have htrace := solvePolynomialSecretTrace_eq data keys k decoded hkeys hk hdec
  rw [hsorted] at htrace
  obtain ⟨hnone, hone, htwo⟩ := verifySecrets_eq (toPoints (samplePoints coeffs xs)) k hk1
  rw [toPoints_samplePoints_length] at hnone hone htwo
  have hfirst : slice (toPoints (samplePoints coeffs xs)) 0 (k : ℤ)
      = ((toPoints (samplePoints coeffs xs)).drop 0).take k := by
    have := slice_eq_drop_take (toPoints (samplePoints coeffs xs)) 0 k
      (by rw [toPoints_samplePoints_length]; omega)
    simpa using this
  have hlast : (toPoints (samplePoints coeffs xs)).drop (xs.length - k)
      = ((toPoints (samplePoints coeffs xs)).drop (xs.length - k)).take k := by
    rw [List.take_of_length_le]
    rw [List.length_drop, toPoints_samplePoints_length]
    omega
  refine ⟨_, htrace, ?_, ?_, ?_, ?_, ?_⟩
  · show (lagrangeInterpolation (slice (toPoints (samplePoints coeffs xs)) 0 (k : ℤ))).toRat = _
    rw [hfirst]
    exact window_secret coeffs xs 0 k hx hdeg (by omega) (herr 0 (by omega))
  · intro h
    show (verifySecrets (toPoints (samplePoints coeffs xs)) k).length = 0
    rw [hnone (by omega)]; rfl
  · intro h
    show (verifySecrets (toPoints (samplePoints coeffs xs)) k).length = 1
    rw [hone h]; rfl
  · intro h
    show (verifySecrets (toPoints (samplePoints coeffs xs)) k).length = 2
    rw [htwo h]; rfl
  · intro v hv
    change v ∈ verifySecrets (toPoints (samplePoints coeffs xs)) k at hv
    rcases Nat.lt_or_ge xs.length (k + 1) with h | h
    · rw [hnone (by omega)] at hv
      simp at hv
    · rcases Nat.lt_or_ge xs.length (k + 2) with h2 | h2
      · rw [hone (by omega)] at hv
        simp only [List.mem_singleton] at hv
        rw [hv, hlast]
        exact window_secret coeffs xs _ k hx hdeg (by omega) (herr _ (by omega))
      · rw [htwo h2] at hv
        simp only [List.mem_cons, List.mem_singleton, List.not_mem_nil, or_false] at hv
        rcases hv with hv | hv
        · rw [hv, hlast]
          exact window_secret coeffs xs _ k hx hdeg (by omega) (herr _ (by omega))
        · rw [hv]
          exact window_secret coeffs xs _ k hx hdeg (by omega) (herr _ (by omega))

/-- C4 (amended), at `testCase1`, whose points lie on `3 + x ^ 2`. -/
theorem solvePolynomialSecret_selections_agree_witness :
    ∃ outcome, solvePolynomialSecretTrace testCase1 = Except.ok outcome ∧
      outcome.secret.toRat = some ((evalPoly [3, 0, 1] 0 : ℤ) : ℚ) ∧
      (([1, 2, 3, 6] : List ℤ).length = 3 → outcome.verifyLog.length = 0) ∧
      (([1, 2, 3, 6] : List ℤ).length = 3 + 1 → outcome.verifyLog.length = 1) ∧
      (3 + 2 ≤ ([1, 2, 3, 6] : List ℤ).length → outcome.verifyLog.length = 2) ∧
      ∀ v ∈ outcome.verifyLog, v.toRat = some ((evalPoly [3, 0, 1] 0 : ℤ) : ℚ) :=
  solvePolynomialSecret_selections_agree testCase1 { n := some 4, k := some 3 } 3
    [⟨fin 1, fin 4⟩, ⟨fin 2, fin 7⟩, ⟨fin 3, fin 12⟩, ⟨fin 6, fin 39⟩] [3, 0, 1] [1, 2, 3, 6]
    6 39 rfl rfl (by decide!) (by decide!) (by decide) (by decide) (by decide) (by decide)
    (by decide) (by decide) (by decide!)

/-- C9 (amended): for points with integer coordinates `|x| ≤ X`, `|y| ≤ Y` and
pairwise distinct x for which the size conditions `lagrangeBoundOK n X Y`
hold, with `S` the exact rational Lagrange sum and `E = lagrangeErrorBound n X Y
< 1/2`: `lagrangeInterpolation` returns an integer `r` with
`⌊S + 1/2 - E⌋ ≤ r ≤ ⌊S + 1/2 + E⌋` and `|r - S| ≤ 1/2 + E`; it returns
`⌊S + 1/2⌋` whenever `⌊S + 1/2 - E⌋ = ⌊S + 1/2 + E⌋`, that is whenever
`S + 1/2` is not within `E` of an integer; and it returns `S` when `S` is an
integer. -/
theorem lagrangeInterpolation_rounds_near_exact_sum (points : List (ℚ × ℚ)) (X Y : ℕ)
    (hint : ∀ p ∈ points, ∃ a b : ℤ, p.1 = (a : ℚ) ∧ p.2 = (b : ℚ) ∧ |a| ≤ X ∧ |b| ≤ Y)
    (hx : (points.map Prod.fst).Nodup) (hok : lagrangeBoundOK points.length X Y) :
    (∃ r : ℤ, (lagrangeInterpolation (toPoints points)).toRat = some (r : ℚ) ∧
      ⌊exactLagrangeSum points + 1 / 2 - lagrangeErrorBound points.length X Y⌋ ≤ r ∧
      r ≤ ⌊exactLagrangeSum points + 1 / 2 + lagrangeErrorBound points.length X Y⌋ ∧
      |(r : ℚ) - exactLagrangeSum points| ≤ 1 / 2 + lagrangeErrorBound points.length X Y) ∧
    (⌊exactLagrangeSum points + 1 / 2 - lagrangeErrorBound points.length X Y⌋
        = ⌊exactLagrangeSum points + 1 / 2 + lagrangeErrorBound points.length X Y⌋ →
      (lagrangeInterpolation (toPoints points)).toRat
        = some ((⌊exactLagrangeSum points + 1 / 2⌋ : ℤ) : ℚ)) ∧
    (∀ m : ℤ, exactLagrangeSum points = (m : ℚ) →
      (lagrangeInterpolation (toPoints points)).toRat = some (m : ℚ)) := by
  obtain ⟨T, hT, herr⟩ := lagrangeSum_error_of_bound points X Y hint hx hok
  have hE : lagrangeErrorBound points.length X Y < 1 / 2 := hok.2.2.2.2.2
  obtain ⟨E, hEdef⟩ : ∃ E, E = lagrangeErrorBound points.length X Y := ⟨_, rfl⟩
  obtain ⟨S, hSdef⟩ : ∃ S, S = exactLagrangeSum points := ⟨_, rfl⟩
  rw [← hEdef] at herr hE ⊢
  rw [← hSdef] at herr ⊢
  have hres : (lagrangeInterpolation (toPoints points)).toRat
      = some ((⌊T + 1 / 2⌋ : ℤ) : ℚ) := mathRound_toRat _ T hT
  have hab := abs_le.mp herr
  have hE0 : 0 ≤ E := le_trans (abs_nonneg _) herr
  have hlo : ⌊S + 1 / 2 - E⌋ ≤ ⌊T + 1 / 2⌋ := Int.floor_mono (by linarith [hab.1])
  have hhi : ⌊T + 1 / 2⌋ ≤ ⌊S + 1 / 2 + E⌋ := Int.floor_mono (by linarith [hab.2])
  refine ⟨⟨⌊T + 1 / 2⌋, hres, hlo, hhi, ?_⟩, ?_, ?_⟩
  · have h1 := Int.floor_le (T + 1 / 2)
    have h2 := Int.lt_floor_add_one (T + 1 / 2)
    rw [abs_le]
    constructor <;> linarith [hab.1, hab.2]
  · intro heq
    have h1 : ⌊S + 1 / 2 - E⌋ ≤ ⌊S + 1 / 2⌋ := Int.floor_mono (by linarith)
    have h2 : ⌊S + 1 / 2⌋ ≤ ⌊S + 1 / 2 + E⌋ := Int.floor_mono (by linarith)
    have h3 : ⌊T + 1 / 2⌋ = ⌊S + 1 / 2⌋ := by omega
    rw [hres, h3]
  · intro m hm
    rw [hres, floor_add_half_eq_of_close T m (by rw [← hm]; exact lt_of_le_of_lt herr hE)]

/-- C9 (amended), at the points (1,74), (4,194), (9,30): the exact sum is
`S = -12/5`, `S + 1/2` is not within the error bound of an integer, and the
result is `⌊S + 1/2⌋ = -2`. -/
theorem lagrangeInterpolation_rounds_near_exact_sum_witness :
    exactLagrangeSum [(1, 74), (4, 194), (9, 30)] = -12 / 5 ∧
    (lagrangeInterpolation (toPoints [(1, 74), (4, 194), (9, 30)])).toRat
      = some ((⌊exactLagrangeSum [(1, 74), (4, 194), (9, 30)] + 1 / 2⌋ : ℤ) : ℚ) ∧
    (⌊exactLagrangeSum [(1, 74), (4, 194), (9, 30)] + 1 / 2⌋ : ℤ) = -2 :=
  ⟨by decide!,
    (lagrangeInterpolation_rounds_near_exact_sum [(1, 74), (4, 194), (9, 30)] 9 194
      (by
        intro p hp
        simp only [List.mem_cons, List.mem_singleton, List.not_mem_nil, or_false] at hp
        rcases hp with rfl | rfl | rfl
        · exact ⟨1, 74, by norm_num, by norm_num, by decide, by decide⟩
        · exact ⟨4, 194, by norm_num, by norm_num, by decide, by decide⟩
        · exact ⟨9, 30, by norm_num, by norm_num, by decide, by decide⟩)
      (by decide!) (by decide!)).2.1 (by decide!),
    by decide!⟩

end Hashira
